import Mathlib

/-!
Verification development for the Star Battle solving core
(`UltimateStarBattleSolver` in `RedditBruteForce.py`).

The Python code is shallowly embedded: boards are lists of lists of
integers (`EMPTY = 0`, `STAR = 1`, `ELIMINATED = -1`), in-place mutation
becomes explicit state passing, the `while made_change` fixpoint loop is
run on explicit fuel (with the fuel bound proved sufficient), and the
recursion of `_backtrack` is run on fuel bounded by the number of
unsolved regions.  Python's `frozenset` values (whose iteration order is
an implementation detail of the hash table) are modelled by canonically
sorted duplicate-free lists.
-/

namespace StarBattle

/-- Cell states, as in the source: `EMPTY, STAR, ELIMINATED = 0, 1, -1`. -/
def EMPTY : Int := 0

/-- A placed star. -/
def STAR : Int := 1

/-- A cell proven to hold no star. -/
def ELIMINATED : Int := -1

/-- A coordinate `(row, column)`. -/
abbrev Cell := Nat × Nat

/-- The working board: a list of rows of cell states. -/
abbrev Board := List (List Int)

/-- Read a cell.  Out-of-range reads (which raise `IndexError` in Python and
never happen on well-shaped boards) default to `ELIMINATED`, which makes all
guarded writes out of range into no-ops. -/
def getCell (b : Board) (r c : Nat) : Int := (b.getD r []).getD c ELIMINATED

/-- Write a cell (`board[r][c] = v`).  Out of range this is a no-op. -/
def setCell (b : Board) (r c : Nat) (v : Int) : Board :=
  b.set r ((b.getD r []).set c v)

/-- The puzzle model handed to `UltimateStarBattleSolver.__init__`:
the region-id grid and the number of stars per row/column/region. -/
structure Puzzle where
  regionGrid : List (List Nat)
  starsPerRegion : Nat
deriving DecidableEq

/-- `self.dim = len(region_grid)`. -/
def Puzzle.dim (P : Puzzle) : Nat := P.regionGrid.length

/-- Read the region id of a cell of the grid. -/
def gridGet (g : List (List Nat)) (r c : Nat) : Nat := (g.getD r []).getD c 0

/-- All coordinates of an `n × n` grid in row-major order. -/
def allCoords (n : Nat) : List Cell :=
  (List.range n).flatMap (fun r => (List.range n).map (fun c => (r, c)))

/-- First-occurrence deduplication (the key order of the Python `defaultdict`
`self.regions`, which iterates the grid row-major and keeps insertion order). -/
def dedupFirstAux (seen : List Nat) : List Nat → List Nat
  | [] => []
  | x :: xs =>
    if x ∈ seen then dedupFirstAux seen xs
    else x :: dedupFirstAux (x :: seen) xs

/-- The region ids of a puzzle, in first-occurrence (row-major) order. -/
def regionIds (P : Puzzle) : List Nat :=
  dedupFirstAux [] ((allCoords P.dim).map (fun rc => gridGet P.regionGrid rc.1 rc.2))

/-- The member cells of a region, in row-major order
(the order `self.regions[region_id]` is built in). -/
def regionCells (P : Puzzle) (id : Nat) : List Cell :=
  (allCoords P.dim).filter (fun rc => gridGet P.regionGrid rc.1 rc.2 = id)

/-- A row as a group of cells. -/
def rowGroup (n r : Nat) : List Cell := (List.range n).map (fun c => (r, c))

/-- A column as a group of cells. -/
def colGroup (n c : Nat) : List Cell := (List.range n).map (fun r => (r, c))

/-- The `groups` list of `_propagate_constraints`: all rows, then all
columns, then all regions. -/
def groups (P : Puzzle) : List (List Cell) :=
  (List.range P.dim).map (rowGroup P.dim) ++ (List.range P.dim).map (colGroup P.dim)
    ++ (regionIds P).map (fun id => regionCells P id)

/-- `sum(1 for r, c in group if board[r][c] == STAR)`. -/
def starCount (b : Board) (g : List Cell) : Nat :=
  (g.filter (fun rc => getCell b rc.1 rc.2 = STAR)).length

/-- `[(r, c) for r, c in group if board[r][c] == EMPTY]`. -/
def availCells (b : Board) (g : List Cell) : List Cell :=
  g.filter (fun rc => getCell b rc.1 rc.2 = EMPTY)

/-- `sum(row.count(STAR) for row in board)`. -/
def totalStars (b : Board) : Nat :=
  (b.map (fun row => (row.filter (fun v => v = STAR)).length)).sum

/-- The number of `EMPTY` (unknown) cells of a board — the termination
measure of the propagation fixpoint loop. -/
def countEmpty (b : Board) : Nat :=
  (b.map (fun row => (row.filter (fun v => v = EMPTY)).length)).sum

/-- `itertools.combinations`: all length-`n` subsequences of a list,
in the order Python generates them. -/
def combinations : Nat → List Cell → List (List Cell)
  | 0, _ => [[]]
  | _ + 1, [] => []
  | n + 1, x :: xs => (combinations n xs).map (fun t => x :: t) ++ combinations (n + 1) xs

/-- The internal-validity test of `_get_internally_valid_combos`:
`abs(r1 - r2) <= 1 and abs(c1 - c2) <= 1` (truncated `Nat` subtraction in
both directions encodes the absolute value). -/
def adjTouch (a b : Cell) : Bool :=
  (a.1 - b.1 ≤ 1 && b.1 - a.1 ≤ 1) && (a.2 - b.2 ≤ 1 && b.2 - a.2 ≤ 1)

/-- The pairwise scan over `i < j` of a combination: `true` iff no two
cells of the list touch (8-adjacency). -/
def pairwiseNonTouch : List Cell → Bool
  | [] => true
  | x :: xs => xs.all (fun y => !(adjTouch x y)) && pairwiseNonTouch xs

/-- The strict lexicographic order used to canonicalise cell sets
(modelling the order-independence of Python's `frozenset`). -/
def cellLe (a b : Cell) : Prop := a.1 < b.1 ∨ (a.1 = b.1 ∧ a.2 ≤ b.2)

instance : DecidableRel cellLe := fun a b => by
  unfold cellLe; infer_instance

instance : IsTotal Cell cellLe := by
  constructor; intro a b; unfold cellLe; omega

instance : IsTrans Cell cellLe := by
  constructor; intro a b c; unfold cellLe; omega

instance : IsAntisymm Cell cellLe := by
  constructor; intro a b; unfold cellLe
  intro h1 h2
  have : a.1 = b.1 ∧ a.2 = b.2 := by omega
  exact Prod.ext this.1 this.2

instance : IsRefl Cell cellLe := by
  constructor; intro a; unfold cellLe; omega

/-- Canonical (sorted, duplicate-free) form of a cell collection: the
order-independent normalisation a `frozenset` argument provides. -/
def canonCells (l : List Cell) : List Cell := (l.dedup).insertionSort cellLe

/-- `_get_internally_valid_combos(available_cells, num_to_place)`:
all size-`num_to_place` combinations of the candidate set with no two
member cells mutually 8-adjacent; for `num_to_place ≤ 1` the pairwise
scan is skipped.  The candidate set is canonicalised first, mirroring the
`frozenset` argument (and `lru_cache` key) of the Python staticmethod. -/
def getInternallyValidCombos (available : List Cell) (numToPlace : Nat) : List (List Cell) :=
  (combinations numToPlace (canonCells available)).filter
    (fun combo => if 1 < numToPlace then pairwiseNonTouch combo else true)

/-- The nine direction offsets `(dr, dc)` for `dr, dc in range(-1, 2)`,
in Python's iteration order. -/
def offsets : List (Int × Int) :=
  [(-1, -1), (-1, 0), (-1, 1), (0, -1), (0, 0), (0, 1), (1, -1), (1, 0), (1, 1)]

/-- `0 <= r < dim and 0 <= c < dim`. -/
def inBounds (dim : Nat) (r c : Int) : Bool :=
  0 ≤ r && r < (dim : Int) && 0 ≤ c && c < (dim : Int)

/-- `_is_placement_valid(r, c, board)`: no already-placed star in any of
the eight neighbouring cells. -/
def isPlacementValid (dim : Nat) (b : Board) (r c : Nat) : Bool :=
  offsets.all (fun d =>
    if d = (0, 0) then true
    else if inBounds dim ((r : Int) + d.1) ((c : Int) + d.2) then
      !(getCell b ((r : Int) + d.1).toNat ((c : Int) + d.2).toNat = STAR)
    else true)

/-- Eliminate every `EMPTY` cell in the 3×3 neighbourhood of `(r, c)`
(the inner double loop of the adjacency-elimination pass; the source does
not skip `(0, 0)` there, which is harmless since the centre holds a star). -/
def elimAround (dim : Nat) (r c : Nat) (bm : Board × Bool) : Board × Bool :=
  offsets.foldl (fun bm d =>
    let nr : Int := (r : Int) + d.1
    let nc : Int := (c : Int) + d.2
    if inBounds dim nr nc ∧ getCell bm.1 nr.toNat nc.toNat = EMPTY then
      (setCell bm.1 nr.toNat nc.toNat ELIMINATED, true)
    else bm) bm

/-- The adjacency-elimination pass: for every cell holding a star,
eliminate its unknown neighbours. -/
def adjacencyPass (dim : Nat) (bm : Board × Bool) : Board × Bool :=
  (allCoords dim).foldl (fun bm rc =>
    if getCell bm.1 rc.1 rc.2 = STAR then elimAround dim rc.1 rc.2 bm else bm) bm

/-- `for r, c in available_cells: if board[r][c] == EMPTY: board[r][c] = ELIMINATED`. -/
def eliminateAll : List Cell → Board × Bool → Board × Bool
  | [], bm => bm
  | rc :: rest, bm =>
    if getCell bm.1 rc.1 rc.2 = EMPTY then
      eliminateAll rest (setCell bm.1 rc.1 rc.2 ELIMINATED, true)
    else eliminateAll rest bm

/-- Place a star on every listed cell in order, failing (contradiction)
if a cell is 8-adjacent to a star on the board as it stands. -/
def placeAll (dim : Nat) : List Cell → Board × Bool → Option (Board × Bool)
  | [], bm => some bm
  | rc :: rest, bm =>
    if isPlacementValid dim bm.1 rc.1 rc.2 then
      if getCell bm.1 rc.1 rc.2 = EMPTY then
        placeAll dim rest (setCell bm.1 rc.1 rc.2 STAR, true)
      else placeAll dim rest bm
    else none

/-- One group of the saturation / forced-placement pass:
`star_count > k` is a contradiction; `star_count == k` eliminates the
remaining unknowns; `star_count + |available| < k` is a contradiction;
`star_count + |available| == k` forces every available cell to a star. -/
def processGroup (dim k : Nat) (g : List Cell) (bm : Board × Bool) : Option (Board × Bool) :=
  let sc := starCount bm.1 g
  let av := availCells bm.1 g
  if k < sc then none
  else if sc = k then some (eliminateAll av bm)
  else if sc + av.length < k then none
  else if sc + av.length = k then placeAll dim av bm
  else some bm

/-- The saturation / forced-placement pass over all groups. -/
def processGroups (dim k : Nat) : List (List Cell) → Board × Bool → Option (Board × Bool)
  | [], bm => some bm
  | g :: gs, bm =>
    match processGroup dim k g bm with
    | none => none
    | some bm2 => processGroups dim k gs bm2

/-- `set(valid_combos[0])` intersected with every further combination. -/
def interAll (first : List Cell) (rest : List (List Cell)) : List Cell :=
  rest.foldl (fun acc combo => acc.filter (fun rc => combo.contains rc)) first

/-- The per-region step of the combination-intersection deduction: if the
region is unsaturated, every cell common to all internally valid
combinations of its available cells must be a star. -/
def comboRegionStep (dim k : Nat) (cells : List Cell) (bm : Board × Bool) :
    Option (Board × Bool) :=
  if k ≤ starCount bm.1 cells then some bm
  else if availCells bm.1 cells = [] ∨ k - starCount bm.1 cells = 0 then some bm
  else
    match getInternallyValidCombos (availCells bm.1 cells) (k - starCount bm.1 cells) with
    | [] => none
    | first :: rest => placeAll dim (interAll first rest) bm

/-- The combination-intersection deduction over all regions (run only
when a basic pass made no change). -/
def comboStep (P : Puzzle) : List Nat → Board × Bool → Option (Board × Bool)
  | [], bm => some bm
  | rid :: rest, bm =>
    match comboRegionStep P.dim P.starsPerRegion (regionCells P rid) bm with
    | none => none
    | some bm2 => comboStep P rest bm2

/-- One iteration of the `while made_change` body of
`_propagate_constraints`: adjacency elimination, then the group pass,
then — only if nothing changed — the combination-intersection step.
Returns the new board and whether the iteration changed anything. -/
def fullPass (P : Puzzle) (b : Board) : Option (Board × Bool) :=
  match processGroups P.dim P.starsPerRegion (groups P) (adjacencyPass P.dim (b, false)) with
  | none => none
  | some (b2, mc) =>
    if mc then some (b2, true)
    else comboStep P (regionIds P) (b2, false)

/-- The propagation fixpoint loop, on explicit fuel. -/
def propagateLoop (P : Puzzle) : Nat → Board → Option Board
  | 0, b => some b
  | fuel + 1, b =>
    match fullPass P b with
    | none => none
    | some (b2, true) => propagateLoop P fuel b2
    | some (b2, false) => some b2

/-- `_propagate_constraints(board)`: run the fixpoint loop.  The fuel
`countEmpty b + 1` is sufficient because every productive pass strictly
decreases the number of unknown cells. -/
def propagateConstraints (P : Puzzle) (b : Board) : Option Board :=
  propagateLoop P (countEmpty b + 1) b

/-- A recorded solution: `1` where the board holds a star, `0` elsewhere. -/
def boardToSolution (b : Board) : List (List Nat) :=
  b.map (fun row => row.map (fun cell => if cell = STAR then 1 else 0))

/-- The mutable search state: the shared solution list and the two
statistics counters. -/
structure SolverState where
  solutions : List (List (List Nat))
  nodesVisited : Nat
  maxRecursionDepth : Nat
deriving DecidableEq

/-- One entry of the `choices` list: an unsolved region id together with
the internally valid combinations for its remaining cells. -/
structure Choice where
  id : Nat
  combos : List (List Cell)
deriving DecidableEq

/-- Build the `choices` list over the unsolved regions: regions needing
no further stars are skipped; a region with fewer available cells than
needed stars, or with no valid combination, aborts the node (`return`). -/
def buildChoices (P : Puzzle) (b : Board) : List Nat → Option (List Choice)
  | [] => some []
  | rid :: rest =>
    if P.starsPerRegion - starCount b (regionCells P rid) = 0 then buildChoices P b rest
    else if (availCells b (regionCells P rid)).length <
        P.starsPerRegion - starCount b (regionCells P rid) then none
    else
      match getInternallyValidCombos (availCells b (regionCells P rid))
          (P.starsPerRegion - starCount b (regionCells P rid)) with
      | [] => none
      | combo :: combos =>
        match buildChoices P b rest with
        | none => none
        | some cs => some (⟨rid, combo :: combos⟩ :: cs)

/-- `min(choices, key=lambda x: len(x['combos']))`: the first choice with
the fewest combinations. -/
def bestChoice (c : Choice) (cs : List Choice) : Choice :=
  cs.foldl (fun best d => if d.combos.length < best.combos.length then d else best) c

/-- `for r, c in combo: next_board[r][c] = STAR`. -/
def placeStars (b : Board) (combo : List Cell) : Board :=
  combo.foldl (fun b rc => setCell b rc.1 rc.2 STAR) b

/-- The branch loop of `_backtrack`: try each combination of the chosen
region in order; re-check adjacency against the current board, recurse on
a copy with the stars placed, and stop as soon as two solutions exist. -/
def goCombos (dim : Nat) (recurse : Board → SolverState → SolverState) (board : Board) :
    List (List Cell) → SolverState → SolverState
  | [], st => st
  | combo :: rest, st =>
    if combo.all (fun rc => isPlacementValid dim board rc.1 rc.2) then
      if 2 ≤ (recurse (placeStars board combo) st).solutions.length then
        recurse (placeStars board combo) st
      else goCombos dim recurse board rest (recurse (placeStars board combo) st)
    else goCombos dim recurse board rest st

/-- `self.stats` bookkeeping at node entry. -/
def bumpStats (depth : Nat) (st : SolverState) : SolverState :=
  { st with nodesVisited := st.nodesVisited + 1,
            maxRecursionDepth := max st.maxRecursionDepth depth }

/-- `self.solutions.append(solution_board)`. -/
def pushSolution (b : Board) (st : SolverState) : SolverState :=
  { st with solutions := st.solutions ++ [boardToSolution b] }

/-- The body of one `_backtrack` node, parametric in the recursive call:
propagate; on an exhausted or saturated region set record a solution if
the global star count is right; otherwise branch on the choice with the
fewest combinations. -/
def backtrackCore (P : Puzzle) (recurse : Board → List Nat → SolverState → SolverState)
    (board : Board) (unsolved : List Nat) (st : SolverState) : SolverState :=
  match propagateConstraints P board with
  | none => st
  | some b =>
    if unsolved = [] then
      if totalStars b = P.dim * P.starsPerRegion then pushSolution b st else st
    else
      match buildChoices P b unsolved with
      | none => st
      | some [] =>
        match propagateConstraints P b with
        | none => st
        | some b2 =>
          if totalStars b2 = P.dim * P.starsPerRegion then pushSolution b2 st else st
      | some (c :: cs) =>
        goCombos P.dim (fun nb st2 => recurse nb (unsolved.erase (bestChoice c cs).id) st2)
          b (bestChoice c cs).combos st

/-- `_backtrack(board, unsolved_regions, depth)` on explicit fuel
(`max_solutions` is fixed to 2 in `__init__`).  The fuel only needs to
exceed the number of unsolved regions, since every recursive call removes
the branched region. -/
def backtrackFuel (P : Puzzle) : Nat → Board → List Nat → Nat → SolverState → SolverState
  | 0, _, _, _, st => st
  | fuel + 1, board, unsolved, depth, st0 =>
    backtrackCore P (fun nb nu st => backtrackFuel P fuel nb nu (depth + 1) st)
      board unsolved (bumpStats depth st0)

/-- The initial all-unknown board of `solve`. -/
def initialBoard (n : Nat) : Board := List.replicate n (List.replicate n EMPTY)

/-- `UltimateStarBattleSolver.solve()`: run the search from the empty
board with every region unsolved and return the solution list and the
statistics. -/
def solve (P : Puzzle) : List (List (List Nat)) × Nat × Nat :=
  let unsolved := regionIds P
  let st := backtrackFuel P (unsolved.length + 1) (initialBoard P.dim) unsolved 0 ⟨[], 0, 0⟩
  (st.solutions, st.nodesVisited, st.maxRecursionDepth)

/-! ### Basic board lemmas -/

theorem getCell_empty_bounds {b : Board} {r c : Nat} (h : getCell b r c = EMPTY) :
    r < b.length ∧ c < (b.getD r []).length := by
  constructor
  · by_contra hr
    rw [getCell, List.getD_eq_default _ _ (Nat.le_of_not_lt hr)] at h
    simp [List.getD] at h
    exact absurd h (by decide)
  · by_contra hc
    rw [getCell, List.getD_eq_default _ _ (Nat.le_of_not_lt hc)] at h
    exact absurd h (by decide)

theorem getD_set_self {l : List Int} {i : Nat} {a d : Int} (h : i < l.length) :
    (l.set i a).getD i d = a := by
  simp [List.getD_eq_getElem?_getD, List.getElem?_set_self, h]

theorem getD_set_ne {l : List Int} {i j : Nat} {a d : Int} (h : i ≠ j) :
    (l.set i a).getD j d = l.getD j d := by
  simp [List.getD_eq_getElem?_getD, List.getElem?_set_ne h]

theorem getDL_set_self {l : List (List Int)} {i : Nat} {a : List Int} (h : i < l.length) :
    (l.set i a).getD i [] = a := by
  simp [List.getD_eq_getElem?_getD, List.getElem?_set_self, h]

theorem getDL_set_ne {l : List (List Int)} {i j : Nat} {a : List Int} (h : i ≠ j) :
    (l.set i a).getD j [] = l.getD j [] := by
  simp [List.getD_eq_getElem?_getD, List.getElem?_set_ne h]

theorem getCell_setCell_self {b : Board} {r c : Nat} {v : Int}
    (hr : r < b.length) (hc : c < (b.getD r []).length) :
    getCell (setCell b r c v) r c = v := by
  rw [setCell, getCell, getDL_set_self hr, getD_set_self hc]

theorem getCell_setCell_ne {b : Board} {r c r' c' : Nat} {v : Int}
    (h : (r', c') ≠ (r, c)) : getCell (setCell b r c v) r' c' = getCell b r' c' := by
  rcases Decidable.em (r = r') with hr | hr
  · subst hr
    have hc : c ≠ c' := by intro hc; exact h (by rw [hc])
    rcases Decidable.em (r < b.length) with hlt | hlt
    · rw [setCell, getCell, getDL_set_self hlt, getD_set_ne hc, getCell]
    · rw [setCell, getCell, List.set_eq_of_length_le (Nat.le_of_not_lt hlt), getCell]
  · rw [setCell, getCell, getDL_set_ne hr, getCell]

/-- The board dimensions, used to transfer counting between cell access
and the structural definitions of `countEmpty` and `totalStars`. -/
def sameShape (b b2 : Board) : Prop :=
  b2.length = b.length ∧ ∀ r, (b2.getD r []).length = (b.getD r []).length

theorem sameShape_refl (b : Board) : sameShape b b := ⟨rfl, fun _ => rfl⟩

theorem sameShape_trans {a b c : Board} (h1 : sameShape a b) (h2 : sameShape b c) :
    sameShape a c := ⟨h2.1.trans h1.1, fun r => (h2.2 r).trans (h1.2 r)⟩

theorem sameShape_setCell (b : Board) (r c : Nat) (v : Int) :
    sameShape b (setCell b r c v) := by
  refine ⟨List.length_set .., fun i => ?_⟩
  rcases Decidable.em (r = i) with h | h
  · subst h
    rcases Decidable.em (r < b.length) with hlt | hlt
    · rw [setCell, getDL_set_self hlt, List.length_set]
    · rw [setCell, List.set_eq_of_length_le (Nat.le_of_not_lt hlt)]
  · rw [setCell, getDL_set_ne h]

/-- Count of `EMPTY` entries of one row. -/
def rowEmpty (row : List Int) : Nat := (row.filter (fun v => v = EMPTY)).length

theorem countEmpty_eq_sum (b : Board) : countEmpty b = (b.map rowEmpty).sum := rfl

theorem rowEmpty_set_lt {row : List Int} {c : Nat} {v : Int}
    (hc : c < row.length) (he : row.getD c 0 = EMPTY) (hv : v ≠ EMPTY) :
    rowEmpty (row.set c v) < rowEmpty row := by
  induction row generalizing c with
  | nil => simp at hc
  | cons x xs ih =>
    cases c with
    | zero =>
      simp only [List.getD_cons_zero] at he
      subst he
      have hv0 : ¬ (v = (0 : Int)) := by simpa [EMPTY] using hv
      simp only [List.set_cons_zero, rowEmpty, List.filter_cons]
      simp [hv0, EMPTY, Nat.lt_succ_self]
    | succ c =>
      simp only [List.getD_cons_succ] at he
      simp only [List.length_cons, Nat.succ_lt_succ_iff] at hc
      have := ih hc he
      simp only [List.set_cons_succ, rowEmpty, List.filter_cons]
      rcases Decidable.em (x = EMPTY) with hx | hx
      · simpa [hx, rowEmpty] using Nat.succ_lt_succ (by simpa [rowEmpty] using this)
      · simpa [hx, rowEmpty] using this

theorem sum_map_set_lt {b : Board} {r : Nat} {row : List Int}
    (hr : r < b.length) (hlt : rowEmpty row < rowEmpty (b.getD r [])) :
    ((b.set r row).map rowEmpty).sum < (b.map rowEmpty).sum := by
  induction b generalizing r with
  | nil => simp at hr
  | cons x xs ih =>
    cases r with
    | zero =>
      simp only [List.getD_cons_zero] at hlt
      simp only [List.set_cons_zero, List.map_cons, List.sum_cons]
      omega
    | succ r =>
      simp only [List.length_cons, Nat.succ_lt_succ_iff] at hr
      simp only [List.getD_cons_succ] at hlt
      have := ih hr hlt
      simp only [List.set_cons_succ, List.map_cons, List.sum_cons]
      omega

theorem countEmpty_setCell_lt {b : Board} {r c : Nat} {v : Int}
    (he : getCell b r c = EMPTY) (hv : v ≠ EMPTY) :
    countEmpty (setCell b r c v) < countEmpty b := by
  obtain ⟨hr, hc⟩ := getCell_empty_bounds he
  have he' : (b.getD r []).getD c 0 = EMPTY := by
    rw [getCell] at he
    rw [List.getD_eq_getElem?_getD] at he ⊢
    rcases List.getElem?_eq_some_iff.mpr ⟨hc, rfl⟩ with h
    rw [h] at he ⊢
    simpa using he
  exact sum_map_set_lt hr (rowEmpty_set_lt hc he' hv)

theorem getD_mem_of_lt {α : Type} {l : List α} {i : Nat} {d : α} (h : i < l.length) :
    l.getD i d ∈ l := by
  rw [List.getD_eq_getElem?_getD, List.getElem?_eq_getElem h]
  simp

theorem getCell_empty_pos {b : Board} {r c : Nat} (h : getCell b r c = EMPTY) :
    0 < countEmpty b := by
  obtain ⟨hr, hc⟩ := getCell_empty_bounds h
  have hmem : getCell b r c ∈ (b.getD r []) := by
    rw [getCell]; exact getD_mem_of_lt hc
  rw [h] at hmem
  have hrow : 0 < rowEmpty (b.getD r []) := by
    have hf : EMPTY ∈ (b.getD r []).filter (fun v => v = EMPTY) :=
      List.mem_filter.mpr ⟨hmem, by simp⟩
    exact List.length_pos.mpr (List.ne_nil_of_mem hf)
  calc 0 < rowEmpty (b.getD r []) := hrow
    _ ≤ (b.map rowEmpty).sum := List.single_le_sum (fun _ _ => Nat.zero_le _) _
        (List.mem_map.mpr ⟨_, getD_mem_of_lt hr, rfl⟩)

/-! ### The single-step relation of propagation

Every write performed by `_propagate_constraints` is guarded by
`board[r][c] == EMPTY` and writes `STAR` or `ELIMINATED`, so each
intermediate state either is unchanged or has strictly fewer unknown
cells together with `made_change = True`. -/

/-- How one cell may evolve under a propagation write. -/
def cellStep (x y : Int) : Prop := y = x ∨ (x = EMPTY ∧ (y = STAR ∨ y = ELIMINATED))

/-- How a whole board may evolve: same shape, every cell a `cellStep`. -/
def boardStep (b b2 : Board) : Prop :=
  sameShape b b2 ∧ ∀ r c, cellStep (getCell b r c) (getCell b2 r c)

theorem boardStep_refl (b : Board) : boardStep b b :=
  ⟨sameShape_refl b, fun _ _ => Or.inl rfl⟩

theorem cellStep_trans {x y z : Int} (h1 : cellStep x y) (h2 : cellStep y z) : cellStep x z := by
  rcases h2 with h2 | h2
  · rw [h2]; exact h1
  · rcases h1 with h1 | h1
    · rw [h1] at h2; exact Or.inr h2
    · rcases h1.2 with hy | hy <;> rw [hy] at h2 <;>
        exact absurd h2.1 (by decide)

theorem boardStep_trans {a b c : Board} (h1 : boardStep a b) (h2 : boardStep b c) :
    boardStep a c :=
  ⟨sameShape_trans h1.1 h2.1, fun r cc => cellStep_trans (h1.2 r cc) (h2.2 r cc)⟩

/-- The invariant of a fragment of one propagation pass, relating
`(board, made_change)` before and after. -/
def stepOk (p q : Board × Bool) : Prop :=
  boardStep p.1 q.1 ∧ (q = p ∨ (q.2 = true ∧ countEmpty q.1 < countEmpty p.1))

theorem stepOk_refl (p : Board × Bool) : stepOk p p := ⟨boardStep_refl p.1, Or.inl rfl⟩

theorem stepOk_trans {p q r : Board × Bool} (h1 : stepOk p q) (h2 : stepOk q r) : stepOk p r := by
  refine ⟨boardStep_trans h1.1 h2.1, ?_⟩
  rcases h1.2 with e1 | s1
  · rw [← e1]; exact h2.2
  · rcases h2.2 with e2 | s2
    · rw [e2]; exact Or.inr s1
    · exact Or.inr ⟨s2.1, Nat.lt_trans s2.2 s1.2⟩

theorem stepOk_set {b : Board} {mc : Bool} {r c : Nat} {v : Int}
    (he : getCell b r c = EMPTY) (hv : v = STAR ∨ v = ELIMINATED) :
    stepOk (b, mc) (setCell b r c v, true) := by
  obtain ⟨hr, hc⟩ := getCell_empty_bounds he
  refine ⟨⟨sameShape_setCell b r c v, fun r' c' => ?_⟩,
    Or.inr ⟨rfl, countEmpty_setCell_lt he (by rcases hv with h | h <;> rw [h] <;> decide)⟩⟩
  rcases Decidable.em ((r', c') = (r, c)) with hp | hp
  · obtain ⟨h1, h2⟩ := Prod.mk.injEq .. ▸ hp
    subst h1; subst h2
    rw [getCell_setCell_self hr hc, he]
    exact Or.inr ⟨rfl, hv⟩
  · rw [getCell_setCell_ne hp]; exact Or.inl rfl

theorem stepOk_flag_false {p q : Board × Bool} (h : stepOk p q) (hq : q.2 = false) : q = p := by
  rcases h.2 with e | s
  · exact e
  · rw [s.1] at hq; exact absurd hq (by decide)

theorem stepOk_foldl {α : Type} {f : Board × Bool → α → Board × Bool} {l : List α}
    (h : ∀ s x, stepOk s (f s x)) (s0 : Board × Bool) : stepOk s0 (l.foldl f s0) := by
  induction l generalizing s0 with
  | nil => exact stepOk_refl s0
  | cons x xs ih => exact stepOk_trans (h s0 x) (ih (f s0 x))

theorem stepOk_elimAround (dim r c : Nat) (bm : Board × Bool) :
    stepOk bm (elimAround dim r c bm) := by
  refine stepOk_foldl (fun s d => ?_) bm
  dsimp only
  split
  · next hcond => exact stepOk_set hcond.2 (Or.inr rfl)
  · exact stepOk_refl s

theorem stepOk_adjacencyPass (dim : Nat) (bm : Board × Bool) :
    stepOk bm (adjacencyPass dim bm) := by
  refine stepOk_foldl (fun s rc => ?_) bm
  split
  · exact stepOk_elimAround ..
  · exact stepOk_refl s

theorem stepOk_eliminateAll (l : List Cell) (bm : Board × Bool) :
    stepOk bm (eliminateAll l bm) := by
  induction l generalizing bm with
  | nil => exact stepOk_refl bm
  | cons rc rest ih =>
    rw [eliminateAll]
    split
    · next he => exact stepOk_trans (stepOk_set he (Or.inr rfl)) (ih _)
    · exact ih bm

theorem stepOk_placeAll {dim : Nat} {l : List Cell} {bm bm2 : Board × Bool}
    (h : placeAll dim l bm = some bm2) : stepOk bm bm2 := by
  induction l generalizing bm with
  | nil =>
    rw [placeAll] at h
    exact Option.some.inj h ▸ stepOk_refl bm
  | cons rc rest ih =>
    rw [placeAll] at h
    split at h
    · split at h
      · next he => exact stepOk_trans (stepOk_set he (Or.inl rfl)) (ih h)
      · exact ih h
    · exact absurd h (by simp)

theorem stepOk_processGroup {dim k : Nat} {g : List Cell} {bm bm2 : Board × Bool}
    (h : processGroup dim k g bm = some bm2) : stepOk bm bm2 := by
  rw [processGroup] at h
  split at h
  · exact absurd h (by simp)
  · split at h
    · exact Option.some.inj h ▸ stepOk_eliminateAll ..
    · split at h
      · exact absurd h (by simp)
      · split at h
        · exact stepOk_placeAll h
        · exact Option.some.inj h ▸ stepOk_refl bm

theorem stepOk_processGroups {dim k : Nat} {gs : List (List Cell)} {bm bm2 : Board × Bool}
    (h : processGroups dim k gs bm = some bm2) : stepOk bm bm2 := by
  induction gs generalizing bm with
  | nil =>
    rw [processGroups] at h
    exact Option.some.inj h ▸ stepOk_refl bm
  | cons g gs ih =>
    rw [processGroups] at h
    split at h
    · exact absurd h (by simp)
    · next bm1 hg => exact stepOk_trans (stepOk_processGroup hg) (ih h)

theorem stepOk_comboRegionStep {dim k : Nat} {cells : List Cell} {bm bm2 : Board × Bool}
    (h : comboRegionStep dim k cells bm = some bm2) : stepOk bm bm2 := by
  rw [comboRegionStep] at h
  split at h
  · exact Option.some.inj h ▸ stepOk_refl bm
  · split at h
    · exact Option.some.inj h ▸ stepOk_refl bm
    · split at h
      · exact absurd h (by simp)
      · exact stepOk_placeAll h

theorem stepOk_comboStep {P : Puzzle} {l : List Nat} {bm bm2 : Board × Bool}
    (h : comboStep P l bm = some bm2) : stepOk bm bm2 := by
  induction l generalizing bm with
  | nil =>
    rw [comboStep] at h
    exact Option.some.inj h ▸ stepOk_refl bm
  | cons rid rest ih =>
    rw [comboStep] at h
    split at h
    · exact absurd h (by simp)
    · next bm1 hg => exact stepOk_trans (stepOk_comboRegionStep hg) (ih h)

theorem stepOk_fullPass {P : Puzzle} {b : Board} {bm2 : Board × Bool}
    (h : fullPass P b = some bm2) : stepOk (b, false) bm2 := by
  rw [fullPass] at h
  split at h
  · exact absurd h (by simp)
  · next b2 mc hg =>
    have h1 : stepOk (b, false) (b2, mc) :=
      stepOk_trans (stepOk_adjacencyPass P.dim (b, false)) (stepOk_processGroups hg)
    split at h
    · next hmc =>
      subst hmc
      exact Option.some.inj h ▸ h1
    · next hmc =>
      have hmc' : mc = false := by revert hmc; cases mc <;> simp
      subst hmc'
      exact stepOk_trans h1 (stepOk_comboStep h)

theorem fullPass_false_eq {P : Puzzle} {b b2 : Board}
    (h : fullPass P b = some (b2, false)) : b2 = b := by
  have := stepOk_flag_false (stepOk_fullPass h) rfl
  exact congrArg Prod.fst this

theorem fullPass_true_lt {P : Puzzle} {b b2 : Board}
    (h : fullPass P b = some (b2, true)) : countEmpty b2 < countEmpty b := by
  rcases (stepOk_fullPass h).2 with e | s
  · have := congrArg Prod.snd e
    simp at this
  · exact s.2

theorem propagateLoop_boardStep {P : Puzzle} :
    ∀ {f : Nat} {b b2 : Board}, propagateLoop P f b = some b2 → boardStep b b2 := by
  intro f
  induction f with
  | zero => intro b b2 h; exact Option.some.inj h ▸ boardStep_refl b
  | succ f ih =>
    intro b b2 h
    rw [propagateLoop] at h
    split at h
    · exact absurd h (by simp)
    · next c hfp => exact boardStep_trans (stepOk_fullPass hfp).1 (ih h)
    · next c hfp =>
      exact Option.some.inj h ▸ (stepOk_fullPass hfp).1

theorem propagateConstraints_boardStep {P : Puzzle} {b b2 : Board}
    (h : propagateConstraints P b = some b2) : boardStep b b2 :=
  propagateLoop_boardStep h

theorem propagateLoop_fuel_irrel {P : Puzzle} :
    ∀ {f1 : Nat} {f2 : Nat} {b : Board}, countEmpty b < f1 → countEmpty b < f2 →
      propagateLoop P f1 b = propagateLoop P f2 b := by
  intro f1
  induction f1 with
  | zero => intro f2 b h1; exact absurd h1 (Nat.not_lt_zero _)
  | succ f1 ih =>
    intro f2 b h1 h2
    cases f2 with
    | zero => exact absurd h2 (Nat.not_lt_zero _)
    | succ f2 =>
      rw [propagateLoop, propagateLoop]
      cases hfp : fullPass P b with
      | none => rfl
      | some bm =>
        obtain ⟨c, mc⟩ := bm
        cases mc with
        | false => rfl
        | true =>
          have hc := fullPass_true_lt hfp
          exact ih (Nat.lt_of_lt_of_le hc (Nat.lt_succ_iff.mp h1))
            (Nat.lt_of_lt_of_le hc (Nat.lt_succ_iff.mp h2))

theorem propagateLoop_fix {P : Puzzle} :
    ∀ {f : Nat} {b b2 : Board}, countEmpty b < f → propagateLoop P f b = some b2 →
      fullPass P b2 = some (b2, false) := by
  intro f
  induction f with
  | zero => intro b b2 h1; exact absurd h1 (Nat.not_lt_zero _)
  | succ f ih =>
    intro b b2 h1 h
    rw [propagateLoop] at h
    split at h
    · exact absurd h (by simp)
    · next c hfp =>
      exact ih (Nat.lt_of_lt_of_le (fullPass_true_lt hfp) (Nat.lt_succ_iff.mp h1)) h
    · next c hfp =>
      have hb2 : c = b2 := Option.some.inj h
      have hcb : c = b := fullPass_false_eq hfp
      rw [← hb2, hcb]
      rw [hcb] at hfp
      exact hfp

theorem propagateConstraints_fix {P : Puzzle} {b b2 : Board}
    (h : propagateConstraints P b = some b2) : fullPass P b2 = some (b2, false) :=
  propagateLoop_fix (Nat.lt_succ_self _) h

/-- Propagating a board that is already a propagation fixpoint returns it
unchanged. -/
theorem propagateConstraints_idem {P : Puzzle} {b b2 : Board}
    (h : propagateConstraints P b = some b2) :
    propagateConstraints P b2 = some b2 := by
  rw [propagateConstraints, propagateLoop, propagateConstraints_fix h]

/-! ### What a no-change pass says about the board -/

theorem stepOk_countEmpty_le {p q : Board × Bool} (h : stepOk p q) :
    countEmpty q.1 ≤ countEmpty p.1 := by
  rcases h.2 with e | s
  · rw [e]
  · exact Nat.le_of_lt s.2

theorem availCells_empty_mem {b : Board} {g : List Cell} {rc : Cell}
    (h : rc ∈ availCells b g) : getCell b rc.1 rc.2 = EMPTY := by
  have := List.mem_filter.mp h
  simpa using this.2

theorem eliminateAll_fix_nil {l : List Cell} {bm : Board × Bool}
    (hav : ∀ rc ∈ l, getCell bm.1 rc.1 rc.2 = EMPTY)
    (h : eliminateAll l bm = bm) : l = [] := by
  cases l with
  | nil => rfl
  | cons rc rest =>
    exfalso
    have he : getCell bm.1 rc.1 rc.2 = EMPTY := hav rc (List.mem_cons_self ..)
    rw [eliminateAll, if_pos he] at h
    have h1 : countEmpty (setCell bm.1 rc.1 rc.2 ELIMINATED) < countEmpty bm.1 :=
      countEmpty_setCell_lt he (by decide)
    have h2 := stepOk_countEmpty_le (stepOk_eliminateAll rest (setCell bm.1 rc.1 rc.2 ELIMINATED, true))
    rw [h] at h2
    exact absurd (Nat.lt_of_le_of_lt h2 h1) (Nat.lt_irrefl _)

/-- The conclusions `processGroup` leaves about one group when it neither
signals a contradiction nor changes the board. -/
theorem processGroup_fix {dim k : Nat} {g : List Cell} {bm : Board × Bool}
    (h : processGroup dim k g bm = some bm) :
    starCount bm.1 g ≤ k ∧ k ≤ starCount bm.1 g + (availCells bm.1 g).length ∧
      (starCount bm.1 g = k → availCells bm.1 g = []) := by
  rw [processGroup] at h
  split at h
  · exact absurd h (by simp)
  · next hle =>
    split at h
    · next heq =>
      have hnil : availCells bm.1 g = [] :=
        eliminateAll_fix_nil (fun rc hrc => availCells_empty_mem hrc) (Option.some.inj h)
      exact ⟨Nat.le_of_not_lt hle, by omega, fun _ => hnil⟩
    · next hne =>
      split at h
      · exact absurd h (by simp)
      · next hlt => exact ⟨Nat.le_of_not_lt hle, Nat.le_of_not_lt hlt, fun he => absurd he hne⟩

theorem processGroups_fix {dim k : Nat} {gs : List (List Cell)} {bm : Board × Bool} {b2 : Board}
    (h : processGroups dim k gs bm = some (b2, false)) :
    b2 = bm.1 ∧ bm.2 = false ∧ ∀ g ∈ gs,
      starCount bm.1 g ≤ k ∧ k ≤ starCount bm.1 g + (availCells bm.1 g).length ∧
      (starCount bm.1 g = k → availCells bm.1 g = []) := by
  induction gs generalizing bm with
  | nil =>
    rw [processGroups] at h
    have heq := Option.some.inj h
    exact ⟨(congrArg Prod.fst heq).symm, congrArg Prod.snd heq, by simp⟩
  | cons g gs ih =>
    rw [processGroups] at h
    split at h
    · exact absurd h (by simp)
    · next bm1 hg =>
      obtain ⟨h1, h2, h3⟩ := ih h
      have hbm : bm1 = bm := stepOk_flag_false (stepOk_processGroup hg) h2
      rw [hbm] at h1 h2 h3 hg
      refine ⟨h1, h2, fun g2 hg2 => ?_⟩
      rcases List.mem_cons.mp hg2 with he | hm
      · subst he
        exact processGroup_fix hg
      · exact h3 g2 hm

/-- At a propagation fixpoint, every row, column and region satisfies
`starCount ≤ k`, `starCount + |unknowns| ≥ k`, and is unknown-free when
saturated. -/
theorem fullPass_fix_groups {P : Puzzle} {b : Board}
    (h : fullPass P b = some (b, false)) :
    ∀ g ∈ groups P, starCount b g ≤ P.starsPerRegion ∧
      P.starsPerRegion ≤ starCount b g + (availCells b g).length ∧
      (starCount b g = P.starsPerRegion → availCells b g = []) := by
  rw [fullPass] at h
  split at h
  · exact absurd h (by simp)
  · next b2 mc hg =>
    split at h
    · next hmc =>
      subst hmc
      have := Option.some.inj h
      exact absurd (congrArg Prod.snd this) (by simp)
    · next hmc =>
      have hmc' : mc = false := by revert hmc; cases mc <;> simp
      subst hmc'
      have hcs : (b, false) = (b2, false) :=
        stepOk_flag_false (stepOk_comboStep h) rfl
      have hb2 : b2 = b := (congrArg Prod.fst hcs).symm
      subst hb2
      obtain ⟨h1, _, h3⟩ := processGroups_fix hg
      rw [← h1] at h3
      exact h3

/-! ### Shape bookkeeping and counting transfers -/

/-- A well-shaped `n × n` board. -/
def squareShape (n : Nat) (b : Board) : Prop :=
  b.length = n ∧ ∀ row ∈ b, row.length = n

theorem squareShape_getD {n : Nat} {b : Board} (h : squareShape n b) {r : Nat} (hr : r < n) :
    (b.getD r []).length = n :=
  h.2 _ (getD_mem_of_lt (h.1 ▸ hr))

theorem squareShape_of_sameShape {n : Nat} {b b2 : Board}
    (h : squareShape n b) (hs : sameShape b b2) : squareShape n b2 := by
  refine ⟨hs.1.trans h.1, fun row hrow => ?_⟩
  obtain ⟨i, hi, hrow⟩ := List.getElem_of_mem hrow
  have hlen : i < n := by rw [← h.1, ← hs.1]; exact hi
  have : b2.getD i [] = row := by
    rw [List.getD_eq_getElem?_getD, List.getElem?_eq_getElem hi]
    simpa using hrow
  rw [← this, hs.2 i, squareShape_getD h (by omega)]

theorem squareShape_initialBoard (n : Nat) : squareShape n (initialBoard n) := by
  refine ⟨List.length_replicate .., fun row hrow => ?_⟩
  rw [List.eq_of_mem_replicate hrow]
  exact List.length_replicate ..

theorem map_getD_range {α : Type} {l : List α} {n : Nat} {d : α} (h : l.length = n) :
    (List.range n).map (fun i => l.getD i d) = l := by
  induction l generalizing n with
  | nil => subst h; rfl
  | cons x xs ih =>
    subst h
    rw [List.length_cons, List.range_succ_eq_map, List.map_cons, List.getD_cons_zero,
      List.map_map]
    congr 1
    have : ((fun i => (x :: xs).getD i d) ∘ Nat.succ) = fun i => xs.getD i d := by
      funext i; simp
    rw [this, ih rfl]

/-- Stars of one row, as counted by `totalStars`. -/
def rowStars (row : List Int) : Nat := (row.filter (fun v => v = STAR)).length

theorem starCount_rowGroup {n : Nat} {b : Board} (h : squareShape n b) {r : Nat} (hr : r < n) :
    starCount b (rowGroup n r) = rowStars (b.getD r []) := by
  rw [starCount, rowGroup, List.filter_map, List.length_map, rowStars,
    ← List.countP_eq_length_filter, ← List.countP_eq_length_filter]
  have h1 : List.countP ((fun rc => decide (getCell b rc.1 rc.2 = STAR)) ∘ fun c => (r, c))
      (List.range n) = List.countP (fun v => decide (v = STAR))
        ((List.range n).map (fun c => (b.getD r []).getD c ELIMINATED)) := by
    rw [List.countP_map]
    rfl
  rw [h1, map_getD_range (squareShape_getD h hr)]

theorem sum_rowGroups_eq_totalStars {n : Nat} {b : Board} (h : squareShape n b) :
    ((List.range n).map (fun r => starCount b (rowGroup n r))).sum = totalStars b := by
  have h1 : (List.range n).map (fun r => starCount b (rowGroup n r)) =
      (List.range n).map (fun r => rowStars (b.getD r [])) := by
    apply List.map_congr_left
    intro r hr
    exact starCount_rowGroup h (List.mem_range.mp hr)
  rw [h1, totalStars]
  have h2 : (List.range n).map (fun r => rowStars (b.getD r [])) =
      ((List.range n).map (fun r => b.getD r [])).map rowStars := by
    rw [List.map_map]; rfl
  rw [h2, map_getD_range h.1]
  rfl

theorem sum_le_length_mul {l : List Nat} {k : Nat} (h : ∀ x ∈ l, x ≤ k) :
    l.sum ≤ l.length * k := by
  induction l with
  | nil => simp
  | cons x xs ih =>
    have hx := h x (List.mem_cons_self ..)
    have := ih (fun y hy => h y (List.mem_cons_of_mem _ hy))
    simp only [List.sum_cons, List.length_cons]
    calc x + xs.sum ≤ k + xs.length * k := Nat.add_le_add hx this
      _ = (xs.length + 1) * k := by ring

theorem all_eq_of_sum_eq {l : List Nat} {k : Nat} (h : ∀ x ∈ l, x ≤ k)
    (hs : l.sum = l.length * k) : ∀ x ∈ l, x = k := by
  induction l with
  | nil => simp
  | cons x xs ih =>
    have hx := h x (List.mem_cons_self ..)
    have hxs := sum_le_length_mul (fun y hy => h y (List.mem_cons_of_mem _ hy))
    simp only [List.sum_cons, List.length_cons] at hs
    have hxk : x = k := by
      have : (xs.length + 1) * k = xs.length * k + k := by ring
      omega
    intro y hy
    rcases List.mem_cons.mp hy with he | hm
    · rw [he, hxk]
    · refine ih (fun z hz => h z (List.mem_cons_of_mem _ hz)) ?_ y hm
      have : (xs.length + 1) * k = xs.length * k + k := by ring
      omega

/-! ### Fully determined boards -/

theorem rowGroup_mem_groups {P : Puzzle} {r : Nat} (hr : r < P.dim) :
    rowGroup P.dim r ∈ groups P := by
  apply List.mem_append_left
  apply List.mem_append_left
  exact List.mem_map.mpr ⟨r, List.mem_range.mpr hr, rfl⟩

theorem colGroup_mem_groups {P : Puzzle} {c : Nat} (hc : c < P.dim) :
    colGroup P.dim c ∈ groups P := by
  apply List.mem_append_left
  apply List.mem_append_right
  exact List.mem_map.mpr ⟨c, List.mem_range.mpr hc, rfl⟩

theorem regionCells_mem_groups {P : Puzzle} {id : Nat} (h : id ∈ regionIds P) :
    regionCells P id ∈ groups P := by
  apply List.mem_append_right
  exact List.mem_map.mpr ⟨id, h, rfl⟩

theorem countEmpty_zero_avail {b : Board} {g : List Cell} (h : countEmpty b = 0) :
    availCells b g = [] := by
  cases hav : availCells b g with
  | nil => rfl
  | cons rc rest =>
    have : rc ∈ availCells b g := hav ▸ List.mem_cons_self ..
    have := getCell_empty_pos (availCells_empty_mem this)
    omega

theorem availCells_rowGroup_length {n : Nat} {b : Board} (h : squareShape n b)
    {r : Nat} (hr : r < n) :
    (availCells b (rowGroup n r)).length = rowEmpty (b.getD r []) := by
  rw [availCells, rowGroup, List.filter_map, List.length_map, rowEmpty,
    ← List.countP_eq_length_filter, ← List.countP_eq_length_filter]
  have h1 : List.countP ((fun rc => decide (getCell b rc.1 rc.2 = EMPTY)) ∘ fun c => (r, c))
      (List.range n) = List.countP (fun v => decide (v = EMPTY))
        ((List.range n).map (fun c => (b.getD r []).getD c ELIMINATED)) := by
    rw [List.countP_map]
    rfl
  rw [h1, map_getD_range (squareShape_getD h hr)]

theorem countEmpty_eq_sum_range {n : Nat} {b : Board} (h : squareShape n b) :
    countEmpty b = ((List.range n).map (fun r => rowEmpty (b.getD r []))).sum := by
  rw [countEmpty_eq_sum]
  have h2 : (List.range n).map (fun r => rowEmpty (b.getD r [])) =
      ((List.range n).map (fun r => b.getD r [])).map rowEmpty := by
    rw [List.map_map]; rfl
  rw [h2, map_getD_range h.1]

/-- A propagation fixpoint whose total star count is `N · k` has no
unknown cells and exactly `k` stars in every row, column and region. -/
theorem fix_total_determined {P : Puzzle} {b : Board}
    (hsq : squareShape P.dim b)
    (hfix : fullPass P b = some (b, false))
    (htot : totalStars b = P.dim * P.starsPerRegion) :
    countEmpty b = 0 ∧ ∀ g ∈ groups P, starCount b g = P.starsPerRegion := by
  have hG := fullPass_fix_groups hfix
  have hrows : ∀ r < P.dim, starCount b (rowGroup P.dim r) = P.starsPerRegion := by
    have hsum := sum_rowGroups_eq_totalStars hsq
    have hall : ∀ x ∈ (List.range P.dim).map (fun r => starCount b (rowGroup P.dim r)),
        x = P.starsPerRegion := by
      apply all_eq_of_sum_eq
      · intro x hx
        obtain ⟨r, hr, hx⟩ := List.mem_map.mp hx
        exact hx ▸ (hG _ (rowGroup_mem_groups (List.mem_range.mp hr))).1
      · rw [hsum, List.length_map, List.length_range, htot]
    intro r hr
    exact hall _ (List.mem_map.mpr ⟨r, List.mem_range.mpr hr, rfl⟩)
  have hzero : countEmpty b = 0 := by
    rw [countEmpty_eq_sum_range hsq]
    apply List.sum_eq_zero
    intro x hx
    obtain ⟨r, hr, hx⟩ := List.mem_map.mp hx
    have hr' := List.mem_range.mp hr
    have hnil : availCells b (rowGroup P.dim r) = [] :=
      (hG _ (rowGroup_mem_groups hr')).2.2 (hrows r hr')
    have := availCells_rowGroup_length hsq hr'
    rw [hnil] at this
    simp only [List.length_nil] at this
    omega
  refine ⟨hzero, fun g hg => ?_⟩
  have h1 := (hG g hg).1
  have h2 := (hG g hg).2.1
  rw [countEmpty_zero_avail hzero] at h2
  simp only [List.length_nil] at h2
  omega

/-! ### Adjacency geometry -/

theorem adjTouch_true_iff {p q : Cell} : adjTouch p q = true ↔
    p.1 ≤ q.1 + 1 ∧ q.1 ≤ p.1 + 1 ∧ p.2 ≤ q.2 + 1 ∧ q.2 ≤ p.2 + 1 := by
  simp only [adjTouch, Bool.and_eq_true, decide_eq_true_eq]
  omega

theorem adjTouch_refl (p : Cell) : adjTouch p p = true := adjTouch_true_iff.mpr (by omega)

theorem adjTouch_symm (p q : Cell) : adjTouch p q = adjTouch q p := by
  have h1 : adjTouch p q = true ↔ adjTouch q p = true := by
    rw [adjTouch_true_iff, adjTouch_true_iff]
    constructor <;> intro <;> omega
  cases hpq : adjTouch p q
  · cases hqp : adjTouch q p
    · rfl
    · exact absurd (h1.mpr hqp) (by simp [hpq])
  · exact (h1.mp hpq).symm

theorem adjTouch_offset_exists {p q : Cell} (ht : adjTouch p q = true) (hne : p ≠ q) :
    ∃ d, d ∈ offsets ∧ d ≠ ((0 : Int), (0 : Int)) ∧
      (p.1 : Int) + d.1 = q.1 ∧ (p.2 : Int) + d.2 = q.2 := by
  have hb := adjTouch_true_iff.mp ht
  refine ⟨((q.1 : Int) - p.1, (q.2 : Int) - p.2), ?_, ?_, by omega, by omega⟩
  · have h1 : (q.1 : Int) - p.1 = -1 ∨ (q.1 : Int) - p.1 = 0 ∨ (q.1 : Int) - p.1 = 1 := by omega
    have h2 : (q.2 : Int) - p.2 = -1 ∨ (q.2 : Int) - p.2 = 0 ∨ (q.2 : Int) - p.2 = 1 := by omega
    rcases h1 with h1 | h1 | h1 <;> rcases h2 with h2 | h2 | h2 <;>
      simp [offsets, h1, h2]
  · intro hz
    apply hne
    have h1 : (q.1 : Int) - p.1 = 0 := congrArg Prod.fst hz
    have h2 : (q.2 : Int) - p.2 = 0 := congrArg Prod.snd hz
    exact Prod.ext (by omega) (by omega)

theorem adjTouch_of_offset {p q : Cell} {d : Int × Int} (hd : d ∈ offsets)
    (h1 : (p.1 : Int) + d.1 = q.1) (h2 : (p.2 : Int) + d.2 = q.2) : adjTouch p q = true := by
  apply adjTouch_true_iff.mpr
  fin_cases hd <;> simp at h1 h2 <;> omega

theorem isPlacementValid_true_iff {dim : Nat} {b : Board} {r c : Nat} :
    isPlacementValid dim b r c = true ↔
      ∀ q : Cell, q.1 < dim → q.2 < dim → q ≠ (r, c) → adjTouch (r, c) q = true →
        getCell b q.1 q.2 ≠ STAR := by
  rw [isPlacementValid, List.all_eq_true]
  constructor
  · intro hall q hq1 hq2 hne ht
    obtain ⟨d, hd, hdz, he1, he2⟩ := adjTouch_offset_exists ht (fun he => hne he.symm)
    have hthis := hall d hd
    rw [if_neg hdz] at hthis
    have hib : inBounds dim ((r : Int) + d.1) ((c : Int) + d.2) = true := by
      rw [inBounds]
      simp only [Bool.and_eq_true, decide_eq_true_eq]
      omega
    rw [if_pos hib] at hthis
    have hn1 : ((r : Int) + d.1).toNat = q.1 := by omega
    have hn2 : ((c : Int) + d.2).toNat = q.2 := by omega
    rw [hn1, hn2] at hthis
    simpa using hthis
  · intro hq d hd
    rcases Decidable.em (d = ((0 : Int), (0 : Int))) with hdz | hdz
    · rw [if_pos hdz]
    · rw [if_neg hdz]
      rcases Decidable.em (inBounds dim ((r : Int) + d.1) ((c : Int) + d.2) = true) with hib | hib
      · rw [if_pos hib]
        rw [inBounds] at hib
        simp only [Bool.and_eq_true, decide_eq_true_eq] at hib
        have hq1 : (((r : Int) + d.1).toNat : Int) = (r : Int) + d.1 := by omega
        have hq2 : (((c : Int) + d.2).toNat : Int) = (c : Int) + d.2 := by omega
        have hqn : (((r : Int) + d.1).toNat, ((c : Int) + d.2).toNat) ≠ (r, c) := by
          intro he
        -- d ≠ (0,0) means one coordinate moved
          have e1 : ((r : Int) + d.1).toNat = r := congrArg Prod.fst he
          have e2 : ((c : Int) + d.2).toNat = c := congrArg Prod.snd he
          apply hdz
          have hd1 : d.1 = 0 := by omega
          have hd2 : d.2 = 0 := by omega
          calc d = (d.1, d.2) := rfl
            _ = ((0 : Int), (0 : Int)) := by rw [hd1, hd2]
        have hadj : adjTouch (r, c) (((r : Int) + d.1).toNat, ((c : Int) + d.2).toNat) = true :=
          adjTouch_of_offset hd (by omega) (by omega)
        have := hq _ (by omega) (by omega) hqn hadj
        simpa using this
      · rw [if_neg hib]

/-! ### The no-adjacent-stars invariant -/

/-- No two distinct stars of the board touch (8-adjacency). -/
def noAdjStars (b : Board) : Prop :=
  ∀ p q : Cell, p ≠ q → getCell b p.1 p.2 = STAR → getCell b q.1 q.2 = STAR →
    adjTouch p q = false

theorem getCell_star_bounds {b : Board} {r c : Nat} (h : getCell b r c = STAR) :
    r < b.length ∧ c < (b.getD r []).length := by
  constructor
  · by_contra hr
    rw [getCell, List.getD_eq_default _ _ (Nat.le_of_not_lt hr)] at h
    simp [List.getD] at h
    exact absurd h (by decide)
  · by_contra hc
    rw [getCell, List.getD_eq_default _ _ (Nat.le_of_not_lt hc)] at h
    exact absurd h (by decide)

theorem star_lt_dim {n : Nat} {b : Board} {p : Cell} (hsq : squareShape n b)
    (h : getCell b p.1 p.2 = STAR) : p.1 < n ∧ p.2 < n := by
  obtain ⟨h1, h2⟩ := getCell_star_bounds h
  refine ⟨hsq.1 ▸ h1, ?_⟩
  rw [squareShape_getD hsq (hsq.1 ▸ h1)] at h2
  exact h2

theorem noAdjStars_of_star_subset {b b2 : Board}
    (hsub : ∀ p : Cell, getCell b2 p.1 p.2 = STAR → getCell b p.1 p.2 = STAR)
    (h : noAdjStars b) : noAdjStars b2 :=
  fun p q hne hp hq => h p q hne (hsub p hp) (hsub q hq)

theorem noAdjStars_setCell_elim {b : Board} {r c : Nat}
    (he : getCell b r c = EMPTY) (h : noAdjStars b) :
    noAdjStars (setCell b r c ELIMINATED) := by
  obtain ⟨hr, hc⟩ := getCell_empty_bounds he
  apply noAdjStars_of_star_subset (fun p hp => ?_) h
  rcases Decidable.em ((p.1, p.2) = (r, c)) with hpe | hpe
  · have h1 : p.1 = r := congrArg Prod.fst hpe
    have h2 : p.2 = c := congrArg Prod.snd hpe
    rw [h1, h2, getCell_setCell_self hr hc] at hp
    exact absurd hp (by decide)
  · rw [getCell_setCell_ne hpe] at hp
    exact hp

theorem noAdjStars_setCell_star {n : Nat} {b : Board} {r c : Nat}
    (hsq : squareShape n b) (he : getCell b r c = EMPTY)
    (hval : isPlacementValid n b r c = true) (h : noAdjStars b) :
    noAdjStars (setCell b r c STAR) := by
  obtain ⟨hr, hc⟩ := getCell_empty_bounds he
  have hchar := isPlacementValid_true_iff.mp hval
  have hstar : ∀ p : Cell, getCell (setCell b r c STAR) p.1 p.2 = STAR →
      p = (r, c) ∨ getCell b p.1 p.2 = STAR := by
    intro p hp
    rcases Decidable.em ((p.1, p.2) = (r, c)) with hpe | hpe
    · exact Or.inl hpe
    · right; rw [getCell_setCell_ne hpe] at hp; exact hp
  have hkey : ∀ q : Cell, q ≠ (r, c) → getCell b q.1 q.2 = STAR →
      adjTouch (r, c) q = false := by
    intro q hqne hq
    have hqlt := star_lt_dim hsq hq
    cases hadj : adjTouch (r, c) q
    · rfl
    · exact absurd hq (hchar q hqlt.1 hqlt.2 hqne hadj)
  intro p q hne hp hq
  rcases hstar p hp with hpc | hpold <;> rcases hstar q hq with hqc | hqold
  · exact absurd (hpc.trans hqc.symm) hne
  · subst hpc
    exact hkey q (fun h2 => hne h2.symm) hqold
  · subst hqc
    rw [adjTouch_symm]
    exact hkey p hne hpold
  · exact h p q hne hpold hqold

/-! ### Preservation of the search invariant -/

/-- The invariant maintained on every board of the search: a well-shaped
`n × n` board with no two adjacent stars. -/
def SInv (n : Nat) (b : Board) : Prop := squareShape n b ∧ noAdjStars b

theorem SInv_setCell_elim {n : Nat} {b : Board} {r c : Nat}
    (he : getCell b r c = EMPTY) (h : SInv n b) : SInv n (setCell b r c ELIMINATED) :=
  ⟨squareShape_of_sameShape h.1 (sameShape_setCell b r c ELIMINATED),
    noAdjStars_setCell_elim he h.2⟩

theorem SInv_setCell_star {n : Nat} {b : Board} {r c : Nat}
    (he : getCell b r c = EMPTY) (hval : isPlacementValid n b r c = true)
    (h : SInv n b) : SInv n (setCell b r c STAR) :=
  ⟨squareShape_of_sameShape h.1 (sameShape_setCell b r c STAR),
    noAdjStars_setCell_star h.1 he hval h.2⟩

theorem SInv_foldl {α : Type} {n : Nat} {f : Board × Bool → α → Board × Bool} {l : List α}
    (h : ∀ s x, SInv n s.1 → SInv n (f s x).1) {s0 : Board × Bool} (h0 : SInv n s0.1) :
    SInv n (l.foldl f s0).1 := by
  induction l generalizing s0 with
  | nil => exact h0
  | cons x xs ih => exact ih (h s0 x h0)

theorem SInv_elimAround {n dim r c : Nat} {bm : Board × Bool} (h : SInv n bm.1) :
    SInv n (elimAround dim r c bm).1 := by
  refine SInv_foldl (fun s d hs => ?_) h
  dsimp only
  split
  · next hcond => exact SInv_setCell_elim hcond.2 hs
  · exact hs

theorem SInv_adjacencyPass {n dim : Nat} {bm : Board × Bool} (h : SInv n bm.1) :
    SInv n (adjacencyPass dim bm).1 := by
  refine SInv_foldl (fun s rc hs => ?_) h
  split
  · exact SInv_elimAround hs
  · exact hs

theorem SInv_eliminateAll {n : Nat} {l : List Cell} {bm : Board × Bool} (h : SInv n bm.1) :
    SInv n (eliminateAll l bm).1 := by
  induction l generalizing bm with
  | nil => exact h
  | cons rc rest ih =>
    rw [eliminateAll]
    split
    · next he => exact ih (SInv_setCell_elim he h)
    · exact ih h

theorem SInv_placeAll {n : Nat} {l : List Cell} {bm bm2 : Board × Bool}
    (hp : placeAll n l bm = some bm2) (h : SInv n bm.1) : SInv n bm2.1 := by
  induction l generalizing bm with
  | nil =>
    rw [placeAll] at hp
    exact Option.some.inj hp ▸ h
  | cons rc rest ih =>
    rw [placeAll] at hp
    split at hp
    · next hval =>
      split at hp
      · next he => exact ih hp (SInv_setCell_star he hval h)
      · exact ih hp h
    · exact absurd hp (by simp)

theorem SInv_processGroup {n k : Nat} {g : List Cell} {bm bm2 : Board × Bool}
    (hp : processGroup n k g bm = some bm2) (h : SInv n bm.1) : SInv n bm2.1 := by
  rw [processGroup] at hp
  split at hp
  · exact absurd hp (by simp)
  · split at hp
    · exact Option.some.inj hp ▸ SInv_eliminateAll h
    · split at hp
      · exact absurd hp (by simp)
      · split at hp
        · exact SInv_placeAll hp h
        · exact Option.some.inj hp ▸ h

theorem SInv_processGroups {n k : Nat} {gs : List (List Cell)} {bm bm2 : Board × Bool}
    (hp : processGroups n k gs bm = some bm2) (h : SInv n bm.1) : SInv n bm2.1 := by
  induction gs generalizing bm with
  | nil =>
    rw [processGroups] at hp
    exact Option.some.inj hp ▸ h
  | cons g gs ih =>
    rw [processGroups] at hp
    split at hp
    · exact absurd hp (by simp)
    · next bm1 hg => exact ih hp (SInv_processGroup hg h)

theorem SInv_comboRegionStep {n k : Nat} {cells : List Cell} {bm bm2 : Board × Bool}
    (hp : comboRegionStep n k cells bm = some bm2) (h : SInv n bm.1) : SInv n bm2.1 := by
  rw [comboRegionStep] at hp
  split at hp
  · exact Option.some.inj hp ▸ h
  · split at hp
    · exact Option.some.inj hp ▸ h
    · split at hp
      · exact absurd hp (by simp)
      · exact SInv_placeAll hp h

theorem SInv_comboStep {P : Puzzle} {l : List Nat} {bm bm2 : Board × Bool}
    (hp : comboStep P l bm = some bm2) (h : SInv P.dim bm.1) : SInv P.dim bm2.1 := by
  induction l generalizing bm with
  | nil =>
    rw [comboStep] at hp
    exact Option.some.inj hp ▸ h
  | cons rid rest ih =>
    rw [comboStep] at hp
    split at hp
    · exact absurd hp (by simp)
    · next bm1 hg => exact ih hp (SInv_comboRegionStep hg h)

theorem SInv_fullPass {P : Puzzle} {b : Board} {bm2 : Board × Bool}
    (hp : fullPass P b = some bm2) (h : SInv P.dim b) : SInv P.dim bm2.1 := by
  rw [fullPass] at hp
  split at hp
  · exact absurd hp (by simp)
  · next b2 mc hg =>
    have h2 : SInv P.dim b2 :=
      SInv_processGroups hg (@SInv_adjacencyPass P.dim P.dim (b, false) h)
    split at hp
    · exact Option.some.inj hp ▸ h2
    · exact SInv_comboStep hp h2

theorem SInv_propagateLoop {P : Puzzle} :
    ∀ {f : Nat} {b b2 : Board}, propagateLoop P f b = some b2 → SInv P.dim b →
      SInv P.dim b2 := by
  intro f
  induction f with
  | zero =>
    intro b b2 hp h
    exact Option.some.inj hp ▸ h
  | succ f ih =>
    intro b b2 hp h
    rw [propagateLoop] at hp
    split at hp
    · exact absurd hp (by simp)
    · next c hfp => exact ih hp (SInv_fullPass hfp h)
    · next c hfp =>
      exact Option.some.inj hp ▸ SInv_fullPass hfp h

theorem SInv_propagateConstraints {P : Puzzle} {b b2 : Board}
    (hp : propagateConstraints P b = some b2) (h : SInv P.dim b) : SInv P.dim b2 :=
  SInv_propagateLoop hp h

theorem SInv_initialBoard (n : Nat) : SInv n (initialBoard n) := by
  refine ⟨squareShape_initialBoard n, fun p q hne hp hq => ?_⟩
  exfalso
  rw [getCell, initialBoard] at hp
  rcases Nat.lt_or_ge p.1 n with h1 | h1
  · have : (List.replicate n (List.replicate n EMPTY)).getD p.1 [] = List.replicate n EMPTY := by
      rw [List.getD_eq_getElem?_getD, List.getElem?_replicate_of_lt h1]
      rfl
    rw [this] at hp
    rcases Nat.lt_or_ge p.2 n with h2 | h2
    · rw [List.getD_eq_getElem?_getD, List.getElem?_replicate_of_lt h2] at hp
      exact absurd hp (by decide)
    · rw [List.getD_eq_default _ _ (by simpa using h2)] at hp
      exact absurd hp (by decide)
  · have houter : (List.replicate n (List.replicate n EMPTY)).getD p.1 [] = [] :=
      List.getD_eq_default _ _ (by simpa using h1)
    rw [houter] at hp
    simp [List.getD] at hp
    exact absurd hp (by decide)

/-! ### The combination generator -/

theorem mem_combinations {n : Nat} {l l2 : List Cell} :
    l2 ∈ combinations n l ↔ List.Sublist l2 l ∧ l2.length = n := by
  induction l generalizing n l2 with
  | nil =>
    cases n with
    | zero =>
      simp only [combinations, List.mem_singleton]
      constructor
      · intro h; subst h; exact ⟨List.Sublist.refl _, rfl⟩
      · intro ⟨hs, hl⟩
        cases List.sublist_nil.mp hs
        rfl
    | succ n =>
      simp only [combinations, List.not_mem_nil, false_iff, not_and]
      intro hs
      cases List.sublist_nil.mp hs
      simp
  | cons x xs ih =>
    cases n with
    | zero =>
      simp only [combinations, List.mem_singleton]
      constructor
      · intro h; subst h; exact ⟨List.nil_sublist _, rfl⟩
      · intro ⟨hs, hl⟩
        exact List.length_eq_zero.mp hl
    | succ n =>
      rw [combinations, List.mem_append]
      constructor
      · intro h
        rcases h with h | h
        · obtain ⟨t, ht, he⟩ := List.mem_map.mp h
          obtain ⟨hs, hl⟩ := ih.mp ht
          subst he
          exact ⟨List.Sublist.cons₂ x hs, by simpa using hl⟩
        · obtain ⟨hs, hl⟩ := ih.mp h
          exact ⟨List.Sublist.cons x hs, hl⟩
      · intro ⟨hs, hl⟩
        rcases List.sublist_cons_iff.mp hs with h | ⟨r, hr, hrs⟩
        · exact Or.inr (ih.mpr ⟨h, hl⟩)
        · subst hr
          left
          apply List.mem_map.mpr
          refine ⟨r, ih.mpr ⟨hrs, ?_⟩, rfl⟩
          simpa using hl

theorem pairwiseNonTouch_iff {l : List Cell} :
    pairwiseNonTouch l = true ↔ l.Pairwise (fun a b => adjTouch a b = false) := by
  induction l with
  | nil => simp [pairwiseNonTouch]
  | cons x xs ih =>
    rw [pairwiseNonTouch, Bool.and_eq_true, List.all_eq_true, List.pairwise_cons, ih]
    constructor
    · intro ⟨h1, h2⟩
      refine ⟨fun y hy => ?_, h2⟩
      have := h1 y hy
      revert this
      cases adjTouch x y <;> simp
    · intro ⟨h1, h2⟩
      refine ⟨fun y hy => ?_, h2⟩
      rw [h1 y hy]
      rfl

theorem canonCells_nodup (l : List Cell) : (canonCells l).Nodup :=
  ((List.perm_insertionSort cellLe l.dedup).nodup_iff).mpr (List.nodup_dedup l)

theorem canonCells_sorted (l : List Cell) : (canonCells l).Sorted cellLe :=
  List.sorted_insertionSort cellLe l.dedup

theorem mem_canonCells {l : List Cell} {rc : Cell} : rc ∈ canonCells l ↔ rc ∈ l := by
  rw [canonCells, (List.perm_insertionSort cellLe l.dedup).mem_iff, List.mem_dedup]

/-- Everything `_get_internally_valid_combos` returns: a duplicate-free
size-`n` selection of the candidate set with no two members touching. -/
theorem gic_mem_facts {avail : List Cell} {n : Nat} {combo : List Cell}
    (h : combo ∈ getInternallyValidCombos avail n) :
    List.Sublist combo (canonCells avail) ∧ combo.length = n ∧ combo.Nodup ∧
      (∀ rc ∈ combo, rc ∈ avail) ∧ combo.Pairwise (fun a b => adjTouch a b = false) := by
  rw [getInternallyValidCombos, List.mem_filter] at h
  obtain ⟨hsub, hlen⟩ := mem_combinations.mp h.1
  have hnodup : combo.Nodup := List.Sublist.nodup hsub (canonCells_nodup avail)
  refine ⟨hsub, hlen, hnodup, fun rc hrc => mem_canonCells.mp (hsub.subset hrc), ?_⟩
  rcases Decidable.em (1 < n) with hn | hn
  · have := h.2
    rw [if_pos hn] at this
    exact pairwiseNonTouch_iff.mp this
  · interval_cases n
    · cases List.length_eq_zero.mp hlen
      exact List.Pairwise.nil
    · obtain ⟨a, ha⟩ := List.length_eq_one.mp hlen
      subst ha
      exact List.pairwise_singleton ..

theorem sorted_nodup_subset_sublist {a b : List Cell}
    (ha : a.Sorted cellLe) (hb : b.Sorted cellLe) (hna : a.Nodup) (hnb : b.Nodup)
    (hsub : ∀ x ∈ a, x ∈ b) : List.Sublist a b := by
  induction b generalizing a with
  | nil =>
    cases a with
    | nil => exact List.Sublist.refl _
    | cons x xs => exact absurd (hsub x (List.mem_cons_self ..)) (List.not_mem_nil x)
  | cons y ys ih =>
    cases a with
    | nil => exact List.nil_sublist _
    | cons x xs =>
      rcases Decidable.em (x = y) with he | he
      · subst he
        apply List.Sublist.cons₂
        apply ih (List.Sorted.of_cons ha) (List.Sorted.of_cons hb)
          (List.Nodup.of_cons hna) (List.Nodup.of_cons hnb)
        intro z hz
        have hzx : z ≠ x := fun hzx => (List.nodup_cons.mp hna).1 (hzx ▸ hz)
        rcases List.mem_cons.mp (hsub z (List.mem_cons_of_mem _ hz)) with h | h
        · exact absurd h hzx
        · exact h
      · apply List.Sublist.cons
        apply ih ha (List.Sorted.of_cons hb) hna (List.Nodup.of_cons hnb)
        intro z hz
        have hzy : z ≠ y := by
          intro hzy
          subst hzy
          -- x ≤ z (a sorted, z ∈ a) and z ≤ every member of ys; x ∈ y :: ys with x ≠ y
          rcases List.mem_cons.mp (hsub x (List.mem_cons_self ..)) with h | h
          · exact he h
          · have h1 : cellLe z x := (List.pairwise_cons.mp hb).1 x h
            rcases List.mem_cons.mp hz with h2 | h2
            · exact he h2.symm
            · have h2' : cellLe x z := (List.pairwise_cons.mp ha).1 z h2
              exact he (IsAntisymm.antisymm x z h2' h1)
        rcases List.mem_cons.mp (hsub z hz) with h | h
        · exact absurd h hzy
        · exact h

/-- Every size-`n` internally valid subset of the candidate set is
produced (as a sorted list) by `_get_internally_valid_combos`. -/
theorem gic_complete {avail : List Cell} {n : Nat} {sel : List Cell}
    (hsel : sel.Sorted cellLe) (hnodup : sel.Nodup) (hlen : sel.length = n)
    (hsub : ∀ rc ∈ sel, rc ∈ avail)
    (hpair : sel.Pairwise (fun a b => adjTouch a b = false)) :
    sel ∈ getInternallyValidCombos avail n := by
  rw [getInternallyValidCombos, List.mem_filter]
  constructor
  · apply mem_combinations.mpr
    refine ⟨?_, hlen⟩
    exact sorted_nodup_subset_sublist hsel (canonCells_sorted avail) hnodup
      (canonCells_nodup avail) (fun x hx => mem_canonCells.mpr (hsub x hx))
  · split
    · exact pairwiseNonTouch_iff.mpr hpair
    · rfl

/-! ### Branching facts -/

theorem buildChoices_mem {P : Puzzle} {b : Board} :
    ∀ {unsolved : List Nat} {cs : List Choice}, buildChoices P b unsolved = some cs →
      ∀ ch ∈ cs, ch.id ∈ unsolved ∧
        ch.combos = getInternallyValidCombos (availCells b (regionCells P ch.id))
          (P.starsPerRegion - starCount b (regionCells P ch.id)) ∧ ch.combos ≠ [] := by
  intro unsolved
  induction unsolved with
  | nil =>
    intro cs h ch hch
    rw [buildChoices] at h
    rw [← Option.some.inj h] at hch
    exact absurd hch (List.not_mem_nil ch)
  | cons rid rest ih =>
    intro cs h ch hch
    rw [buildChoices] at h
    split at h
    · obtain ⟨h1, h2, h3⟩ := ih h ch hch
      exact ⟨List.mem_cons_of_mem _ h1, h2, h3⟩
    · split at h
      · exact absurd h (by simp)
      · split at h
        · exact absurd h (by simp)
        · next combo combos hgic =>
          split at h
          · exact absurd h (by simp)
          · next cs2 hrest =>
            rw [← Option.some.inj h] at hch
            rcases List.mem_cons.mp hch with he | hm
            · subst he
              exact ⟨List.mem_cons_self .., by rw [hgic], by simp⟩
            · obtain ⟨h1, h2, h3⟩ := ih hrest ch hm
              exact ⟨List.mem_cons_of_mem _ h1, h2, h3⟩

theorem bestChoice_mem : ∀ (cs : List Choice) (c : Choice), bestChoice c cs ∈ c :: cs := by
  intro cs
  induction cs with
  | nil => intro c; rw [bestChoice]; exact List.mem_cons_self ..
  | cons d ds ih =>
    intro c
    have hb : bestChoice c (d :: ds) =
        bestChoice (if d.combos.length < c.combos.length then d else c) ds := rfl
    rw [hb]
    have := ih (if d.combos.length < c.combos.length then d else c)
    rcases List.mem_cons.mp this with he | hm
    · rw [he]
      split
      · exact List.mem_cons_of_mem _ (List.mem_cons_self ..)
      · exact List.mem_cons_self ..
    · exact List.mem_cons_of_mem _ (List.mem_cons_of_mem _ hm)

theorem bestChoice_min :
    ∀ (cs : List Choice) (c : Choice), ∀ d ∈ c :: cs,
      (bestChoice c cs).combos.length ≤ d.combos.length := by
  intro cs
  induction cs with
  | nil =>
    intro c d hd
    rcases List.mem_cons.mp hd with he | hm
    · subst he; exact Nat.le_refl _
    · exact absurd hm (List.not_mem_nil d)
  | cons e es ih =>
    intro c d hd
    have hb : bestChoice c (e :: es) =
        bestChoice (if e.combos.length < c.combos.length then e else c) es := rfl
    rw [hb]
    have hfc : (if e.combos.length < c.combos.length then e else c).combos.length ≤
        c.combos.length := by
      split
      · next hlt => exact Nat.le_of_lt hlt
      · exact Nat.le_refl _
    have hfe : (if e.combos.length < c.combos.length then e else c).combos.length ≤
        e.combos.length := by
      split
      · exact Nat.le_refl _
      · next hlt => exact Nat.le_of_not_lt hlt
    have hhead := ih (if e.combos.length < c.combos.length then e else c) _
      (List.mem_cons_self ..)
    rcases List.mem_cons.mp hd with he1 | hm
    · subst he1; exact Nat.le_trans hhead hfc
    · rcases List.mem_cons.mp hm with he2 | hm2
      · subst he2; exact Nat.le_trans hhead hfe
      · exact ih _ d (List.mem_cons_of_mem _ hm2)

theorem isPlacementValid_setCell_star {n : Nat} {b : Board} {p q : Cell}
    (hval : isPlacementValid n b p.1 p.2 = true) (hq : adjTouch q p = false) :
    isPlacementValid n (setCell b q.1 q.2 STAR) p.1 p.2 = true := by
  apply isPlacementValid_true_iff.mpr
  intro s hs1 hs2 hne ht
  rcases Decidable.em ((s.1, s.2) = (q.1, q.2)) with hse | hse
  · exfalso
    have hsq : s = q := hse
    rw [hsq] at ht
    have hqt : adjTouch q p = true := by
      rw [adjTouch_symm]
      exact ht
    rw [hqt] at hq
    exact absurd hq (by decide)
  · rw [getCell_setCell_ne hse]
    exact isPlacementValid_true_iff.mp hval s hs1 hs2 hne ht

theorem SInv_placeStars {n : Nat} {combo : List Cell} {b : Board}
    (h : SInv n b)
    (hemp : ∀ rc ∈ combo, getCell b rc.1 rc.2 = EMPTY)
    (hpair : combo.Pairwise (fun a c => adjTouch a c = false))
    (hval : ∀ rc ∈ combo, isPlacementValid n b rc.1 rc.2 = true) :
    SInv n (placeStars b combo) := by
  induction combo generalizing b with
  | nil => exact h
  | cons rc rest ih =>
    have hstep : placeStars b (rc :: rest) = placeStars (setCell b rc.1 rc.2 STAR) rest := rfl
    rw [hstep]
    have hne : ∀ rc2 ∈ rest, (rc2.1, rc2.2) ≠ (rc.1, rc.2) := by
      intro rc2 hrc2 heq
      have heq2 : rc2 = rc := heq
      have := (List.pairwise_cons.mp hpair).1 rc2 hrc2
      rw [heq2, adjTouch_refl rc] at this
      exact absurd this (by decide)
    refine ih ?_ ?_ ?_ ?_
    · exact SInv_setCell_star (hemp rc (List.mem_cons_self ..))
        (hval rc (List.mem_cons_self ..)) h
    · intro rc2 hrc2
      rw [getCell_setCell_ne (hne rc2 hrc2)]
      exact hemp rc2 (List.mem_cons_of_mem _ hrc2)
    · exact (List.pairwise_cons.mp hpair).2
    · intro rc2 hrc2
      exact isPlacementValid_setCell_star (hval rc2 (List.mem_cons_of_mem _ hrc2))
        ((List.pairwise_cons.mp hpair).1 rc2 hrc2)

/-! ### Recorded solutions -/

/-- Whether a recorded solution has a star at a cell. -/
def solStarAt (s : List (List Nat)) (rc : Cell) : Bool :=
  (s.getD rc.1 []).getD rc.2 0 = 1

/-- Stars of a recorded solution inside a cell group. -/
def solCount (s : List (List Nat)) (g : List Cell) : Nat :=
  (g.filter (fun rc => solStarAt s rc)).length

theorem getD_map_lt {α β : Type} (f : α → β) {l : List α} {i : Nat} (h : i < l.length)
    (d : β) (d2 : α) : (l.map f).getD i d = f (l.getD i d2) := by
  induction l generalizing i with
  | nil => simp at h
  | cons x xs ih =>
    cases i with
    | zero => rfl
    | succ i =>
      simp only [List.map_cons, List.getD_cons_succ]
      exact ih (by simpa using h)

theorem solStarAt_boardToSolution {b : Board} {rc : Cell} :
    solStarAt (boardToSolution b) rc = true ↔ getCell b rc.1 rc.2 = STAR := by
  simp only [solStarAt, decide_eq_true_eq, boardToSolution, getCell]
  rcases Nat.lt_or_ge rc.1 b.length with h1 | h1
  · have ho := getD_map_lt (fun row => row.map fun cell => if cell = STAR then 1 else 0)
      h1 ([] : List Nat) ([] : List Int)
    rw [ho]
    rcases Nat.lt_or_ge rc.2 (b.getD rc.1 []).length with h2 | h2
    · have hi := getD_map_lt (fun cell => if cell = STAR then 1 else 0) h2 0 ELIMINATED
      rw [hi]
      by_cases hs : (b.getD rc.1 []).getD rc.2 ELIMINATED = STAR
      · simp [hs]
      · simp [hs]
    · have hi : ((b.getD rc.1 []).map (fun cell => if cell = STAR then 1 else 0)).getD rc.2 0
          = 0 := List.getD_eq_default _ _ (by simpa using h2)
      have hb : (b.getD rc.1 []).getD rc.2 ELIMINATED = ELIMINATED :=
        List.getD_eq_default _ _ h2
      rw [hi, hb]
      simp [ELIMINATED, STAR]
  · have ho : (b.map (fun row => row.map fun cell => if cell = STAR then 1 else 0)).getD rc.1 []
        = [] := List.getD_eq_default _ _ (by simpa using h1)
    have hb : b.getD rc.1 [] = [] := List.getD_eq_default _ _ h1
    rw [ho, hb]
    simp [List.getD, ELIMINATED, STAR]

theorem solStarAt_eq_decide {b : Board} {rc : Cell} :
    solStarAt (boardToSolution b) rc = decide (getCell b rc.1 rc.2 = STAR) := by
  by_cases hs : getCell b rc.1 rc.2 = STAR
  · rw [decide_eq_true hs]
    exact solStarAt_boardToSolution.mpr hs
  · rw [decide_eq_false hs]
    cases hv : solStarAt (boardToSolution b) rc
    · rfl
    · exact absurd (solStarAt_boardToSolution.mp hv) hs

theorem solCount_boardToSolution {b : Board} {g : List Cell} :
    solCount (boardToSolution b) g = starCount b g := by
  rw [solCount, starCount]
  congr 1
  apply List.filter_congr
  intro rc _
  exact solStarAt_eq_decide

/-- The soundness property of one recorded solution. -/
def GoodSol (P : Puzzle) (s : List (List Nat)) : Prop :=
  (∀ r < P.dim, solCount s (rowGroup P.dim r) = P.starsPerRegion) ∧
  (∀ c < P.dim, solCount s (colGroup P.dim c) = P.starsPerRegion) ∧
  (∀ id ∈ regionIds P, solCount s (regionCells P id) = P.starsPerRegion) ∧
  (∀ p q : Cell, p ≠ q → solStarAt s p = true → solStarAt s q = true →
    adjTouch p q = false)

theorem record_good {P : Puzzle} {b : Board} (hS : SInv P.dim b)
    (hfix : fullPass P b = some (b, false))
    (htot : totalStars b = P.dim * P.starsPerRegion) :
    GoodSol P (boardToSolution b) := by
  obtain ⟨hzero, hk⟩ := fix_total_determined hS.1 hfix htot
  refine ⟨fun r hr => ?_, fun c hc => ?_, fun id hid => ?_, fun p q hne hp hq => ?_⟩
  · rw [solCount_boardToSolution]; exact hk _ (rowGroup_mem_groups hr)
  · rw [solCount_boardToSolution]; exact hk _ (colGroup_mem_groups hc)
  · rw [solCount_boardToSolution]; exact hk _ (regionCells_mem_groups hid)
  · exact hS.2 p q hne (solStarAt_boardToSolution.mp hp) (solStarAt_boardToSolution.mp hq)

/-! ### Soundness of the search -/

theorem goCombos_sols_good {P : Puzzle} {recurse : Board → SolverState → SolverState}
    {board : Board}
    (hrec : ∀ nb st2, SInv P.dim nb → (∀ s ∈ st2.solutions, GoodSol P s) →
      ∀ s ∈ (recurse nb st2).solutions, GoodSol P s)
    (hS : SInv P.dim board) :
    ∀ {combos : List (List Cell)} {st : SolverState},
      (∀ combo ∈ combos, (∀ rc ∈ combo, getCell board rc.1 rc.2 = EMPTY) ∧
        combo.Pairwise (fun a c => adjTouch a c = false)) →
      (∀ s ∈ st.solutions, GoodSol P s) →
      ∀ s ∈ (goCombos P.dim recurse board combos st).solutions, GoodSol P s := by
  intro combos
  induction combos with
  | nil => intro st _ hst; exact hst
  | cons combo rest ih =>
    intro st hcombos hst s hs
    rw [goCombos] at hs
    split at hs
    · next hall =>
      have hval : ∀ rc ∈ combo, isPlacementValid P.dim board rc.1 rc.2 = true := by
        intro rc hrc
        have := List.all_eq_true.mp hall rc hrc
        simpa using this
      have hSnb : SInv P.dim (placeStars board combo) :=
        SInv_placeStars hS (hcombos combo (List.mem_cons_self ..)).1
          (hcombos combo (List.mem_cons_self ..)).2 hval
      have h2 := hrec _ st hSnb hst
      split at hs
      · exact h2 s hs
      · exact ih (fun c hc => hcombos c (List.mem_cons_of_mem _ hc)) h2 s hs
    · exact ih (fun c hc => hcombos c (List.mem_cons_of_mem _ hc)) hst s hs

theorem backtrackCore_sols_good {P : Puzzle}
    {recurse : Board → List Nat → SolverState → SolverState}
    (hrec : ∀ nb nu st2, SInv P.dim nb → (∀ s ∈ st2.solutions, GoodSol P s) →
      ∀ s ∈ (recurse nb nu st2).solutions, GoodSol P s)
    {board : Board} {unsolved : List Nat} {st : SolverState}
    (hS : SInv P.dim board) (hst : ∀ s ∈ st.solutions, GoodSol P s) :
    ∀ s ∈ (backtrackCore P recurse board unsolved st).solutions, GoodSol P s := by
  intro s hs
  rw [backtrackCore] at hs
  split at hs
  · exact hst s hs
  · next b hprop =>
    have hSb : SInv P.dim b := SInv_propagateConstraints hprop hS
    have hfix := propagateConstraints_fix hprop
    split at hs
    · split at hs
      · next htot =>
        simp only [pushSolution] at hs
        rcases List.mem_append.mp hs with h | h
        · exact hst s h
        · rw [List.mem_singleton.mp h]
          exact record_good hSb hfix htot
      · exact hst s hs
    · split at hs
      · exact hst s hs
      · next hbc =>
        split at hs
        · exact hst s hs
        · next b2 hprop2 =>
          have hSb2 := SInv_propagateConstraints hprop2 hSb
          have hfix2 := propagateConstraints_fix hprop2
          split at hs
          · next htot =>
            simp only [pushSolution] at hs
            rcases List.mem_append.mp hs with h | h
            · exact hst s h
            · rw [List.mem_singleton.mp h]
              exact record_good hSb2 hfix2 htot
          · exact hst s hs
      · next c cs2 hbc =>
        refine goCombos_sols_good (fun nb st2 hnb hst2 => hrec nb _ st2 hnb hst2) hSb
          ?_ hst s hs
        intro combo hcombo
        obtain ⟨hid, hcombos_eq, hcne⟩ := buildChoices_mem hbc _ (bestChoice_mem cs2 c)
        rw [hcombos_eq] at hcombo
        obtain ⟨hsub, hlen, hnodup, hmem, hpair⟩ := gic_mem_facts hcombo
        exact ⟨fun rc hrc => availCells_empty_mem (hmem rc hrc), hpair⟩

theorem backtrackFuel_sols_good {P : Puzzle} :
    ∀ {fuel : Nat} {board : Board} {unsolved : List Nat} {depth : Nat} {st : SolverState},
      SInv P.dim board → (∀ s ∈ st.solutions, GoodSol P s) →
      ∀ s ∈ (backtrackFuel P fuel board unsolved depth st).solutions, GoodSol P s := by
  intro fuel
  induction fuel with
  | zero => intro _ _ _ st hS hst; exact hst
  | succ fuel ih =>
    intro board unsolved depth st hS hst
    rw [backtrackFuel]
    exact backtrackCore_sols_good (fun nb nu st2 hnb hst2 => ih hnb hst2) hS hst

/-! ### Contradiction detection -/

theorem processGroup_contra {dim k : Nat} {g : List Cell} {bm : Board × Bool}
    (h : k < starCount bm.1 g ∨ starCount bm.1 g + (availCells bm.1 g).length < k) :
    processGroup dim k g bm = none := by
  rw [processGroup]
  rcases Decidable.em (k < starCount bm.1 g) with h1 | h1
  · rw [if_pos h1]
  · have h2 : starCount bm.1 g + (availCells bm.1 g).length < k := by omega
    have h3 : starCount bm.1 g ≠ k := by omega
    rw [if_neg h1, if_neg h3, if_pos h2]

theorem processGroups_append {dim k : Nat} {l1 l2 : List (List Cell)} {bm : Board × Bool} :
    processGroups dim k (l1 ++ l2) bm =
      match processGroups dim k l1 bm with
      | none => none
      | some bm2 => processGroups dim k l2 bm2 := by
  induction l1 generalizing bm with
  | nil => rw [List.nil_append, processGroups]
  | cons g gs ih =>
    rw [List.cons_append, processGroups, processGroups]
    cases processGroup dim k g bm with
    | none => rfl
    | some bm1 => exact ih

theorem processGroups_contra {dim k : Nat} {gs1 gs2 : List (List Cell)} {g : List Cell}
    {bm bm2 : Board × Bool}
    (h1 : processGroups dim k gs1 bm = some bm2)
    (h2 : k < starCount bm2.1 g ∨ starCount bm2.1 g + (availCells bm2.1 g).length < k) :
    processGroups dim k (gs1 ++ g :: gs2) bm = none := by
  rw [processGroups_append, h1]
  show processGroups dim k (g :: gs2) bm2 = none
  rw [processGroups, processGroup_contra h2]

/-! ### Monotone determination -/

theorem boardStep_placeStars {b : Board} {combo : List Cell}
    (hemp : ∀ rc ∈ combo, getCell b rc.1 rc.2 = EMPTY) :
    boardStep b (placeStars b combo) := by
  suffices h : ∀ b2, boardStep b b2 → boardStep b (placeStars b2 combo) from
    h b (boardStep_refl b)
  induction combo with
  | nil => intro b2 h2; exact h2
  | cons rc rest ih =>
    intro b2 h2
    have hrc := hemp rc (List.mem_cons_self ..)
    obtain ⟨hr, hc⟩ := getCell_empty_bounds hrc
    have hr2 : rc.1 < b2.length := by rw [h2.1.1]; exact hr
    have hc2 : rc.2 < (b2.getD rc.1 []).length := by rw [h2.1.2 rc.1]; exact hc
    have hstep : boardStep b (setCell b2 rc.1 rc.2 STAR) := by
      refine ⟨sameShape_trans h2.1 (sameShape_setCell b2 rc.1 rc.2 STAR), fun r c => ?_⟩
      rcases Decidable.em ((r, c) = (rc.1, rc.2)) with he | he
      · have e1 : r = rc.1 := congrArg Prod.fst he
        have e2 : c = rc.2 := congrArg Prod.snd he
        subst e1; subst e2
        rw [getCell_setCell_self hr2 hc2, hrc]
        exact Or.inr ⟨rfl, Or.inl rfl⟩
      · rw [getCell_setCell_ne he]
        exact h2.2 r c
    exact ih (fun rc2 h3 => hemp rc2 (List.mem_cons_of_mem _ h3)) _ hstep

/-! ### Concrete instances used by witnesses and counterexamples -/

/-- The trivial 1×1 puzzle with one region and one star. -/
def P1 : Puzzle := ⟨[[1]], 1⟩

/-- A malformed puzzle: `k = 0 < 1`. -/
def P0 : Puzzle := ⟨[[1]], 0⟩

/-- A 7×7 region layout whose root search node separates the two
branching heuristics: region 1 (a plus-pentomino) has the fewest
internally valid pairs, region 2 (a 4-cell line) the fewest unknowns. -/
def g7 : List (List Nat) :=
  [[2, 2, 2, 2, 3, 3, 3],
   [4, 3, 3, 3, 3, 1, 3],
   [4, 4, 4, 4, 1, 1, 1],
   [4, 4, 4, 5, 5, 1, 5],
   [6, 6, 5, 5, 5, 5, 5],
   [6, 6, 6, 6, 7, 7, 7],
   [6, 6, 7, 7, 7, 7, 7]]

/-- The 7×7 two-star puzzle over `g7`. -/
def P7 : Puzzle := ⟨g7, 2⟩

/-! ### The claims -/

/-- C1.  Soundness of returned solutions: for every puzzle model, every
Solution in the list returned by `solve` has exactly `k` stars in every
row, exactly `k` in every column, exactly `k` in every region, and no two
of its stars are 8-adjacent (horizontally, vertically or diagonally). -/
theorem C1_solve_sound (P : Puzzle) :
    ∀ sol ∈ (solve P).1,
      (∀ r < P.dim, solCount sol (rowGroup P.dim r) = P.starsPerRegion) ∧
      (∀ c < P.dim, solCount sol (colGroup P.dim c) = P.starsPerRegion) ∧
      (∀ id ∈ regionIds P, solCount sol (regionCells P id) = P.starsPerRegion) ∧
      (∀ p q : Cell, p ≠ q → solStarAt sol p = true → solStarAt sol q = true →
        adjTouch p q = false) := by
  intro sol hsol
  have h0 : ∀ s ∈ (⟨[], 0, 0⟩ : SolverState).solutions, GoodSol P s := by
    intro s hs
    exact absurd hs (List.not_mem_nil s)
  exact backtrackFuel_sols_good (SInv_initialBoard P.dim) h0 sol hsol

/-- Witness for C1: the unique solution of the 1×1 puzzle is sound. -/
theorem C1_solve_sound_witness :
    [[1]] ∈ (solve P1).1 ∧
      ((∀ r < P1.dim, solCount [[1]] (rowGroup P1.dim r) = P1.starsPerRegion) ∧
       (∀ c < P1.dim, solCount [[1]] (colGroup P1.dim c) = P1.starsPerRegion) ∧
       (∀ id ∈ regionIds P1, solCount [[1]] (regionCells P1 id) = P1.starsPerRegion) ∧
       (∀ p q : Cell, p ≠ q → solStarAt [[1]] p = true → solStarAt [[1]] q = true →
         adjTouch p q = false)) :=
  ⟨by decide, C1_solve_sound P1 [[1]] (by decide)⟩

/-- C3.  Whenever `_propagate_constraints` returns a board, every row,
column and region of that board satisfies `starCount ≤ k` and
`starCount + |UNKNOWN members| ≥ k`; and whenever the group pass finds
`starCount > k`, or `starCount + |UNKNOWN members| < k`, for the group it
is processing, the pass (and with it the whole call) returns
CONTRADICTION (`none`). -/
theorem C3_propagate_invariant (P : Puzzle) :
    (∀ b b2 : Board, propagateConstraints P b = some b2 →
      ∀ g ∈ groups P, starCount b2 g ≤ P.starsPerRegion ∧
        P.starsPerRegion ≤ starCount b2 g + (availCells b2 g).length) ∧
    (∀ (g : List Cell) (bm : Board × Bool),
      P.starsPerRegion < starCount bm.1 g ∨
        starCount bm.1 g + (availCells bm.1 g).length < P.starsPerRegion →
      processGroup P.dim P.starsPerRegion g bm = none) ∧
    (∀ (gs1 gs2 : List (List Cell)) (g : List Cell) (bm bm2 : Board × Bool),
      processGroups P.dim P.starsPerRegion gs1 bm = some bm2 →
      P.starsPerRegion < starCount bm2.1 g ∨
        starCount bm2.1 g + (availCells bm2.1 g).length < P.starsPerRegion →
      processGroups P.dim P.starsPerRegion (gs1 ++ g :: gs2) bm = none) := by
  refine ⟨fun b b2 h g hg => ?_, fun g bm h => processGroup_contra h,
    fun gs1 gs2 g bm bm2 h1 h2 => processGroups_contra h1 h2⟩
  have := fullPass_fix_groups (propagateConstraints_fix h) g hg
  exact ⟨this.1, this.2.1⟩

/-- Witness for C3 on the 1×1 puzzle: propagation fills the board and the
invariant holds at the fixpoint; an over-full group is a contradiction. -/
theorem C3_propagate_invariant_witness :
    propagateConstraints P1 (initialBoard 1) = some [[STAR]] ∧
    (∀ g ∈ groups P1, starCount [[STAR]] g ≤ P1.starsPerRegion ∧
      P1.starsPerRegion ≤ starCount [[STAR]] g + (availCells [[STAR]] g).length) ∧
    processGroup P1.dim P1.starsPerRegion [(0, 0), (0, 1)] ([[STAR, STAR]], false) = none := by
  refine ⟨by decide, ?_, ?_⟩
  · exact (C3_propagate_invariant P1).1 (initialBoard 1) [[STAR]] (by decide)
  · exact (C3_propagate_invariant P1).2.1 [(0, 0), (0, 1)] ([[STAR, STAR]], false)
      (by decide)

/-- C8.  Propagation terminates on every input board: a pass that makes a
change strictly decreases the number of UNKNOWN cells, and once the fuel
of the embedded loop exceeds that number, the loop's value no longer
depends on it — `_propagate_constraints` is a total function of the
board. -/
theorem C8_propagate_terminates (P : Puzzle) :
    (∀ b b2 : Board, fullPass P b = some (b2, true) → countEmpty b2 < countEmpty b) ∧
    (∀ (b : Board) (f : Nat), countEmpty b < f →
      propagateLoop P f b = propagateConstraints P b) := by
  refine ⟨fun b b2 h => fullPass_true_lt h, fun b f hf => ?_⟩
  exact propagateLoop_fuel_irrel hf (Nat.lt_succ_self _)

/-- Witness for C8 on the 1×1 puzzle. -/
theorem C8_propagate_terminates_witness :
    fullPass P1 (initialBoard 1) = some ([[STAR]], true) ∧
    countEmpty [[STAR]] < countEmpty (initialBoard 1) ∧
    propagateLoop P1 5 (initialBoard 1) = propagateConstraints P1 (initialBoard 1) := by
  refine ⟨by decide, ?_, ?_⟩
  · exact (C8_propagate_terminates P1).1 (initialBoard 1) [[STAR]] (by decide)
  · exact (C8_propagate_terminates P1).2 (initialBoard 1) 5 (by decide)

/-- C9.  Idempotent propagation: if `_propagate_constraints` does not
signal a contradiction, running it again on its result changes nothing. -/
theorem C9_propagate_idempotent (P : Puzzle) (b b2 : Board)
    (h : propagateConstraints P b = some b2) :
    propagateConstraints P b2 = some b2 :=
  propagateConstraints_idem h

/-- Witness for C9 on the 1×1 puzzle. -/
theorem C9_propagate_idempotent_witness :
    propagateConstraints P1 (initialBoard 1) = some [[STAR]] ∧
    propagateConstraints P1 [[STAR]] = some [[STAR]] :=
  ⟨by decide, C9_propagate_idempotent P1 (initialBoard 1) [[STAR]] (by decide)⟩

/-- C10.  Monotone determination: propagation only ever rewrites `EMPTY`
cells, to `STAR` or `ELIMINATED` (never overwriting a determined cell),
and so does combination placement on the unknown cells it is given; board
shape is preserved throughout. -/
theorem C10_monotone_determination (P : Puzzle) :
    (∀ b b2 : Board, propagateConstraints P b = some b2 → boardStep b b2) ∧
    (∀ (b : Board) (combo : List Cell), (∀ rc ∈ combo, getCell b rc.1 rc.2 = EMPTY) →
      boardStep b (placeStars b combo)) :=
  ⟨fun _ _ h => propagateConstraints_boardStep h,
   fun _ _ hemp => boardStep_placeStars hemp⟩

/-- Witness for C10 on the 1×1 puzzle. -/
theorem C10_monotone_determination_witness :
    propagateConstraints P1 (initialBoard 1) = some [[STAR]] ∧
    boardStep (initialBoard 1) [[STAR]] ∧
    boardStep (initialBoard 1) (placeStars (initialBoard 1) [(0, 0)]) :=
  ⟨by decide,
   (C10_monotone_determination P1).1 (initialBoard 1) [[STAR]] (by decide),
   (C10_monotone_determination P1).2 (initialBoard 1) [(0, 0)] (by decide)⟩

/-! ### Claims about the combination generator and branching -/

theorem combinations_zero (l : List Cell) : combinations 0 l = [[]] := by
  cases l <;> rfl

theorem combinations_one (l : List Cell) :
    combinations 1 l = l.map (fun rc => [rc]) := by
  induction l with
  | nil => rfl
  | cons x xs ih =>
    rw [combinations, ih, combinations_zero]
    rfl

theorem canonCells_eq_of_toFinset {l1 l2 : List Cell} (h : l1.toFinset = l2.toFinset) :
    canonCells l1 = canonCells l2 := by
  have hperm : List.Perm l1.dedup l2.dedup := by
    have := congrArg Finset.val h
    simpa [List.toFinset, Multiset.toFinset] using Quotient.exact this
  refine List.eq_of_perm_of_sorted ?_ (canonCells_sorted l1) (canonCells_sorted l2)
  exact (List.perm_insertionSort cellLe l1.dedup).trans
    (hperm.trans (List.perm_insertionSort cellLe l2.dedup).symm)

/-- C4.  Combination generator correctness: for a candidate cell set `S`
and a required count `n`, `_get_internally_valid_combos` returns exactly
the size-`n` subsets of `S` in which no two distinct cells are
8-adjacent, judging internal validity only (it sees no board);
for `n = 1` it returns every singleton (the pairwise scan being skipped);
and its argument — the `lru_cache` key — is the order-independent
`frozenset` normalisation of `S`, so the result does not depend on the
enumeration order of `S`. -/
theorem C4_combo_generator (avail : List Cell) (n : Nat) :
    (∀ combo ∈ getInternallyValidCombos avail n,
      combo.length = n ∧ combo.Nodup ∧ (∀ rc ∈ combo, rc ∈ avail) ∧
        combo.Pairwise (fun a b => adjTouch a b = false)) ∧
    (∀ sel : List Cell, sel.Sorted cellLe → sel.Nodup → sel.length = n →
      (∀ rc ∈ sel, rc ∈ avail) → sel.Pairwise (fun a b => adjTouch a b = false) →
      sel ∈ getInternallyValidCombos avail n) ∧
    (getInternallyValidCombos avail 1 = (canonCells avail).map (fun rc => [rc])) ∧
    (∀ avail2 : List Cell, avail.toFinset = avail2.toFinset →
      getInternallyValidCombos avail n = getInternallyValidCombos avail2 n) := by
  refine ⟨fun combo hc => ?_, fun sel hs hn hl hm hp => gic_complete hs hn hl hm hp, ?_, ?_⟩
  · obtain ⟨h1, h2, h3, h4, h5⟩ := gic_mem_facts hc
    exact ⟨h2, h3, h4, h5⟩
  · rw [getInternallyValidCombos, combinations_one]
    have : ∀ combo : List Cell,
        (if 1 < 1 then pairwiseNonTouch combo else true) = true := by
      intro combo
      rw [if_neg (by omega)]
    rw [List.filter_eq_self.mpr (fun combo _ => this combo)]
  · intro avail2 h
    rw [getInternallyValidCombos, getInternallyValidCombos, canonCells_eq_of_toFinset h]

/-- Witness for C4 on a three-cell row with `n = 2`: the only internally
valid pair is the two end cells, and order of the candidate list does not
matter. -/
theorem C4_combo_generator_witness :
    [(0, 0), (0, 2)] ∈ getInternallyValidCombos [(0, 0), (0, 1), (0, 2)] 2 ∧
    (∀ combo ∈ getInternallyValidCombos [(0, 0), (0, 1), (0, 2)] 2,
      combo.length = 2 ∧ combo.Nodup ∧
        (∀ rc ∈ combo, rc ∈ [(0, 0), (0, 1), (0, 2)]) ∧
        combo.Pairwise (fun a b => adjTouch a b = false)) ∧
    getInternallyValidCombos [(0, 2), (0, 0), (0, 1)] 2 =
      getInternallyValidCombos [(0, 0), (0, 1), (0, 2)] 2 := by
  refine ⟨?_, (C4_combo_generator [(0, 0), (0, 1), (0, 2)] 2).1, ?_⟩
  · exact (C4_combo_generator [(0, 0), (0, 1), (0, 2)] 2).2.1 [(0, 0), (0, 2)]
      (by decide) (by decide) (by decide) (by decide) (by decide)
  · exact (C4_combo_generator [(0, 2), (0, 0), (0, 1)] 2).2.2.2 [(0, 0), (0, 1), (0, 2)]
      (by decide)

/-- The branching computation of `_backtrack`: the `choices` list and
`min(choices, key=lambda x: len(x['combos']))`, as an id. -/
def branchedRegion (P : Puzzle) (b : Board) (unsolved : List Nat) : Option Nat :=
  match buildChoices P b unsolved with
  | none => none
  | some [] => none
  | some (c :: cs) => some (bestChoice c cs).id

set_option maxRecDepth 100000

/-- Counterexample to C5: at the root node of `solve P7` — which has a
non-empty unsolved set and survives propagation unchanged — the solver
branches on region 1 although candidate region 2 has strictly fewer
remaining UNKNOWN cells; the branch minimises the number of internally
valid combinations instead (region 1 has 2, region 2 has 3). -/
theorem C5_counterexample :
    propagateConstraints P7 (initialBoard 7) = some (initialBoard 7) ∧
    regionIds P7 ≠ [] ∧
    branchedRegion P7 (initialBoard 7) (regionIds P7) = some 1 ∧
    (buildChoices P7 (initialBoard 7) (regionIds P7)).map
      (fun cs => cs.map (fun ch => (ch.id, ch.combos.length))) =
      some [(2, 3), (3, 18), (4, 13), (1, 2), (5, 15), (6, 13), (7, 14)] ∧
    (availCells (initialBoard 7) (regionCells P7 2)).length <
      (availCells (initialBoard 7) (regionCells P7 1)).length := by
  refine ⟨by decide, by decide, by decide, by decide, by decide⟩

/-- C5 as amended: at every node with a non-empty choices list, the
region branched on is one whose combination list is shortest among the
choices (the first such in construction order); in this embedding the
whole computation is a pure function, so repeated runs are identical. -/
theorem C5_amended (P : Puzzle) (b : Board) (unsolved : List Nat) (rid : Nat)
    (h : branchedRegion P b unsolved = some rid) :
    ∃ c cs, buildChoices P b unsolved = some (c :: cs) ∧
      bestChoice c cs ∈ c :: cs ∧ (bestChoice c cs).id = rid ∧
      ∀ d ∈ c :: cs, (bestChoice c cs).combos.length ≤ d.combos.length := by
  rw [branchedRegion] at h
  split at h
  · exact absurd h (by simp)
  · exact absurd h (by simp)
  · next c cs hbc =>
    exact ⟨c, cs, hbc, bestChoice_mem cs c, Option.some.inj h,
      fun d hd => bestChoice_min cs c d hd⟩

/-- Witness for C5 as amended, at the root node of `solve P7`. -/
theorem C5_amended_witness :
    branchedRegion P7 (initialBoard 7) (regionIds P7) = some 1 ∧
    ∃ c cs, buildChoices P7 (initialBoard 7) (regionIds P7) = some (c :: cs) ∧
      bestChoice c cs ∈ c :: cs ∧ (bestChoice c cs).id = 1 ∧
      ∀ d ∈ c :: cs, (bestChoice c cs).combos.length ≤ d.combos.length :=
  ⟨by decide, C5_amended P7 (initialBoard 7) (regionIds P7) 1 (by decide)⟩

/-! ### Recording sites and the solution cap -/

theorem goCombos_id {dim : Nat} {board : Board} :
    ∀ {combos : List (List Cell)} {st : SolverState},
      goCombos dim (fun _ st2 => st2) board combos st = st := by
  intro combos
  induction combos with
  | nil => intro st; rfl
  | cons combo rest ih =>
    intro st
    rw [goCombos]
    split
    · split
      · rfl
      · exact ih
    · exact ih

/-- C6 as amended: a node records a Solution only from the propagated
board (re-propagating it is the identity, so both record sites extract
the same board), only when its total star count is `N · k`; and such a
board has zero UNKNOWN cells and exactly `k` stars in every row, column
and region.  The unsolved set need not be empty — its remaining regions
are then all saturated. -/
theorem C6_amended (P : Puzzle) (board : Board) (unsolved : List Nat) (st : SolverState)
    (hsq : squareShape P.dim board)
    (h : backtrackCore P (fun _ _ st2 => st2) board unsolved st ≠ st) :
    ∃ b2, propagateConstraints P board = some b2 ∧
      totalStars b2 = P.dim * P.starsPerRegion ∧
      backtrackCore P (fun _ _ st2 => st2) board unsolved st = pushSolution b2 st ∧
      countEmpty b2 = 0 ∧ ∀ g ∈ groups P, starCount b2 g = P.starsPerRegion := by
  revert h
  rw [backtrackCore]
  split
  · intro h; exact absurd rfl h
  · next b hprop =>
    have hsqb : squareShape P.dim b :=
      squareShape_of_sameShape hsq (propagateConstraints_boardStep hprop).1
    have hfix := propagateConstraints_fix hprop
    split
    · split
      · next htot =>
        intro _
        obtain ⟨hz, hk⟩ := fix_total_determined hsqb hfix htot
        exact ⟨b, hprop, htot, rfl, hz, hk⟩
      · intro h; exact absurd rfl h
    · split
      · intro h; exact absurd rfl h
      · next hbc =>
        split
        · intro h; exact absurd rfl h
        · next b2 hprop2 =>
          have hb2 : b2 = b := by
            have hidem := propagateConstraints_idem hprop
            rw [hprop2] at hidem
            exact Option.some.inj hidem
          subst hb2
          split
          · next htot =>
            intro _
            obtain ⟨hz, hk⟩ := fix_total_determined hsqb hfix htot
            exact ⟨b2, hprop, htot, rfl, hz, hk⟩
          · intro h; exact absurd rfl h
      · next c cs2 hbc =>
        intro h
        exact absurd goCombos_id h

/-- Counterexample to C6: on the 1×1 puzzle the root node has the
non-empty unsolved set `[1]` (the region was saturated by propagation,
never branched on), records its solution right there — observed with the
recursion stubbed out, so the recording is the node's own — and `solve`
returns that solution. -/
theorem C6_counterexample :
    ([1] : List Nat) ≠ [] ∧
    backtrackCore P1 (fun _ _ st2 => st2) (initialBoard 1) [1] ⟨[], 0, 0⟩ =
      { solutions := [[[1]]], nodesVisited := 0, maxRecursionDepth := 0 } ∧
    (solve P1).1 = [[[1]]] :=
  ⟨by decide, by decide, by decide⟩

/-- Witness for C6 as amended, on the 1×1 root node. -/
theorem C6_amended_witness :
    squareShape P1.dim (initialBoard 1) ∧
    (∃ b2, propagateConstraints P1 (initialBoard 1) = some b2 ∧
      totalStars b2 = P1.dim * P1.starsPerRegion ∧
      backtrackCore P1 (fun _ _ st2 => st2) (initialBoard 1) [1] ⟨[], 0, 0⟩ =
        pushSolution b2 ⟨[], 0, 0⟩ ∧
      countEmpty b2 = 0 ∧ ∀ g ∈ groups P1, starCount b2 g = P1.starsPerRegion) :=
  ⟨squareShape_initialBoard 1,
   C6_amended P1 (initialBoard 1) [1] ⟨[], 0, 0⟩ (squareShape_initialBoard 1) (by decide)⟩

theorem goCombos_sols_le {dim : Nat} {recurse : Board → SolverState → SolverState}
    {board : Board}
    (hrec : ∀ nb st2, st2.solutions.length < 2 → (recurse nb st2).solutions.length ≤ 2) :
    ∀ {combos : List (List Cell)} {st : SolverState}, st.solutions.length < 2 →
      (goCombos dim recurse board combos st).solutions.length ≤ 2 := by
  intro combos
  induction combos with
  | nil =>
    intro st h
    show st.solutions.length ≤ 2
    omega
  | cons combo rest ih =>
    intro st h
    rw [goCombos]
    split
    · split
      · exact hrec _ st h
      · next h2 => exact ih (by omega)
    · exact ih h

theorem backtrackCore_sols_le {P : Puzzle} {recurse : Board → List Nat → SolverState → SolverState}
    {board : Board} {unsolved : List Nat} {st : SolverState}
    (hrec : ∀ nb nu st2, st2.solutions.length < 2 → (recurse nb nu st2).solutions.length ≤ 2)
    (hst : st.solutions.length < 2) :
    (backtrackCore P recurse board unsolved st).solutions.length ≤ 2 := by
  rw [backtrackCore]
  split
  · omega
  · split
    · split
      · simp only [pushSolution, List.length_append, List.length_singleton]
        omega
      · omega
    · split
      · omega
      · split
        · omega
        · split
          · simp only [pushSolution, List.length_append, List.length_singleton]
            omega
          · omega
      · exact goCombos_sols_le (fun nb st2 h2 => hrec _ _ st2 h2) hst

theorem backtrackFuel_sols_le {P : Puzzle} :
    ∀ {fuel : Nat} {board : Board} {unsolved : List Nat} {depth : Nat} {st : SolverState},
      st.solutions.length < 2 →
      (backtrackFuel P fuel board unsolved depth st).solutions.length ≤ 2 := by
  intro fuel
  induction fuel with
  | zero =>
    intro _ _ _ st h
    show st.solutions.length ≤ 2
    omega
  | succ fuel ih =>
    intro board unsolved depth st h
    rw [backtrackFuel]
    exact backtrackCore_sols_le (fun nb nu st2 h2 => ih h2) h

/-- A non-dense region layout: one single region covering a 2×2 grid. -/
def Pbad : Puzzle := ⟨[[1, 1], [1, 1]], 1⟩

/-- Counterexample to C7: the solving core performs no input validation
and emits no invalid-puzzle signal.  On the malformed puzzle `k = 0` it
runs the ordinary search and even returns a (spurious) solution; on a
partition that is not a dense `1..N` cover it likewise runs normally and
returns an empty result, indistinguishable from a valid unsolvable
puzzle. -/
theorem C7_counterexample :
    P0.starsPerRegion < 1 ∧ (solve P0).1 = [[[0]]] ∧
    regionIds Pbad = [1] ∧ Pbad.dim = 2 ∧ (solve Pbad).1 = [] :=
  ⟨by decide, by decide, by decide, by decide, by decide⟩

/-- C7 as amended: the core never signals invalid input; on every model,
malformed ones included, it terminates and returns an ordinary result of
at most two placements (validation of the task string happens upstream of
the core, and dimension/density/`k ≥ 1` are not checked at all). -/
theorem C7_amended (P : Puzzle) : (solve P).1.length ≤ 2 :=
  backtrackFuel_sols_le (by decide)

/-! ### Completeness machinery: a counting toolkit for `List.countP` -/

theorem countP_none {α : Type} {p : α → Bool} :
    ∀ {l : List α}, (∀ x ∈ l, p x = false) → l.countP p = 0 := by
  intro l
  induction l with
  | nil => intro _; rfl
  | cons y ys ih =>
    intro h
    rw [List.countP_cons, ih (fun x hx => h x (List.mem_cons_of_mem _ hx)),
      h y (List.mem_cons_self ..)]
    rfl

theorem countP_full {α : Type} {p : α → Bool} :
    ∀ {l : List α}, l.countP p = l.length → ∀ x ∈ l, p x = true := by
  intro l
  induction l with
  | nil => intro _ x hx; exact absurd hx (List.not_mem_nil x)
  | cons y ys ih =>
    intro h x hx
    rw [List.countP_cons, List.length_cons] at h
    have hle : ys.countP p ≤ ys.length := List.countP_le_length _
    have hy : p y = true := by
      by_contra hpy
      rw [if_neg hpy] at h
      omega
    rcases List.mem_cons.mp hx with he | hm
    · subst he; exact hy
    · refine ih ?_ x hm
      rw [if_pos hy] at h
      omega

theorem countP_strict {α : Type} {p q : α → Bool} :
    ∀ {l : List α}, (∀ x ∈ l, q x = true → p x = true) →
      ∀ {x : α}, x ∈ l → p x = true → q x = false → l.countP q < l.countP p := by
  intro l
  induction l with
  | nil => intro _ x hx; exact absurd hx (List.not_mem_nil x)
  | cons y ys ih =>
    intro himp x hx hpx hqx
    rw [List.countP_cons, List.countP_cons]
    have hmono : ys.countP q ≤ ys.countP p :=
      List.countP_mono_left (fun z hz => himp z (List.mem_cons_of_mem _ hz))
    rcases List.mem_cons.mp hx with he | hm
    · subst he
      rw [hpx, hqx]
      simp only [Bool.false_eq_true, if_false, if_true]
      omega
    · have hlt := ih (fun z hz => himp z (List.mem_cons_of_mem _ hz)) hm hpx hqx
      have hy : (if q y = true then 1 else 0) ≤ (if p y = true then 1 else 0) := by
        by_cases hq : q y = true
        · rw [if_pos hq, if_pos (himp y (List.mem_cons_self ..) hq)]
        · rw [if_neg hq]
          omega
      omega

theorem countP_or_le {α : Type} {p q : α → Bool} :
    ∀ {l : List α}, l.countP (fun x => p x || q x) ≤ l.countP p + l.countP q := by
  intro l
  induction l with
  | nil => exact Nat.le_refl _
  | cons y ys ih =>
    rw [List.countP_cons, List.countP_cons, List.countP_cons]
    have hy : (if (p y || q y) = true then 1 else 0) ≤
        (if p y = true then 1 else 0) + (if q y = true then 1 else 0) := by
      by_cases hp : p y = true
      · rw [if_pos hp]
        by_cases hq : q y = true <;> simp [hp, hq]
      · by_cases hq : q y = true <;> simp [hp, hq]
    omega

theorem countP_disjoint_or {α : Type} {p q : α → Bool} :
    ∀ {l : List α}, (∀ x ∈ l, p x = true → q x = false) →
      l.countP (fun x => p x || q x) = l.countP p + l.countP q := by
  intro l
  induction l with
  | nil => intro _; rfl
  | cons y ys ih =>
    intro h
    rw [List.countP_cons, List.countP_cons, List.countP_cons,
      ih (fun x hx => h x (List.mem_cons_of_mem _ hx))]
    have hy : (if (p y || q y) = true then 1 else 0) =
        (if p y = true then 1 else 0) + (if q y = true then 1 else 0) := by
      by_cases hp : p y = true
      · rw [h y (List.mem_cons_self ..) hp]
        simp [hp]
      · by_cases hq : q y = true <;> simp [hp, hq]
    omega

/-- Splitting a count along a case distinction: if `p` implies `a` or `e`,
`a` and `e` exclude each other, and `a` implies `p`, then the `p`-count is
the `a`-count plus the count of elements that are `p` and `e`. -/
theorem countP_split {α : Type} {p a e : α → Bool} :
    ∀ {l : List α}, (∀ x ∈ l, p x = true → a x = true ∨ e x = true) →
      (∀ x ∈ l, a x = true → e x = false) →
      (∀ x ∈ l, a x = true → p x = true) →
      l.countP p = l.countP a + l.countP (fun x => p x && e x) := by
  intro l
  induction l with
  | nil => intro _ _ _; rfl
  | cons y ys ih =>
    intro h1 h2 h3
    rw [List.countP_cons, List.countP_cons, List.countP_cons,
      ih (fun x hx => h1 x (List.mem_cons_of_mem _ hx))
        (fun x hx => h2 x (List.mem_cons_of_mem _ hx))
        (fun x hx => h3 x (List.mem_cons_of_mem _ hx))]
    have hy : (if p y = true then 1 else 0) =
        (if a y = true then 1 else 0) + (if (p y && e y) = true then 1 else 0) := by
      by_cases hp : p y = true
      · rcases h1 y (List.mem_cons_self ..) hp with ha | he
        · rw [h2 y (List.mem_cons_self ..) ha] at *
          simp [hp, ha]
        · by_cases ha : a y = true
          · rw [h2 y (List.mem_cons_self ..) ha] at he
            exact absurd he (by simp)
          · simp [hp, ha, he]
      · have ha : a y ≠ true := fun ha => hp (h3 y (List.mem_cons_self ..) ha)
        simp [hp, ha]
    omega

theorem countP_eq_one_of_unique {α : Type} {p : α → Bool} :
    ∀ {l : List α} {x : α}, l.Nodup → x ∈ l → p x = true →
      (∀ y ∈ l, p y = true → y = x) → l.countP p = 1 := by
  intro l
  induction l with
  | nil => intro x _ hx; exact absurd hx (List.not_mem_nil x)
  | cons y ys ih =>
    intro x hnd hx hpx huniq
    rw [List.countP_cons]
    rcases List.mem_cons.mp hx with he | hm
    · subst he
      rw [if_pos hpx]
      have hz : ys.countP p = 0 := by
        apply countP_none
        intro z hz
        by_contra hpz
        have hzt : p z = true := by
          cases hc : p z
          · exact absurd hc hpz
          · rfl
        have := huniq z (List.mem_cons_of_mem _ hz) hzt
        subst this
        exact (List.nodup_cons.mp hnd).1 hz
      omega
    · have hyne : p y = false := by
        cases hc : p y
        · rfl
        · have := huniq y (List.mem_cons_self ..) hc
          subst this
          exact absurd hm (List.nodup_cons.mp hnd).1
      rw [hyne]
      have := ih (List.nodup_cons.mp hnd).2 hm hpx
        (fun z hz hpz => huniq z (List.mem_cons_of_mem _ hz) hpz)
      simp only [Bool.false_eq_true, if_false]
      omega

theorem countP_mem_eq_length {α : Type} [DecidableEq α] {γ l : List α}
    (hγ : γ.Nodup) (hl : l.Nodup) (hsub : ∀ x ∈ γ, x ∈ l) :
    l.countP (fun x => decide (x ∈ γ)) = γ.length := by
  rw [List.countP_eq_length_filter]
  have hmemiff : ∀ a, a ∈ l.filter (fun x => decide (x ∈ γ)) ↔ a ∈ γ := by
    intro a
    rw [List.mem_filter]
    constructor
    · intro h
      exact of_decide_eq_true h.2
    · intro h
      exact ⟨hsub a h, decide_eq_true h⟩
  exact ((List.perm_ext_iff_of_nodup (hl.filter _) hγ).mpr hmemiff).length_eq

/-- Partitioning a count along a key test: when at most one key of a
duplicate-free key list can match an element, counting the elements with
a matching key equals the sum over the keys of the per-key counts. -/
theorem sum_countP_key {α κ : Type} {p : α → Bool} {keyT : α → κ → Bool} {l : List α} :
    ∀ {G : List κ}, G.Nodup →
      (∀ s γ1 γ2, keyT s γ1 = true → keyT s γ2 = true → γ1 = γ2) →
      (G.map (fun γ => l.countP (fun s => p s && keyT s γ))).sum =
        l.countP (fun s => p s && G.any (fun γ => keyT s γ)) := by
  intro G
  induction G with
  | nil =>
    intro _ _
    rw [List.map_nil, List.sum_nil]
    symm
    apply countP_none
    intro x _
    rw [List.any_nil, Bool.and_false]
  | cons γ G2 ih =>
    intro hnd huniq
    rw [List.map_cons, List.sum_cons, ih (List.nodup_cons.mp hnd).2 huniq]
    have hsplit : l.countP (fun s => p s && (γ :: G2).any (fun γ2 => keyT s γ2)) =
        l.countP (fun s =>
          (p s && keyT s γ) || (p s && G2.any (fun γ2 => keyT s γ2))) := by
      apply List.countP_congr
      intro s _
      rw [List.any_cons, Bool.and_or_distrib_left]
    rw [hsplit, countP_disjoint_or]
    intro s _ h1
    rw [Bool.and_eq_true] at h1
    cases hc : G2.any (fun γ2 => keyT s γ2)
    · rw [Bool.and_false]
    · exfalso
      obtain ⟨γ2, hγ2, hk2⟩ := List.any_eq_true.mp hc
      have he := huniq s γ γ2 h1.2 hk2
      rw [← he] at hγ2
      exact (List.nodup_cons.mp hnd).1 hγ2

theorem sum_map_const {α : Type} {k : Nat} :
    ∀ {l : List α}, (l.map (fun _ => k)).sum = l.length * k := by
  intro l
  induction l with
  | nil => simp
  | cons y ys ih =>
    rw [List.map_cons, List.sum_cons, List.length_cons, ih]
    ring

theorem all_false_exists {α : Type} {p : α → Bool} {l : List α} (h : l.all p = false) :
    ∃ x ∈ l, p x = false := by
  by_contra hc
  push_neg at hc
  have hall : l.all p = true := List.all_eq_true.mpr (fun x hx => by
    cases hpx : p x
    · exact absurd hpx (hc x hx)
    · rfl)
  rw [hall] at h
  exact absurd h (by simp)

/-- A generic fold-preservation principle. -/
theorem foldl_pres {α β : Type} {Q : β → Prop} {f : β → α → β} :
    ∀ {l : List α}, (∀ s, Q s → ∀ x ∈ l, Q (f s x)) → ∀ {s0 : β}, Q s0 → Q (l.foldl f s0) := by
  intro l
  induction l with
  | nil => intro _ s0 h0; exact h0
  | cons y ys ih =>
    intro h s0 h0
    rw [List.foldl_cons]
    exact ih (fun s hs x hx => h s hs x (List.mem_cons_of_mem _ hx))
      (h s0 h0 y (List.mem_cons_self ..))

/-! ### Completeness machinery: enumerating every candidate placement -/

/-- All length-`h` lists over a fixed alphabet. -/
def tuples {α : Type} (alphabet : List α) : Nat → List (List α)
  | 0 => [[]]
  | h + 1 => alphabet.flatMap (fun a => (tuples alphabet h).map (fun t => a :: t))

theorem mem_tuples {α : Type} {A : List α} :
    ∀ {h : Nat} {t : List α}, t ∈ tuples A h ↔ t.length = h ∧ ∀ x ∈ t, x ∈ A := by
  intro h
  induction h with
  | zero =>
    intro t
    simp only [tuples, List.mem_singleton]
    constructor
    · intro he
      subst he
      exact ⟨rfl, fun x hx => absurd hx (List.not_mem_nil x)⟩
    · intro ⟨hl, _⟩
      exact List.length_eq_zero.mp hl
  | succ h ih =>
    intro t
    rw [tuples, List.mem_flatMap]
    constructor
    · intro ⟨a, ha, ht⟩
      obtain ⟨t2, ht2, he⟩ := List.mem_map.mp ht
      subst he
      obtain ⟨hl, hx⟩ := ih.mp ht2
      refine ⟨by rw [List.length_cons, hl], ?_⟩
      intro x hx2
      rcases List.mem_cons.mp hx2 with he | hm
      · subst he; exact ha
      · exact hx x hm
    · intro ⟨hl, hx⟩
      cases t with
      | nil => simp at hl
      | cons a t2 =>
        refine ⟨a, hx a (List.mem_cons_self ..), List.mem_map.mpr ⟨t2, ?_, rfl⟩⟩
        refine ih.mpr ⟨?_, fun x hm => hx x (List.mem_cons_of_mem _ hm)⟩
        rw [List.length_cons] at hl
        omega

theorem tuples_nodup {α : Type} {A : List α} (hA : A.Nodup) :
    ∀ {h : Nat}, (tuples A h).Nodup := by
  intro h
  induction h with
  | zero => simp [tuples]
  | succ h ih =>
    rw [tuples]
    apply List.pairwise_flatMap.mpr
    constructor
    · intro a _
      refine List.Nodup.map ?_ ih
      intro t1 t2 he
      injection he
    · refine hA.imp ?_
      intro a b hab x hx y hy
      obtain ⟨t1, _, he1⟩ := List.mem_map.mp hx
      obtain ⟨t2, _, he2⟩ := List.mem_map.mp hy
      subst he1
      subst he2
      intro he
      injection he with h1 h2
      exact hab h1

/-- Every binary row of width `n`. -/
def allBinRows (n : Nat) : List (List Nat) := tuples [0, 1] n

/-- Every `n × n` board of `0`/`1` entries — the search space of the naive
cell-by-cell brute-force enumeration the completeness claim compares
against. -/
def allBinBoards (n : Nat) : List (List (List Nat)) := tuples (allBinRows n) n

theorem allBinBoards_nodup (n : Nat) : (allBinBoards n).Nodup :=
  tuples_nodup (tuples_nodup (by decide))

/-- The shape test matching membership in `allBinBoards`. -/
def binShape (n : Nat) (s : List (List Nat)) : Bool :=
  decide (s.length = n) && s.all (fun row =>
    decide (row.length = n) && row.all (fun v => decide (v = 0) || decide (v = 1)))

theorem binShape_facts {n : Nat} {s : List (List Nat)} (hb : binShape n s = true) :
    s.length = n ∧ ∀ row ∈ s, row.length = n ∧ ∀ v ∈ row, v = 0 ∨ v = 1 := by
  rw [binShape] at hb
  simp only [Bool.and_eq_true, List.all_eq_true, decide_eq_true_eq, Bool.or_eq_true] at hb
  exact hb

theorem mem_allBinBoards {n : Nat} {s : List (List Nat)} :
    s ∈ allBinBoards n ↔ binShape n s = true := by
  rw [allBinBoards, mem_tuples, binShape]
  simp only [Bool.and_eq_true, List.all_eq_true, decide_eq_true_eq, Bool.or_eq_true]
  constructor
  · intro ⟨hl, hr⟩
    refine ⟨hl, fun row hrow => ?_⟩
    obtain ⟨hrl, hrv⟩ := mem_tuples.mp (hr row hrow)
    refine ⟨hrl, fun v hv => ?_⟩
    have := hrv v hv
    simp only [List.mem_cons, List.not_mem_nil, or_false] at this
    exact this
  · intro ⟨hl, hr⟩
    refine ⟨hl, fun row hrow => ?_⟩
    refine mem_tuples.mpr ⟨(hr row hrow).1, fun v hv => ?_⟩
    rcases (hr row hrow).2 v hv with h | h <;> simp [h]

/-! ### Completeness machinery: geometry of coordinates and groups -/

theorem mem_allCoords {n : Nat} {rc : Cell} : rc ∈ allCoords n ↔ rc.1 < n ∧ rc.2 < n := by
  rw [allCoords, List.mem_flatMap]
  constructor
  · intro ⟨r, hr, hm⟩
    obtain ⟨c, hc, he⟩ := List.mem_map.mp hm
    subst he
    exact ⟨List.mem_range.mp hr, List.mem_range.mp hc⟩
  · intro ⟨h1, h2⟩
    exact ⟨rc.1, List.mem_range.mpr h1, List.mem_map.mpr ⟨rc.2, List.mem_range.mpr h2, rfl⟩⟩

/-! ### Completeness machinery: stars of a candidate placement -/

theorem solStarAt_oob {n : Nat} {s : List (List Nat)} (hb : binShape n s = true)
    {rc : Cell} (h : n ≤ rc.1 ∨ n ≤ rc.2) : solStarAt s rc = false := by
  obtain ⟨hlen, hrows⟩ := binShape_facts hb
  rw [solStarAt]
  rcases Nat.lt_or_ge rc.1 n with h1 | h1
  · have h2 : n ≤ rc.2 := by
      rcases h with h | h
      · omega
      · exact h
    have hmem : s.getD rc.1 [] ∈ s := getD_mem_of_lt (by omega)
    have hrl : (s.getD rc.1 []).length = n := (hrows _ hmem).1
    have hi : (s.getD rc.1 []).getD rc.2 0 = 0 := List.getD_eq_default _ _ (by omega)
    rw [hi]
    simp
  · have hs0 : s.getD rc.1 [] = [] := List.getD_eq_default _ _ (by omega)
    rw [hs0]
    simp [List.getD]

theorem solStar_inrange {n : Nat} {s : List (List Nat)} (hb : binShape n s = true)
    {rc : Cell} (h : solStarAt s rc = true) : rc.1 < n ∧ rc.2 < n := by
  rcases Nat.lt_or_ge rc.1 n with h1 | h1
  · rcases Nat.lt_or_ge rc.2 n with h2 | h2
    · exact ⟨h1, h2⟩
    · rw [solStarAt_oob hb (Or.inr h2)] at h
      exact absurd h (by simp)
  · rw [solStarAt_oob hb (Or.inl h1)] at h
    exact absurd h (by simp)

/-- No two distinct stars of a candidate placement touch (checked over
the in-range coordinates; out-of-range cells of a well-shaped placement
hold no star). -/
def noAdjSolB (n : Nat) (s : List (List Nat)) : Bool :=
  (allCoords n).all (fun p => (allCoords n).all (fun q =>
    !(solStarAt s p) || !(solStarAt s q) || decide (p = q) || !(adjTouch p q)))

/-- The full validity test the completeness claim quantifies over: an
`n × n` 0/1 placement with exactly `k` stars in every row, every column
and every region, and no two distinct stars 8-adjacent. -/
def isValidSolution (P : Puzzle) (s : List (List Nat)) : Bool :=
  binShape P.dim s &&
  (groups P).all (fun g => decide (solCount s g = P.starsPerRegion)) &&
  noAdjSolB P.dim s

theorem valid_binShape {P : Puzzle} {s : List (List Nat)}
    (hv : isValidSolution P s = true) : binShape P.dim s = true := by
  rw [isValidSolution, Bool.and_eq_true, Bool.and_eq_true] at hv
  exact hv.1.1

theorem valid_groups {P : Puzzle} {s : List (List Nat)}
    (hv : isValidSolution P s = true) :
    ∀ g ∈ groups P, solCount s g = P.starsPerRegion := by
  rw [isValidSolution, Bool.and_eq_true, Bool.and_eq_true] at hv
  intro g hg
  exact of_decide_eq_true (List.all_eq_true.mp hv.1.2 g hg)

theorem valid_noAdj {P : Puzzle} {s : List (List Nat)}
    (hv : isValidSolution P s = true) :
    ∀ p q : Cell, p ≠ q → solStarAt s p = true → solStarAt s q = true →
      adjTouch p q = false := by
  intro p q hne hp hq
  have hb := valid_binShape hv
  have hvn : noAdjSolB P.dim s = true := by
    rw [isValidSolution, Bool.and_eq_true] at hv
    exact hv.2
  have hp2 := solStar_inrange hb hp
  have hq2 := solStar_inrange hb hq
  rw [noAdjSolB] at hvn
  have h1 := List.all_eq_true.mp hvn p (mem_allCoords.mpr hp2)
  have h2 := List.all_eq_true.mp h1 q (mem_allCoords.mpr hq2)
  simp only [Bool.or_eq_true, Bool.not_eq_true', decide_eq_true_eq] at h2
  rcases h2 with ((hc | hc) | hc) | hc
  · rw [hp] at hc
    exact absurd hc (by simp)
  · rw [hq] at hc
    exact absurd hc (by simp)
  · exact absurd hc hne
  · exact hc

theorem allCoords_nodup (n : Nat) : (allCoords n).Nodup := by
  apply List.pairwise_flatMap.mpr
  constructor
  · intro r _
    refine List.Nodup.map ?_ (List.nodup_range ..)
    intro c1 c2 he
    exact congrArg Prod.snd he
  · refine (List.pairwise_lt_range ..).imp ?_
    intro r1 r2 hlt x hx y hy
    obtain ⟨c1, _, he1⟩ := List.mem_map.mp hx
    obtain ⟨c2, _, he2⟩ := List.mem_map.mp hy
    subst he1
    subst he2
    intro he
    have := congrArg Prod.fst he
    simp only at this
    omega

theorem allCoords_sorted (n : Nat) : (allCoords n).Pairwise cellLe := by
  apply List.pairwise_flatMap.mpr
  constructor
  · intro r _
    apply List.pairwise_map.mpr
    refine (List.pairwise_lt_range ..).imp ?_
    intro c1 c2 hlt
    exact Or.inr ⟨rfl, Nat.le_of_lt hlt⟩
  · refine (List.pairwise_lt_range ..).imp ?_
    intro r1 r2 hlt x hx y hy
    obtain ⟨c1, _, he1⟩ := List.mem_map.mp hx
    obtain ⟨c2, _, he2⟩ := List.mem_map.mp hy
    subst he1
    subst he2
    exact Or.inl hlt

theorem mem_regionCells {P : Puzzle} {id : Nat} {rc : Cell} :
    rc ∈ regionCells P id ↔ rc ∈ allCoords P.dim ∧ gridGet P.regionGrid rc.1 rc.2 = id := by
  rw [regionCells, List.mem_filter]
  simp

theorem regionCells_nodup {P : Puzzle} {id : Nat} : (regionCells P id).Nodup :=
  (allCoords_nodup P.dim).filter _

theorem regionCells_sorted {P : Puzzle} {id : Nat} : (regionCells P id).Pairwise cellLe :=
  List.Pairwise.sublist (List.filter_sublist _) (allCoords_sorted P.dim)

theorem regionCells_disjoint {P : Puzzle} {id1 id2 : Nat} {rc : Cell}
    (h1 : rc ∈ regionCells P id1) (h2 : rc ∈ regionCells P id2) : id1 = id2 := by
  have e1 := (mem_regionCells.mp h1).2
  have e2 := (mem_regionCells.mp h2).2
  rw [← e1, ← e2]

theorem mem_dedupFirstAux :
    ∀ {l seen : List Nat} {x : Nat}, x ∈ dedupFirstAux seen l ↔ x ∈ l ∧ x ∉ seen := by
  intro l
  induction l with
  | nil => intro seen x; simp [dedupFirstAux]
  | cons y ys ih =>
    intro seen x
    rw [dedupFirstAux]
    split
    · next hy =>
      rw [ih, List.mem_cons]
      constructor
      · intro ⟨hm, hs⟩
        exact ⟨Or.inr hm, hs⟩
      · intro ⟨hm, hs⟩
        rcases hm with he | hm
        · subst he
          exact absurd hy hs
        · exact ⟨hm, hs⟩
    · next hy =>
      rw [List.mem_cons, List.mem_cons, ih]
      constructor
      · intro h
        rcases h with he | ⟨hm, hs⟩
        · subst he
          exact ⟨Or.inl rfl, hy⟩
        · refine ⟨Or.inr hm, fun hx => hs (List.mem_cons_of_mem _ hx)⟩
      · intro ⟨hm, hs⟩
        rcases hm with he | hm
        · exact Or.inl he
        · by_cases hxy : x = y
          · exact Or.inl hxy
          · refine Or.inr ⟨hm, fun hx => ?_⟩
            rcases List.mem_cons.mp hx with he2 | hx2
            · exact hxy he2
            · exact hs hx2

theorem nodup_dedupFirstAux : ∀ {l seen : List Nat}, (dedupFirstAux seen l).Nodup := by
  intro l
  induction l with
  | nil => intro seen; exact List.nodup_nil
  | cons y ys ih =>
    intro seen
    rw [dedupFirstAux]
    split
    · exact ih
    · refine List.nodup_cons.mpr ⟨fun hy => ?_, ih⟩
      exact (mem_dedupFirstAux.mp hy).2 (List.mem_cons_self ..)

theorem regionIds_nodup (P : Puzzle) : (regionIds P).Nodup := nodup_dedupFirstAux

theorem gridId_mem_regionIds {P : Puzzle} {rc : Cell} (h : rc ∈ allCoords P.dim) :
    gridGet P.regionGrid rc.1 rc.2 ∈ regionIds P := by
  rw [regionIds, mem_dedupFirstAux]
  exact ⟨List.mem_map.mpr ⟨rc, h, rfl⟩, List.not_mem_nil _⟩

theorem groups_inrange {P : Puzzle} {g : List Cell} (hg : g ∈ groups P) :
    ∀ rc ∈ g, rc.1 < P.dim ∧ rc.2 < P.dim := by
  intro rc hrc
  rw [groups] at hg
  rcases List.mem_append.mp hg with h12 | h3
  · rcases List.mem_append.mp h12 with h1 | h2
    · obtain ⟨r, hr, he⟩ := List.mem_map.mp h1
      subst he
      rw [rowGroup] at hrc
      obtain ⟨c, hc, he⟩ := List.mem_map.mp hrc
      subst he
      exact ⟨List.mem_range.mp hr, List.mem_range.mp hc⟩
    · obtain ⟨c, hc, he⟩ := List.mem_map.mp h2
      subst he
      rw [colGroup] at hrc
      obtain ⟨r, hr, he⟩ := List.mem_map.mp hrc
      subst he
      exact ⟨List.mem_range.mp hr, List.mem_range.mp hc⟩
  · obtain ⟨id, hid, he⟩ := List.mem_map.mp h3
    subst he
    exact mem_allCoords.mp (mem_regionCells.mp hrc).1

theorem groups_nodup {P : Puzzle} {g : List Cell} (hg : g ∈ groups P) : g.Nodup := by
  rw [groups] at hg
  rcases List.mem_append.mp hg with h12 | h3
  · rcases List.mem_append.mp h12 with h1 | h2
    · obtain ⟨r, _, he⟩ := List.mem_map.mp h1
      subst he
      rw [rowGroup]
      refine List.Nodup.map ?_ (List.nodup_range ..)
      intro c1 c2 he
      exact congrArg Prod.snd he
    · obtain ⟨c, _, he⟩ := List.mem_map.mp h2
      subst he
      rw [colGroup]
      refine List.Nodup.map ?_ (List.nodup_range ..)
      intro r1 r2 he
      exact congrArg Prod.fst he
  · obtain ⟨id, _, he⟩ := List.mem_map.mp h3
    subst he
    exact regionCells_nodup

/-! ### Completeness machinery: two more board-write facts -/

/-- A written cell reads back the written value in range and the
out-of-range default otherwise. -/
theorem getCell_setCell_default {b : Board} {r c : Nat} {v : Int} :
    getCell (setCell b r c v) r c = v ∨ getCell (setCell b r c v) r c = ELIMINATED := by
  rcases Nat.lt_or_ge r b.length with hr | hr
  · rcases Nat.lt_or_ge c (b.getD r []).length with hc | hc
    · exact Or.inl (getCell_setCell_self hr hc)
    · right
      rw [getCell, setCell, getDL_set_self hr]
      apply List.getD_eq_default
      rw [List.length_set]
      exact hc
  · right
    rw [getCell, setCell]
    have h0 : (b.set r ((b.getD r []).set c v)).getD r [] = [] := by
      apply List.getD_eq_default
      rw [List.length_set]
      exact hr
    rw [h0]
    simp [List.getD]

theorem getCell_initialBoard {n r c : Nat} (hr : r < n) (hc : c < n) :
    getCell (initialBoard n) r c = EMPTY := by
  rw [getCell, initialBoard]
  have h1 : (List.replicate n (List.replicate n EMPTY)).getD r [] = List.replicate n EMPTY := by
    rw [List.getD_eq_getElem?_getD, List.getElem?_replicate_of_lt hr]
    rfl
  rw [h1, List.getD_eq_getElem?_getD, List.getElem?_replicate_of_lt hc]
  rfl

/-! ### Completeness machinery: the consistency invariant

A candidate placement `s` is consistent with a search node `(b, u)` when
every star of the board is a star of `s`, every star of `s` sits on a
cell the board still allows, and inside every already-branched region
(`id ∉ u`) the stars of `s` are exactly the placed stars. -/

def ConsB (P : Puzzle) (s : List (List Nat)) (u : List Nat) (b : Board) : Prop :=
  (∀ rc : Cell, getCell b rc.1 rc.2 = STAR → solStarAt s rc = true) ∧
  (∀ rc : Cell, solStarAt s rc = true →
    getCell b rc.1 rc.2 = STAR ∨ getCell b rc.1 rc.2 = EMPTY) ∧
  (∀ id ∈ regionIds P, id ∉ u → ∀ rc ∈ regionCells P id, solStarAt s rc = true →
    getCell b rc.1 rc.2 = STAR)

theorem ConsB_setCell_elim {P : Puzzle} {s : List (List Nat)} {u : List Nat} {b : Board}
    {rc : Cell} (h : ConsB P s u b) (hrc : solStarAt s rc = false) :
    ConsB P s u (setCell b rc.1 rc.2 ELIMINATED) := by
  obtain ⟨h1, h2, h3⟩ := h
  refine ⟨fun p hp => ?_, fun p hp => ?_, fun id hid hidu p hpr hp => ?_⟩
  · by_cases he : (p.1, p.2) = (rc.1, rc.2)
    · exfalso
      rcases @getCell_setCell_default b rc.1 rc.2 ELIMINATED with hd | hd
      · have hpe : p = rc := he
        rw [hpe] at hp
        rw [hp] at hd
        exact absurd hd (by decide)
      · have hpe : p = rc := he
        rw [hpe] at hp
        rw [hp] at hd
        exact absurd hd (by decide)
    · rw [getCell_setCell_ne he] at hp
      exact h1 p hp
  · have hne : (p.1, p.2) ≠ (rc.1, rc.2) := by
      intro he
      have hpe : p = rc := he
      rw [hpe, hrc] at hp
      exact absurd hp (by simp)
    rw [getCell_setCell_ne hne]
    exact h2 p hp
  · have hne : (p.1, p.2) ≠ (rc.1, rc.2) := by
      intro he
      have hpe : p = rc := he
      rw [hpe, hrc] at hp
      exact absurd hp (by simp)
    rw [getCell_setCell_ne hne]
    exact h3 id hid hidu p hpr hp

theorem ConsB_setCell_star {P : Puzzle} {s : List (List Nat)} {u : List Nat} {b : Board}
    {rc : Cell} (h : ConsB P s u b) (hrc : solStarAt s rc = true)
    (hemp : getCell b rc.1 rc.2 = EMPTY) :
    ConsB P s u (setCell b rc.1 rc.2 STAR) := by
  obtain ⟨h1, h2, h3⟩ := h
  obtain ⟨hr, hc⟩ := getCell_empty_bounds hemp
  have hself : getCell (setCell b rc.1 rc.2 STAR) rc.1 rc.2 = STAR :=
    getCell_setCell_self hr hc
  refine ⟨fun p hp => ?_, fun p hp => ?_, fun id hid hidu p hpr hp => ?_⟩
  · by_cases he : (p.1, p.2) = (rc.1, rc.2)
    · have hpe : p = rc := he
      rw [hpe]
      exact hrc
    · rw [getCell_setCell_ne he] at hp
      exact h1 p hp
  · by_cases he : (p.1, p.2) = (rc.1, rc.2)
    · have hpe : p = rc := he
      rw [hpe]
      exact Or.inl hself
    · rw [getCell_setCell_ne he]
      exact h2 p hp
  · by_cases he : (p.1, p.2) = (rc.1, rc.2)
    · have hpe : p = rc := he
      rw [hpe]
      exact hself
    · rw [getCell_setCell_ne he]
      exact h3 id hid hidu p hpr hp

theorem ConsB_elimAround {P : Puzzle} {s : List (List Nat)} {u : List Nat}
    (hv : isValidSolution P s = true) {dim r c : Nat} {bm : Board × Bool}
    (h : ConsB P s u bm.1) (hc : getCell bm.1 r c = STAR) :
    ConsB P s u (elimAround dim r c bm).1 ∧ getCell (elimAround dim r c bm).1 r c = STAR := by
  rw [elimAround]
  refine @foldl_pres (Int × Int) (Board × Bool)
    (fun x => ConsB P s u x.1 ∧ getCell x.1 r c = STAR) _ offsets ?_ bm ⟨h, hc⟩
  intro st hst d hd
  dsimp only
  split
  · next hcond =>
    obtain ⟨hib, hemp⟩ := hcond
    have hne2 : ((r : Nat), c) ≠ ((((r : Int) + d.1).toNat : Nat),
        ((((c : Int) + d.2).toNat : Nat))) := by
      intro he
      have e1 : r = ((r : Int) + d.1).toNat := congrArg Prod.fst he
      have e2 : c = ((c : Int) + d.2).toNat := congrArg Prod.snd he
      rw [← e1, ← e2] at hemp
      rw [hst.2] at hemp
      exact absurd hemp (by decide)
    have hqsol : solStarAt s (((r : Int) + d.1).toNat, ((c : Int) + d.2).toNat) = false := by
      cases hcs : solStarAt s (((r : Int) + d.1).toNat, ((c : Int) + d.2).toNat)
      · rfl
      · exfalso
        have hcsol : solStarAt s (r, c) = true := hst.1.1 (r, c) hst.2
        have hadj : adjTouch (r, c)
            (((r : Int) + d.1).toNat, ((c : Int) + d.2).toNat) = true := by
          apply adjTouch_of_offset hd
          · rw [inBounds] at hib
            simp only [Bool.and_eq_true, decide_eq_true_eq] at hib
            omega
          · rw [inBounds] at hib
            simp only [Bool.and_eq_true, decide_eq_true_eq] at hib
            omega
        have hfa := valid_noAdj hv _ _ hne2 hcsol hcs
        rw [hfa] at hadj
        exact absurd hadj (by simp)
    constructor
    · exact ConsB_setCell_elim hst.1 hqsol
    · rw [getCell_setCell_ne hne2]
      exact hst.2
  · exact hst

theorem ConsB_adjacencyPass {P : Puzzle} {s : List (List Nat)} {u : List Nat}
    (hv : isValidSolution P s = true) {dim : Nat} {bm : Board × Bool}
    (h : ConsB P s u bm.1) : ConsB P s u (adjacencyPass dim bm).1 := by
  rw [adjacencyPass]
  refine @foldl_pres Cell (Board × Bool) (fun x => ConsB P s u x.1) _ (allCoords dim) ?_ bm h
  intro st hst rc _
  dsimp only
  split
  · next hstar => exact (ConsB_elimAround hv hst hstar).1
  · exact hst

theorem ConsB_eliminateAll {P : Puzzle} {s : List (List Nat)} {u : List Nat} :
    ∀ {l : List Cell} {bm : Board × Bool}, (∀ rc ∈ l, solStarAt s rc = false) →
      ConsB P s u bm.1 → ConsB P s u (eliminateAll l bm).1 := by
  intro l
  induction l with
  | nil => intro bm _ h; exact h
  | cons rc rest ih =>
    intro bm hl h
    rw [eliminateAll]
    split
    · exact ih (fun x hx => hl x (List.mem_cons_of_mem _ hx))
        (ConsB_setCell_elim h (hl rc (List.mem_cons_self ..)))
    · exact ih (fun x hx => hl x (List.mem_cons_of_mem _ hx)) h

theorem ConsB_placeAll {P : Puzzle} {s : List (List Nat)} {u : List Nat}
    (hv : isValidSolution P s = true) {dim : Nat} :
    ∀ {l : List Cell} {bm : Board × Bool}, (∀ rc ∈ l, solStarAt s rc = true) →
      ConsB P s u bm.1 →
      ∃ bm2, placeAll dim l bm = some bm2 ∧ ConsB P s u bm2.1 := by
  intro l
  induction l with
  | nil => intro bm _ h; exact ⟨bm, rfl, h⟩
  | cons rc rest ih =>
    intro bm hl h
    rw [placeAll]
    have hrcs := hl rc (List.mem_cons_self ..)
    by_cases hval : isPlacementValid dim bm.1 rc.1 rc.2 = true
    · rw [if_pos hval]
      by_cases hemp : getCell bm.1 rc.1 rc.2 = EMPTY
      · rw [if_pos hemp]
        exact ih (fun x hx => hl x (List.mem_cons_of_mem _ hx))
          (ConsB_setCell_star h hrcs hemp)
      · rw [if_neg hemp]
        exact ih (fun x hx => hl x (List.mem_cons_of_mem _ hx)) h
    · exfalso
      have hnall : ¬ (∀ q : Cell, q.1 < dim → q.2 < dim → q ≠ (rc.1, rc.2) →
          adjTouch (rc.1, rc.2) q = true → getCell bm.1 q.1 q.2 ≠ STAR) := by
        intro hall
        exact hval (isPlacementValid_true_iff.mpr hall)
      push_neg at hnall
      obtain ⟨q, hq1, hq2, hqne, hadj, hqstar⟩ := hnall
      have hqsol := h.1 q hqstar
      have hfa : adjTouch (rc.1, rc.2) q = false :=
        valid_noAdj hv (rc.1, rc.2) q (fun he => hqne he.symm) hrcs hqsol
      rw [hfa] at hadj
      exact absurd hadj (by simp)

/-- The basic counting identity of a consistent placement on one group:
the board stars plus the remaining `s`-stars on available cells make up
exactly the `s`-stars of the group. -/
theorem cons_count_split {s : List (List Nat)} {b : Board}
    (h1 : ∀ rc : Cell, getCell b rc.1 rc.2 = STAR → solStarAt s rc = true)
    (h2 : ∀ rc : Cell, solStarAt s rc = true →
      getCell b rc.1 rc.2 = STAR ∨ getCell b rc.1 rc.2 = EMPTY)
    {g : List Cell} {k : Nat} (hsol : solCount s g = k) :
    starCount b g + ((availCells b g).filter (fun rc => solStarAt s rc)).length = k := by
  have key := @countP_split Cell (fun rc => solStarAt s rc)
    (fun rc => decide (getCell b rc.1 rc.2 = STAR))
    (fun rc => decide (getCell b rc.1 rc.2 = EMPTY)) g
    (fun x _ hx => by
      rcases h2 x hx with hs | he
      · exact Or.inl (decide_eq_true hs)
      · exact Or.inr (decide_eq_true he))
    (fun x _ hx => by
      have hvv := of_decide_eq_true hx
      apply decide_eq_false
      intro hee
      rw [hvv] at hee
      exact absurd hee (by decide))
    (fun x _ hx => h1 x (of_decide_eq_true hx))
  have key2 : List.countP (fun rc => solStarAt s rc) g =
      List.countP (fun rc => decide (getCell b rc.1 rc.2 = STAR)) g +
      List.countP (fun rc => solStarAt s rc && decide (getCell b rc.1 rc.2 = EMPTY)) g := key
  have e1 : solCount s g = List.countP (fun rc => solStarAt s rc) g := by
    rw [solCount, List.countP_eq_length_filter]
  have e2 : starCount b g =
      List.countP (fun rc => decide (getCell b rc.1 rc.2 = STAR)) g := by
    rw [starCount, List.countP_eq_length_filter]
  have e3 : ((availCells b g).filter (fun rc => solStarAt s rc)).length =
      List.countP (fun rc => solStarAt s rc && decide (getCell b rc.1 rc.2 = EMPTY)) g := by
    rw [availCells, ← List.countP_eq_length_filter, List.countP_filter]
  omega

/-- On a saturated group, the stars of a consistent placement are forced
onto the already-placed stars. -/
theorem cons_saturated_pointwise {s : List (List Nat)} {b : Board}
    (h1 : ∀ rc : Cell, getCell b rc.1 rc.2 = STAR → solStarAt s rc = true)
    {g : List Cell} {k : Nat} (hsol : solCount s g = k)
    (hsat : k ≤ starCount b g) :
    ∀ rc ∈ g, solStarAt s rc = true → getCell b rc.1 rc.2 = STAR := by
  intro rc hrc hstar
  by_contra hns
  have hstrict := @countP_strict Cell (fun rc => solStarAt s rc)
    (fun rc => decide (getCell b rc.1 rc.2 = STAR)) g
    (fun x _ hx => h1 x (of_decide_eq_true hx)) rc hrc hstar (decide_eq_false hns)
  have e1 : solCount s g = List.countP (fun rc => solStarAt s rc) g := by
    rw [solCount, List.countP_eq_length_filter]
  have e2 : starCount b g =
      List.countP (fun rc => decide (getCell b rc.1 rc.2 = STAR)) g := by
    rw [starCount, List.countP_eq_length_filter]
  omega

theorem ConsB_processGroup {P : Puzzle} {s : List (List Nat)} {u : List Nat}
    (hv : isValidSolution P s = true) (dim : Nat) {g : List Cell}
    (hsol : solCount s g = P.starsPerRegion) {bm : Board × Bool}
    (h : ConsB P s u bm.1) :
    ∃ bm2, processGroup dim P.starsPerRegion g bm = some bm2 ∧ ConsB P s u bm2.1 := by
  have hcount := cons_count_split h.1 h.2.1 hsol
  have hlen : ((availCells bm.1 g).filter (fun rc => solStarAt s rc)).length ≤
      (availCells bm.1 g).length := List.length_filter_le _ _
  have hallstar : starCount bm.1 g + (availCells bm.1 g).length = P.starsPerRegion →
      ∀ rc ∈ availCells bm.1 g, solStarAt s rc = true := by
    intro hforce rc hrc
    have hfull : (availCells bm.1 g).countP (fun rc => solStarAt s rc) =
        (availCells bm.1 g).length := by
      rw [List.countP_eq_length_filter]
      omega
    exact countP_full hfull rc hrc
  have hnonstar : starCount bm.1 g = P.starsPerRegion →
      ∀ rc ∈ availCells bm.1 g, solStarAt s rc = false := by
    intro heq rc hrc
    cases hcs : solStarAt s rc
    · rfl
    · exfalso
      have hstar := cons_saturated_pointwise h.1 hsol (Nat.le_of_eq heq.symm)
        rc (List.mem_filter.mp hrc).1 hcs
      have hemp := availCells_empty_mem hrc
      rw [hstar] at hemp
      exact absurd hemp (by decide)
  cases hp : processGroup dim P.starsPerRegion g bm with
  | none =>
    exfalso
    rw [processGroup] at hp
    split at hp
    · next hlt => omega
    · split at hp
      · exact absurd hp (by simp)
      · split at hp
        · next hlt2 => omega
        · split at hp
          · next hforce =>
            obtain ⟨bm2, hpl, _⟩ := ConsB_placeAll hv (hallstar hforce) h
            rw [hpl] at hp
            exact absurd hp (by simp)
          · exact absurd hp (by simp)
  | some bm2 =>
    refine ⟨bm2, rfl, ?_⟩
    rw [processGroup] at hp
    split at hp
    · exact absurd hp (by simp)
    · split at hp
      · next heq =>
        rw [← Option.some.inj hp]
        exact ConsB_eliminateAll (hnonstar heq) h
      · split at hp
        · exact absurd hp (by simp)
        · split at hp
          · next hforce =>
            obtain ⟨bm3, hpl, hc3⟩ := ConsB_placeAll hv (hallstar hforce) h
            rw [hpl] at hp
            rw [← Option.some.inj hp]
            exact hc3
          · rw [← Option.some.inj hp]
            exact h

theorem ConsB_processGroups {P : Puzzle} {s : List (List Nat)} {u : List Nat}
    (hv : isValidSolution P s = true) (dim : Nat) :
    ∀ {gs : List (List Cell)} {bm : Board × Bool}, (∀ g ∈ gs, g ∈ groups P) →
      ConsB P s u bm.1 →
      ∃ bm2, processGroups dim P.starsPerRegion gs bm = some bm2 ∧ ConsB P s u bm2.1 := by
  intro gs
  induction gs with
  | nil => intro bm _ h; exact ⟨bm, rfl, h⟩
  | cons g rest ih =>
    intro bm hg h
    obtain ⟨bm1, h1, hc1⟩ := ConsB_processGroup hv dim
      (valid_groups hv g (hg g (List.mem_cons_self ..))) h
    obtain ⟨bm2, h2, hc2⟩ := ih (fun g2 hg2 => hg g2 (List.mem_cons_of_mem _ hg2)) hc1
    refine ⟨bm2, ?_, hc2⟩
    rw [processGroups, h1]
    exact h2

theorem interAll_mem : ∀ {rest : List (List Cell)} {first : List Cell} {rc : Cell},
    rc ∈ interAll first rest → rc ∈ first ∧ ∀ cmb ∈ rest, rc ∈ cmb := by
  intro rest
  induction rest with
  | nil => intro first rc h; exact ⟨h, fun c hc => absurd hc (List.not_mem_nil c)⟩
  | cons cmb rest2 ih =>
    intro first rc h
    have h2 : rc ∈ interAll (first.filter (fun x => cmb.contains x)) rest2 := h
    obtain ⟨hf, hrest⟩ := ih h2
    have hm := List.mem_filter.mp hf
    refine ⟨hm.1, fun c hc => ?_⟩
    rcases List.mem_cons.mp hc with he | hmm2
    · subst he
      exact List.elem_iff.mp hm.2
    · exact hrest c hmm2

/-- The remaining `s`-stars of a region form one of the internally valid
combinations the generator enumerates for that region. -/
theorem selRem_gic {P : Puzzle} {s : List (List Nat)} {b : Board}
    (hv : isValidSolution P s = true)
    (h1 : ∀ rc : Cell, getCell b rc.1 rc.2 = STAR → solStarAt s rc = true)
    (h2 : ∀ rc : Cell, solStarAt s rc = true →
      getCell b rc.1 rc.2 = STAR ∨ getCell b rc.1 rc.2 = EMPTY)
    {rid : Nat} (hrid : rid ∈ regionIds P) :
    ((availCells b (regionCells P rid)).filter (fun rc => solStarAt s rc)).length
        = P.starsPerRegion - starCount b (regionCells P rid) ∧
      (availCells b (regionCells P rid)).filter (fun rc => solStarAt s rc)
        ∈ getInternallyValidCombos (availCells b (regionCells P rid))
          (P.starsPerRegion - starCount b (regionCells P rid)) := by
  have hsol := valid_groups hv _ (regionCells_mem_groups hrid)
  have hcount := cons_count_split h1 h2 hsol
  have hlen : ((availCells b (regionCells P rid)).filter (fun rc => solStarAt s rc)).length
      = P.starsPerRegion - starCount b (regionCells P rid) := by omega
  have hnd : ((availCells b (regionCells P rid)).filter (fun rc => solStarAt s rc)).Nodup :=
    (regionCells_nodup.filter _).filter _
  refine ⟨hlen, gic_complete ?_ hnd hlen (fun rc hrc => (List.mem_filter.mp hrc).1) ?_⟩
  · exact List.Pairwise.sublist (List.filter_sublist _)
      (List.Pairwise.sublist (List.filter_sublist _) regionCells_sorted)
  · refine List.Nodup.pairwise_of_set_pairwise hnd ?_
    intro a ha bb hbb hab
    exact valid_noAdj hv a bb hab (List.mem_filter.mp ha).2 (List.mem_filter.mp hbb).2

theorem ConsB_comboRegionStep {P : Puzzle} {s : List (List Nat)} {u : List Nat}
    (hv : isValidSolution P s = true) (dim : Nat) {rid : Nat} (hrid : rid ∈ regionIds P)
    {bm : Board × Bool} (h : ConsB P s u bm.1) :
    ∃ bm2, comboRegionStep dim P.starsPerRegion (regionCells P rid) bm = some bm2 ∧
      ConsB P s u bm2.1 := by
  rw [comboRegionStep]
  by_cases h1c : P.starsPerRegion ≤ starCount bm.1 (regionCells P rid)
  · rw [if_pos h1c]
    exact ⟨bm, rfl, h⟩
  · rw [if_neg h1c]
    by_cases h2c : availCells bm.1 (regionCells P rid) = [] ∨
        P.starsPerRegion - starCount bm.1 (regionCells P rid) = 0
    · rw [if_pos h2c]
      exact ⟨bm, rfl, h⟩
    · rw [if_neg h2c]
      obtain ⟨hlen, hmem⟩ := selRem_gic hv h.1 h.2.1 hrid
      cases hgic : getInternallyValidCombos (availCells bm.1 (regionCells P rid))
          (P.starsPerRegion - starCount bm.1 (regionCells P rid)) with
      | nil =>
        rw [hgic] at hmem
        exact absurd hmem (List.not_mem_nil _)
      | cons first rest =>
        refine ConsB_placeAll hv ?_ h
        intro rc hrc
        obtain ⟨hfirst, hall⟩ := interAll_mem hrc
        rw [hgic] at hmem
        rcases List.mem_cons.mp hmem with he | hm
        · rw [← he] at hfirst
          exact (List.mem_filter.mp hfirst).2
        · exact (List.mem_filter.mp (hall _ hm)).2

theorem ConsB_comboStep {P : Puzzle} {s : List (List Nat)} {u : List Nat}
    (hv : isValidSolution P s = true) :
    ∀ {rids : List Nat} {bm : Board × Bool}, (∀ r ∈ rids, r ∈ regionIds P) →
      ConsB P s u bm.1 → ∃ bm2, comboStep P rids bm = some bm2 ∧ ConsB P s u bm2.1 := by
  intro rids
  induction rids with
  | nil => intro bm _ h; exact ⟨bm, rfl, h⟩
  | cons rid rest ih =>
    intro bm hr h
    obtain ⟨bm1, h1, hc1⟩ := ConsB_comboRegionStep hv P.dim (hr rid (List.mem_cons_self ..)) h
    obtain ⟨bm2, h2, hc2⟩ := ih (fun r hr2 => hr r (List.mem_cons_of_mem _ hr2)) hc1
    refine ⟨bm2, ?_, hc2⟩
    rw [comboStep, h1]
    exact h2

theorem ConsB_fullPass {P : Puzzle} {s : List (List Nat)} {u : List Nat}
    (hv : isValidSolution P s = true) {b : Board} (h : ConsB P s u b) :
    ∃ bm2, fullPass P b = some bm2 ∧ ConsB P s u bm2.1 := by
  have hadj : ConsB P s u (adjacencyPass P.dim (b, false)).1 :=
    ConsB_adjacencyPass hv h
  obtain ⟨bm1, h1, hc1⟩ := ConsB_processGroups hv P.dim (fun g hg => hg) hadj
  obtain ⟨b2, mc⟩ := bm1
  rw [fullPass, h1]
  cases mc with
  | true => exact ⟨(b2, true), rfl, hc1⟩
  | false => exact ConsB_comboStep hv (fun r hr => hr) hc1

theorem ConsB_propagateLoop {P : Puzzle} {s : List (List Nat)} {u : List Nat}
    (hv : isValidSolution P s = true) :
    ∀ {f : Nat} {b : Board}, ConsB P s u b →
      ∃ b2, propagateLoop P f b = some b2 ∧ ConsB P s u b2 := by
  intro f
  induction f with
  | zero => intro b h; exact ⟨b, rfl, h⟩
  | succ f ih =>
    intro b h
    obtain ⟨⟨b1, mc⟩, h1, hc1⟩ := ConsB_fullPass hv h
    rw [propagateLoop, h1]
    cases mc with
    | true => exact ih hc1
    | false => exact ⟨b1, rfl, hc1⟩

theorem ConsB_propagate {P : Puzzle} {s : List (List Nat)} {u : List Nat}
    (hv : isValidSolution P s = true) {b : Board} (h : ConsB P s u b) :
    ∃ b2, propagateConstraints P b = some b2 ∧ ConsB P s u b2 :=
  ConsB_propagateLoop hv h

/-! ### Completeness machinery: consistency transfers backwards through
propagation on a node whose branched regions are saturated -/

theorem boardStep_star_mono {b b2 : Board} (h : boardStep b b2) {r c : Nat}
    (hs : getCell b r c = STAR) : getCell b2 r c = STAR := by
  rcases h.2 r c with he | ⟨hemp, _⟩
  · rw [he, hs]
  · rw [hs] at hemp
    exact absurd hemp (by decide)

theorem ConsB_backward {P : Puzzle} {s : List (List Nat)} {u : List Nat} {b b2 : Board}
    (hstep : boardStep b b2)
    (hSAT : ∀ id ∈ regionIds P, id ∉ u →
      starCount b (regionCells P id) = P.starsPerRegion)
    (hv : isValidSolution P s = true) (h : ConsB P s u b2) : ConsB P s u b := by
  obtain ⟨h1, h2, h3⟩ := h
  have hb1 : ∀ rc : Cell, getCell b rc.1 rc.2 = STAR → solStarAt s rc = true := by
    intro rc hrc
    exact h1 rc (boardStep_star_mono hstep hrc)
  refine ⟨hb1, fun rc hrc => ?_, fun id hid hidu rc hrcr hrc => ?_⟩
  · rcases h2 rc hrc with hs | he
    · rcases hstep.2 rc.1 rc.2 with hee | ⟨hemp, _⟩
      · rw [hee] at hs
        exact Or.inl hs
      · exact Or.inr hemp
    · rcases hstep.2 rc.1 rc.2 with hee | ⟨hemp, _⟩
      · rw [hee] at he
        exact Or.inr he
      · exact Or.inr hemp
  · have hsol := valid_groups hv _ (regionCells_mem_groups hid)
    have hsc := hSAT id hid hidu
    exact cons_saturated_pointwise hb1 hsol (Nat.le_of_eq hsc.symm) rc hrcr hrc

theorem SAT_propagate {P : Puzzle} {b b2 : Board} {u : List Nat}
    (hprop : propagateConstraints P b = some b2)
    (hSAT : ∀ id ∈ regionIds P, id ∉ u →
      starCount b (regionCells P id) = P.starsPerRegion) :
    ∀ id ∈ regionIds P, id ∉ u →
      starCount b2 (regionCells P id) = P.starsPerRegion := by
  intro id hid hidu
  have hstep := propagateConstraints_boardStep hprop
  have hfix := propagateConstraints_fix hprop
  have hle := (fullPass_fix_groups hfix _ (regionCells_mem_groups hid)).1
  have hmono : starCount b (regionCells P id) ≤ starCount b2 (regionCells P id) := by
    rw [starCount, starCount, ← List.countP_eq_length_filter, ← List.countP_eq_length_filter]
    apply List.countP_mono_left
    intro rc _ hrc
    exact decide_eq_true (boardStep_star_mono hstep (of_decide_eq_true hrc))
  have := hSAT id hid hidu
  omega

/-! ### Completeness machinery: the executable consistency test -/

/-- The decidable consistency test: validity, the two board clauses over
the in-range coordinates, and the exact-stars clause for every
already-branched region. -/
def consistentB (P : Puzzle) (b : Board) (u : List Nat) (s : List (List Nat)) : Bool :=
  isValidSolution P s &&
  (allCoords P.dim).all (fun rc =>
    (!(decide (getCell b rc.1 rc.2 = STAR)) || solStarAt s rc) &&
    (!(solStarAt s rc) || decide (getCell b rc.1 rc.2 = STAR) ||
      decide (getCell b rc.1 rc.2 = EMPTY))) &&
  (regionIds P).all (fun id => u.contains id ||
    (regionCells P id).all (fun rc =>
      !(solStarAt s rc) || decide (getCell b rc.1 rc.2 = STAR)))

theorem consistentB_iff {P : Puzzle} {b : Board} {u : List Nat} {s : List (List Nat)}
    (hsq : squareShape P.dim b) :
    consistentB P b u s = true ↔ (isValidSolution P s = true ∧ ConsB P s u b) := by
  rw [consistentB, Bool.and_eq_true, Bool.and_eq_true]
  constructor
  · intro ⟨⟨hval, hcells⟩, hreg⟩
    refine ⟨hval, ?_, ?_, ?_⟩
    · intro rc hrc
      have hin : rc.1 < P.dim ∧ rc.2 < P.dim := star_lt_dim hsq hrc
      have hthis := List.all_eq_true.mp hcells rc (mem_allCoords.mpr hin)
      rw [Bool.and_eq_true] at hthis
      have h1 := hthis.1
      rw [Bool.or_eq_true] at h1
      rcases h1 with h1 | h1
      · exfalso
        rw [Bool.not_eq_true'] at h1
        rw [decide_eq_true hrc] at h1
        exact absurd h1 (by simp)
      · exact h1
    · intro rc hrc
      have hbin := valid_binShape hval
      have hin := solStar_inrange hbin hrc
      have hthis := List.all_eq_true.mp hcells rc (mem_allCoords.mpr hin)
      rw [Bool.and_eq_true] at hthis
      have h2 := hthis.2
      rw [Bool.or_eq_true, Bool.or_eq_true] at h2
      rcases h2 with (h2 | h2) | h2
      · rw [Bool.not_eq_true', hrc] at h2
        exact absurd h2 (by simp)
      · exact Or.inl (of_decide_eq_true h2)
      · exact Or.inr (of_decide_eq_true h2)
    · intro id hid hidu rc hrcr hrc
      have hall := List.all_eq_true.mp hreg id hid
      rw [Bool.or_eq_true] at hall
      rcases hall with hcont | hall
      · exact absurd (List.elem_iff.mp hcont) hidu
      · have hthis := List.all_eq_true.mp hall rc hrcr
        rw [Bool.or_eq_true] at hthis
        rcases hthis with hns | hs
        · rw [Bool.not_eq_true', hrc] at hns
          exact absurd hns (by simp)
        · exact of_decide_eq_true hs
  · intro ⟨hval, h1, h2, h3⟩
    refine ⟨⟨hval, ?_⟩, ?_⟩
    · apply List.all_eq_true.mpr
      intro rc _
      rw [Bool.and_eq_true]
      constructor
      · rw [Bool.or_eq_true]
        by_cases hs : getCell b rc.1 rc.2 = STAR
        · exact Or.inr (h1 rc hs)
        · refine Or.inl ?_
          rw [Bool.not_eq_true']
          exact decide_eq_false hs
      · rw [Bool.or_eq_true, Bool.or_eq_true]
        by_cases hs : solStarAt s rc = true
        · rcases h2 rc hs with hst | hemp
          · exact Or.inl (Or.inr (decide_eq_true hst))
          · exact Or.inr (decide_eq_true hemp)
        · refine Or.inl (Or.inl ?_)
          rw [Bool.not_eq_true']
          cases hcs : solStarAt s rc
          · rfl
          · exact absurd hcs hs
    · apply List.all_eq_true.mpr
      intro id hid
      rw [Bool.or_eq_true]
      by_cases hidu : id ∈ u
      · exact Or.inl (List.elem_iff.mpr hidu)
      · refine Or.inr (List.all_eq_true.mpr ?_)
        intro rc hrcr
        rw [Bool.or_eq_true]
        by_cases hs : solStarAt s rc = true
        · exact Or.inr (decide_eq_true (h3 id hid hidu rc hrcr hs))
        · refine Or.inl ?_
          rw [Bool.not_eq_true']
          cases hcs : solStarAt s rc
          · rfl
          · exact absurd hcs hs

/-- The number of enumerated placements consistent with a node. -/
def numCons (P : Puzzle) (b : Board) (u : List Nat) : Nat :=
  (allBinBoards P.dim).countP (fun s => consistentB P b u s)

theorem numCons_propagate {P : Puzzle} {b b2 : Board} {u : List Nat}
    (hsq : squareShape P.dim b)
    (hSAT : ∀ id ∈ regionIds P, id ∉ u →
      starCount b (regionCells P id) = P.starsPerRegion)
    (hprop : propagateConstraints P b = some b2) :
    numCons P b u = numCons P b2 u := by
  have hsq2 : squareShape P.dim b2 :=
    squareShape_of_sameShape hsq (propagateConstraints_boardStep hprop).1
  apply List.countP_congr
  intro s _
  rw [consistentB_iff hsq, consistentB_iff hsq2]
  constructor
  · intro ⟨hval, hc⟩
    obtain ⟨b3, hp3, hc3⟩ := ConsB_propagate hval hc
    rw [hprop] at hp3
    have hb23 : b2 = b3 := Option.some.inj hp3
    rw [hb23]
    exact ⟨hval, hc3⟩
  · intro ⟨hval, hc⟩
    exact ⟨hval, ConsB_backward (propagateConstraints_boardStep hprop) hSAT hval hc⟩

theorem numCons_prop_none {P : Puzzle} {b : Board} {u : List Nat}
    (hsq : squareShape P.dim b)
    (hnone : propagateConstraints P b = none) : numCons P b u = 0 := by
  apply countP_none
  intro s _
  cases hc : consistentB P b u s
  · rfl
  · exfalso
    obtain ⟨hval, hcons⟩ := (consistentB_iff hsq).mp hc
    obtain ⟨b2, hp2, _⟩ := ConsB_propagate hval hcons
    rw [hnone] at hp2
    exact absurd hp2 (by simp)

/-- Under a consistent placement the choices list is never aborted. -/
theorem buildChoices_some {P : Puzzle} {s : List (List Nat)} {b : Board}
    (hv : isValidSolution P s = true)
    (h1 : ∀ rc : Cell, getCell b rc.1 rc.2 = STAR → solStarAt s rc = true)
    (h2 : ∀ rc : Cell, solStarAt s rc = true →
      getCell b rc.1 rc.2 = STAR ∨ getCell b rc.1 rc.2 = EMPTY) :
    ∀ {u : List Nat}, (∀ id ∈ u, id ∈ regionIds P) →
      buildChoices P b u ≠ none := by
  intro u
  induction u with
  | nil =>
    intro _ h
    rw [buildChoices] at h
    exact absurd h (by simp)
  | cons rid rest ih =>
    intro hu hnone
    rw [buildChoices] at hnone
    split at hnone
    · exact ih (fun id hid => hu id (List.mem_cons_of_mem _ hid)) hnone
    · split at hnone
      · next hlt =>
        obtain ⟨hlen, _⟩ := selRem_gic hv h1 h2 (hu rid (List.mem_cons_self ..))
        have hfle := List.length_filter_le (fun rc => solStarAt s rc)
          (availCells b (regionCells P rid))
        omega
      · split at hnone
        · next hgic =>
          obtain ⟨_, hmem⟩ := selRem_gic hv h1 h2 (hu rid (List.mem_cons_self ..))
          rw [hgic] at hmem
          exact absurd hmem (List.not_mem_nil _)
        · next combo combos hgic =>
          split at hnone
          · next hrest => exact ih (fun id hid => hu id (List.mem_cons_of_mem _ hid)) hrest
          · exact absurd hnone (by simp)

theorem numCons_choices_none {P : Puzzle} {b : Board} {u : List Nat}
    (hsq : squareShape P.dim b) (hu : ∀ id ∈ u, id ∈ regionIds P)
    (hnone : buildChoices P b u = none) : numCons P b u = 0 := by
  apply countP_none
  intro s _
  cases hc : consistentB P b u s
  · rfl
  · exfalso
    obtain ⟨hval, hcons⟩ := (consistentB_iff hsq).mp hc
    exact buildChoices_some hval hcons.1 hcons.2.1 hu hnone

/-- An empty choices list means every region still listed as unsolved
needs no further stars. -/
theorem buildChoices_nil_sat {P : Puzzle} {b : Board} :
    ∀ {u : List Nat}, buildChoices P b u = some [] →
      ∀ rid ∈ u, P.starsPerRegion - starCount b (regionCells P rid) = 0 := by
  intro u
  induction u with
  | nil => intro _ rid hrid; exact absurd hrid (List.not_mem_nil rid)
  | cons rid2 rest ih =>
    intro h rid hrid
    rw [buildChoices] at h
    split at h
    · next hz =>
      rcases List.mem_cons.mp hrid with he | hm
      · subst he; exact hz
      · exact ih h rid hm
    · split at h
      · exact absurd h (by simp)
      · split at h
        · exact absurd h (by simp)
        · next combo combos hgic =>
          split at h
          · exact absurd h (by simp)
          · next cs hrest =>
            exact absurd (Option.some.inj h) (by simp)

/-! ### Completeness machinery: leaves determine the placement -/

theorem list_ext_getD {α : Type} {d : α} : ∀ {l1 l2 : List α}, l1.length = l2.length →
    (∀ i, i < l1.length → l1.getD i d = l2.getD i d) → l1 = l2 := by
  intro l1
  induction l1 with
  | nil =>
    intro l2 hl _
    cases l2 with
    | nil => rfl
    | cons y ys => simp at hl
  | cons x xs ih =>
    intro l2 hl h
    cases l2 with
    | nil => simp at hl
    | cons y ys =>
      have h0 := h 0 (by simp)
      simp only [List.getD_cons_zero] at h0
      subst h0
      congr 1
      refine ih (by simpa using hl) ?_
      intro i hi
      have hstep := h (i + 1) (by simpa using Nat.succ_lt_succ hi)
      simpa using hstep

/-- A well-shaped 0/1 placement whose stars coincide pointwise with the
stars of a square board is the board's recorded solution. -/
theorem sol_ext {n : Nat} {s : List (List Nat)} {b : Board} (hsq : squareShape n b)
    (hbin : binShape n s = true)
    (hiff : ∀ rc : Cell, rc.1 < n → rc.2 < n →
      (solStarAt s rc = true ↔ getCell b rc.1 rc.2 = STAR)) :
    s = boardToSolution b := by
  obtain ⟨hslen, hrows⟩ := binShape_facts hbin
  have hblen : (boardToSolution b).length = n := by
    rw [boardToSolution, List.length_map, hsq.1]
  refine @list_ext_getD (List Nat) [] s (boardToSolution b) (by omega) ?_
  intro r hr
  have hrn : r < n := by omega
  have hmem : s.getD r [] ∈ s := getD_mem_of_lt (by omega)
  obtain ⟨hsrlen, hsrvals⟩ := hrows _ hmem
  have hbmap : (boardToSolution b).getD r [] =
      (b.getD r []).map (fun cell => if cell = STAR then 1 else 0) := by
    rw [boardToSolution]
    exact getD_map_lt _ (by rw [hsq.1]; exact hrn) _ []
  rw [hbmap]
  have hbrlen : (b.getD r []).length = n := squareShape_getD hsq hrn
  refine @list_ext_getD Nat 0 _ _ (by rw [List.length_map]; omega) ?_
  intro c hc
  have hcn : c < n := by omega
  have hmap2 : ((b.getD r []).map (fun cell => if cell = STAR then 1 else 0)).getD c 0 =
      (if (b.getD r []).getD c ELIMINATED = STAR then 1 else 0) :=
    getD_map_lt _ (by omega) _ ELIMINATED
  rw [hmap2]
  have hv := hsrvals _ (@getD_mem_of_lt Nat (s.getD r []) c 0 (by omega))
  have hiffrc := hiff (r, c) hrn hcn
  rcases hv with hv0 | hv1
  · rw [hv0]
    by_cases hstar : getCell b r c = STAR
    · exfalso
      have hsol1 : solStarAt s (r, c) = true := hiffrc.mpr hstar
      have h1 : (s.getD r []).getD c 0 = 1 := of_decide_eq_true hsol1
      omega
    · rw [getCell] at hstar
      rw [if_neg hstar]
  · rw [hv1]
    have hst : getCell b r c = STAR := by
      apply hiffrc.mp
      exact (decide_eq_true hv1 : solStarAt s (r, c) = true)
    rw [getCell] at hst
    rw [if_pos hst]

theorem binShape_boardToSolution {n : Nat} {b : Board} (hsq : squareShape n b) :
    binShape n (boardToSolution b) = true := by
  rw [binShape]
  simp only [Bool.and_eq_true, List.all_eq_true, decide_eq_true_eq, Bool.or_eq_true]
  refine ⟨by rw [boardToSolution, List.length_map, hsq.1], ?_⟩
  intro row hrow
  rw [boardToSolution] at hrow
  obtain ⟨brow, hbrow, he⟩ := List.mem_map.mp hrow
  subst he
  refine ⟨by rw [List.length_map]; exact hsq.2 _ hbrow, ?_⟩
  intro v hv
  obtain ⟨cell, _, he⟩ := List.mem_map.mp hv
  subst he
  by_cases hc : cell = STAR <;> simp [hc]

theorem bts_mem_allBinBoards {n : Nat} {b : Board} (hsq : squareShape n b) :
    boardToSolution b ∈ allBinBoards n :=
  mem_allBinBoards.mpr (binShape_boardToSolution hsq)

/-- The recorded solution of a fully determined fixpoint board passes the
independent validity test. -/
theorem bts_valid {P : Puzzle} {b : Board} (hS : SInv P.dim b)
    (hfix : fullPass P b = some (b, false))
    (htot : totalStars b = P.dim * P.starsPerRegion) :
    isValidSolution P (boardToSolution b) = true := by
  obtain ⟨hzero, hk⟩ := fix_total_determined hS.1 hfix htot
  rw [isValidSolution]
  simp only [Bool.and_eq_true]
  refine ⟨⟨binShape_boardToSolution hS.1, ?_⟩, ?_⟩
  · apply List.all_eq_true.mpr
    intro g hg
    apply decide_eq_true
    rw [solCount_boardToSolution]
    exact hk g hg
  · rw [noAdjSolB]
    apply List.all_eq_true.mpr
    intro p hp
    apply List.all_eq_true.mpr
    intro q hq
    cases hps : solStarAt (boardToSolution b) p
    · simp
    · cases hqs : solStarAt (boardToSolution b) q
      · simp
      · by_cases hpq : p = q
        · simp [hpq]
        · have hadj := hS.2 p q hpq (solStarAt_boardToSolution.mp hps)
            (solStarAt_boardToSolution.mp hqs)
          simp [hadj]

theorem bts_ConsB {P : Puzzle} {b : Board} {u : List Nat} :
    ConsB P (boardToSolution b) u b :=
  ⟨fun rc hrc => solStarAt_boardToSolution.mpr hrc,
    fun rc hrc => Or.inl (solStarAt_boardToSolution.mp hrc),
    fun id _ _ rc _ hrc => solStarAt_boardToSolution.mp hrc⟩

/-- When every unsolved region of a node is saturated, a consistent
placement is forced to equal the recorded solution of the board. -/
theorem cons_unique_sol {P : Puzzle} {s : List (List Nat)} {b : Board} {u : List Nat}
    (hsq : squareShape P.dim b) (hv : isValidSolution P s = true) (hc : ConsB P s u b)
    (husat : ∀ id ∈ u, id ∈ regionIds P →
      starCount b (regionCells P id) = P.starsPerRegion) :
    s = boardToSolution b := by
  apply sol_ext hsq (valid_binShape hv)
  intro rc h1 h2
  constructor
  · intro hsol
    have hrc_all : rc ∈ allCoords P.dim := mem_allCoords.mpr ⟨h1, h2⟩
    have hrm : rc ∈ regionCells P (gridGet P.regionGrid rc.1 rc.2) :=
      mem_regionCells.mpr ⟨hrc_all, rfl⟩
    have hid := gridId_mem_regionIds hrc_all
    by_cases hidu : gridGet P.regionGrid rc.1 rc.2 ∈ u
    · have hsc := husat _ hidu hid
      have hsol2 := valid_groups hv _ (regionCells_mem_groups hid)
      exact cons_saturated_pointwise hc.1 hsol2 (Nat.le_of_eq hsc.symm) rc hrm hsol
    · exact hc.2.2 _ hid hidu rc hrm hsol
  · intro hstar
    exact hc.1 rc hstar

theorem numCons_leaf_one {P : Puzzle} {b : Board} {u : List Nat}
    (hS : SInv P.dim b) (hfix : fullPass P b = some (b, false))
    (htot : totalStars b = P.dim * P.starsPerRegion)
    (husat : ∀ id ∈ u, id ∈ regionIds P →
      starCount b (regionCells P id) = P.starsPerRegion) :
    numCons P b u = 1 := by
  have hval := bts_valid hS hfix htot
  apply countP_eq_one_of_unique (allBinBoards_nodup P.dim) (bts_mem_allBinBoards hS.1)
  · exact (consistentB_iff hS.1).mpr ⟨hval, bts_ConsB⟩
  · intro y _ hy
    obtain ⟨hyv, hyc⟩ := (consistentB_iff hS.1).mp hy
    exact cons_unique_sol hS.1 hyv hyc husat

theorem numCons_leaf_zero {P : Puzzle} {b : Board} {u : List Nat}
    (hS : SInv P.dim b) (hfix : fullPass P b = some (b, false))
    (htot : totalStars b ≠ P.dim * P.starsPerRegion)
    (husat : ∀ id ∈ u, id ∈ regionIds P →
      starCount b (regionCells P id) = P.starsPerRegion) :
    numCons P b u = 0 := by
  apply countP_none
  intro s _
  cases hc : consistentB P b u s
  · rfl
  · exfalso
    obtain ⟨hval, hcons⟩ := (consistentB_iff hS.1).mp hc
    have hes := cons_unique_sol hS.1 hval hcons husat
    apply htot
    have hsum := sum_rowGroups_eq_totalStars hS.1
    have hrow : ∀ r ∈ List.range P.dim,
        starCount b (rowGroup P.dim r) = P.starsPerRegion := by
      intro r hr
      have hg := rowGroup_mem_groups (List.mem_range.mp hr)
      have hcnt := valid_groups hval _ hg
      rw [hes, solCount_boardToSolution] at hcnt
      exact hcnt
    rw [← hsum]
    have hmap : (List.range P.dim).map (fun r => starCount b (rowGroup P.dim r)) =
        (List.range P.dim).map (fun _ => P.starsPerRegion) :=
      List.map_congr_left hrow
    rw [hmap, sum_map_const, List.length_range]

/-- At the root of `solve` the consistency test degenerates to plain
validity: the board is all-unknown and every region is unsolved. -/
theorem numCons_root {P : Puzzle} :
    numCons P (initialBoard P.dim) (regionIds P) =
      (allBinBoards P.dim).countP (fun s => isValidSolution P s) := by
  apply List.countP_congr
  intro s _
  constructor
  · intro h
    rw [consistentB, Bool.and_eq_true, Bool.and_eq_true] at h
    exact h.1.1
  · intro hval
    rw [consistentB, Bool.and_eq_true, Bool.and_eq_true]
    refine ⟨⟨hval, ?_⟩, ?_⟩
    · apply List.all_eq_true.mpr
      intro rc hrc
      have h12 := mem_allCoords.mp hrc
      have hemp := getCell_initialBoard h12.1 h12.2
      rw [Bool.and_eq_true]
      constructor
      · rw [Bool.or_eq_true]
        refine Or.inl ?_
        rw [Bool.not_eq_true']
        apply decide_eq_false
        rw [hemp]
        decide
      · rw [Bool.or_eq_true, Bool.or_eq_true]
        exact Or.inr (decide_eq_true hemp)
    · apply List.all_eq_true.mpr
      intro id hid
      rw [Bool.or_eq_true]
      exact Or.inl (List.elem_iff.mpr hid)

/-! ### Completeness machinery: branching partitions the consistent set -/

theorem combinations_nodup :
    ∀ {l : List Cell}, l.Nodup → ∀ {n : Nat}, (combinations n l).Nodup := by
  intro l
  induction l with
  | nil =>
    intro _ n
    cases n with
    | zero => simp [combinations]
    | succ n => simp [combinations]
  | cons x xs ih =>
    intro hnd n
    cases n with
    | zero => simp [combinations]
    | succ n =>
      rw [combinations]
      have hx : x ∉ xs := (List.nodup_cons.mp hnd).1
      have hxs := (List.nodup_cons.mp hnd).2
      refine List.Nodup.append ?_ (ih hxs) ?_
      · refine List.Nodup.map ?_ (ih hxs)
        intro t1 t2 he
        injection he
      · intro t ht1 ht2
        obtain ⟨t0, _, he⟩ := List.mem_map.mp ht1
        subst he
        have hsub := (mem_combinations.mp ht2).1
        exact hx (hsub.subset (List.mem_cons_self ..))

theorem gic_nodup {avail : List Cell} {n : Nat} :
    (getInternallyValidCombos avail n).Nodup := by
  rw [getInternallyValidCombos]
  exact (combinations_nodup (canonCells_nodup avail)).filter _

/-- Reading a cell after placing a duplicate-free set of stars on empty
cells. -/
theorem getCell_placeStars : ∀ {γ : List Cell} {b : Board}, γ.Nodup →
    (∀ rc ∈ γ, getCell b rc.1 rc.2 = EMPTY) → ∀ rc : Cell,
      getCell (placeStars b γ) rc.1 rc.2 =
        if rc ∈ γ then STAR else getCell b rc.1 rc.2 := by
  intro γ
  induction γ with
  | nil =>
    intro b _ _ rc
    rw [if_neg (List.not_mem_nil rc)]
    rfl
  | cons c0 rest ih =>
    intro b hnd hemp rc
    have hstep : placeStars b (c0 :: rest) = placeStars (setCell b c0.1 c0.2 STAR) rest := rfl
    rw [hstep]
    have hnd2 := (List.nodup_cons.mp hnd).2
    have hc0 : c0 ∉ rest := (List.nodup_cons.mp hnd).1
    have hemp2 : ∀ rc2 ∈ rest, getCell (setCell b c0.1 c0.2 STAR) rc2.1 rc2.2 = EMPTY := by
      intro rc2 hrc2
      have hne : (rc2.1, rc2.2) ≠ (c0.1, c0.2) := by
        intro he
        have he2 : rc2 = c0 := he
        subst he2
        exact hc0 hrc2
      rw [getCell_setCell_ne hne]
      exact hemp rc2 (List.mem_cons_of_mem _ hrc2)
    rw [ih hnd2 hemp2 rc]
    by_cases hm : rc ∈ rest
    · rw [if_pos hm, if_pos (List.mem_cons_of_mem _ hm)]
    · rw [if_neg hm]
      by_cases he : rc = c0
      · subst he
        rw [if_pos (List.mem_cons_self ..)]
        obtain ⟨hr, hc⟩ := getCell_empty_bounds (hemp rc (List.mem_cons_self ..))
        exact getCell_setCell_self hr hc
      · have hnm : rc ∉ c0 :: rest := by
          intro hmm
          rcases List.mem_cons.mp hmm with h1 | h1
          · exact he h1
          · exact hm h1
        have hne2 : (rc.1, rc.2) ≠ (c0.1, c0.2) := fun h2 => he h2
        rw [if_neg hnm, getCell_setCell_ne hne2]

theorem starCount_placeStars_in {b : Board} {γ : List Cell} {g : List Cell}
    (hnd : γ.Nodup) (hemp : ∀ rc ∈ γ, getCell b rc.1 rc.2 = EMPTY)
    (hgnd : g.Nodup) (hsub : ∀ rc ∈ γ, rc ∈ g) :
    starCount (placeStars b γ) g = starCount b g + γ.length := by
  have hchar := getCell_placeStars hnd hemp
  rw [starCount, starCount, ← List.countP_eq_length_filter, ← List.countP_eq_length_filter]
  have hcong : List.countP (fun rc => decide (getCell (placeStars b γ) rc.1 rc.2 = STAR)) g =
      List.countP (fun rc => decide (rc ∈ γ) || decide (getCell b rc.1 rc.2 = STAR)) g := by
    apply List.countP_congr
    intro rc _
    by_cases hm : rc ∈ γ
    · rw [hchar rc, if_pos hm]
      simp [hm]
    · rw [hchar rc, if_neg hm]
      simp [hm]
  have hd : List.countP (fun rc => decide (rc ∈ γ) || decide (getCell b rc.1 rc.2 = STAR)) g
      = List.countP (fun rc => decide (rc ∈ γ)) g +
        List.countP (fun rc => decide (getCell b rc.1 rc.2 = STAR)) g := by
    apply countP_disjoint_or
    intro rc _ hrc
    have hm := of_decide_eq_true hrc
    apply decide_eq_false
    intro hs
    rw [hemp rc hm] at hs
    exact absurd hs (by decide)
  have hmemlen : List.countP (fun rc => decide (rc ∈ γ)) g = γ.length := by
    rw [← countP_mem_eq_length hnd hgnd hsub]
    apply List.countP_congr
    intro rc _
    by_cases hm : rc ∈ γ <;> simp [hm]
  omega

theorem starCount_placeStars_out {b : Board} {γ : List Cell} {g : List Cell}
    (hnd : γ.Nodup) (hemp : ∀ rc ∈ γ, getCell b rc.1 rc.2 = EMPTY)
    (hdis : ∀ rc ∈ γ, rc ∉ g) :
    starCount (placeStars b γ) g = starCount b g := by
  have hchar := getCell_placeStars hnd hemp
  rw [starCount, starCount, ← List.countP_eq_length_filter, ← List.countP_eq_length_filter]
  apply List.countP_congr
  intro rc hrc
  have hm : rc ∉ γ := fun hmm => hdis rc hmm hrc
  rw [hchar rc, if_neg hm]

/-- Consistency with a child node is consistency with the parent plus the
requirement that the combination is exactly the placement's remaining
stars on the region's available cells. -/
theorem ConsB_child_iff {P : Puzzle} {s : List (List Nat)} {b : Board} {u : List Nat}
    {rid : Nat} {γ : List Cell}
    (hu : rid ∈ u) (hnd_u : u.Nodup) (hrid : rid ∈ regionIds P) (hγnd : γ.Nodup)
    (hγsub : ∀ rc ∈ γ, rc ∈ availCells b (regionCells P rid)) :
    ConsB P s (u.erase rid) (placeStars b γ) ↔
      (ConsB P s u b ∧ ∀ rc ∈ availCells b (regionCells P rid),
        (solStarAt s rc = true ↔ rc ∈ γ)) := by
  have hγemp : ∀ rc ∈ γ, getCell b rc.1 rc.2 = EMPTY :=
    fun rc hrc => availCells_empty_mem (hγsub rc hrc)
  have hγreg : ∀ rc ∈ γ, rc ∈ regionCells P rid :=
    fun rc hrc => (List.mem_filter.mp (hγsub rc hrc)).1
  have hchar := getCell_placeStars hγnd hγemp
  constructor
  · intro ⟨h1, h2, h3⟩
    have hrid_not : rid ∉ u.erase rid := hnd_u.not_mem_erase
    have hp1 : ∀ rc : Cell, getCell b rc.1 rc.2 = STAR → solStarAt s rc = true := by
      intro rc hrc
      have hnm : rc ∉ γ := by
        intro hm
        rw [hγemp rc hm] at hrc
        exact absurd hrc (by decide)
      apply h1 rc
      rw [hchar rc, if_neg hnm]
      exact hrc
    have hp2 : ∀ rc : Cell, solStarAt s rc = true →
        getCell b rc.1 rc.2 = STAR ∨ getCell b rc.1 rc.2 = EMPTY := by
      intro rc hrc
      rcases h2 rc hrc with hs | he
      · rw [hchar rc] at hs
        by_cases hm : rc ∈ γ
        · exact Or.inr (hγemp rc hm)
        · rw [if_neg hm] at hs
          exact Or.inl hs
      · rw [hchar rc] at he
        by_cases hm : rc ∈ γ
        · rw [if_pos hm] at he
          exact absurd he (by decide)
        · rw [if_neg hm] at he
          exact Or.inr he
    have hpt : ∀ rc ∈ availCells b (regionCells P rid),
        (solStarAt s rc = true ↔ rc ∈ γ) := by
      intro rc hrcav
      constructor
      · intro hsol
        have hstar := h3 rid hrid hrid_not rc (List.mem_filter.mp hrcav).1 hsol
        rw [hchar rc] at hstar
        by_cases hm : rc ∈ γ
        · exact hm
        · exfalso
          rw [if_neg hm] at hstar
          rw [availCells_empty_mem hrcav] at hstar
          exact absurd hstar (by decide)
      · intro hm
        apply h1 rc
        rw [hchar rc, if_pos hm]
    have hp3 : ∀ id ∈ regionIds P, id ∉ u → ∀ rc ∈ regionCells P id,
        solStarAt s rc = true → getCell b rc.1 rc.2 = STAR := by
      intro id hid hidu rc hrcr hsol
      have hne : id ≠ rid := fun he => hidu (he ▸ hu)
      have hidu2 : id ∉ u.erase rid := fun hmm => hidu (List.mem_of_mem_erase hmm)
      have hstar := h3 id hid hidu2 rc hrcr hsol
      rw [hchar rc] at hstar
      by_cases hm : rc ∈ γ
      · exact absurd (regionCells_disjoint hrcr (hγreg rc hm)) hne
      · rw [if_neg hm] at hstar
        exact hstar
    exact ⟨⟨hp1, hp2, hp3⟩, hpt⟩
  · intro ⟨⟨h1, h2, h3⟩, hpt⟩
    refine ⟨fun rc hrc => ?_, fun rc hrc => ?_, fun id hid hidu rc hrcr hrc => ?_⟩
    · rw [hchar rc] at hrc
      by_cases hm : rc ∈ γ
      · exact (hpt rc (hγsub rc hm)).mpr hm
      · rw [if_neg hm] at hrc
        exact h1 rc hrc
    · rw [hchar rc]
      by_cases hm : rc ∈ γ
      · rw [if_pos hm]
        exact Or.inl rfl
      · rw [if_neg hm]
        exact h2 rc hrc
    · rw [hchar rc]
      by_cases hm : rc ∈ γ
      · rw [if_pos hm]
      · rw [if_neg hm]
        by_cases hidr : id = rid
        · subst hidr
          rcases h2 rc hrc with hs | he
          · exact hs
          · exfalso
            have hav : rc ∈ availCells b (regionCells P id) :=
              List.mem_filter.mpr ⟨hrcr, decide_eq_true he⟩
            exact hm ((hpt rc hav).mp hrc)
        · have hidu2 : id ∉ u := by
            intro hmm
            exact hidu ((List.mem_erase_of_ne hidr).mpr hmm)
          exact h3 id hid hidu2 rc hrcr hrc

/-- A combination rejected by the external adjacency re-check admits no
consistent placement. -/
theorem numCons_invalid_combo {P : Puzzle} {b : Board} {γ : List Cell} {u2 : List Nat}
    (hsq : squareShape P.dim b) (hγnd : γ.Nodup)
    (hγemp : ∀ rc ∈ γ, getCell b rc.1 rc.2 = EMPTY)
    (hinv : γ.all (fun rc => isPlacementValid P.dim b rc.1 rc.2) = false) :
    numCons P (placeStars b γ) u2 = 0 := by
  apply countP_none
  intro s _
  cases hc : consistentB P (placeStars b γ) u2 s
  · rfl
  · exfalso
    have hsq2 : squareShape P.dim (placeStars b γ) :=
      squareShape_of_sameShape hsq (boardStep_placeStars hγemp).1
    obtain ⟨hval, h1, h2, h3⟩ := (consistentB_iff hsq2).mp hc
    obtain ⟨rc, hrc, hrcinv⟩ := all_false_exists hinv
    have hnall : ¬ (∀ q : Cell, q.1 < P.dim → q.2 < P.dim → q ≠ (rc.1, rc.2) →
        adjTouch (rc.1, rc.2) q = true → getCell b q.1 q.2 ≠ STAR) := by
      intro hall
      rw [isPlacementValid_true_iff.mpr hall] at hrcinv
      exact absurd hrcinv (by simp)
    push_neg at hnall
    obtain ⟨q, _, _, hqne, hadj, hqstar⟩ := hnall
    have hchar := getCell_placeStars hγnd hγemp
    have hqγ : q ∉ γ := by
      intro hm
      rw [hγemp q hm] at hqstar
      exact absurd hqstar (by decide)
    have hqchild : getCell (placeStars b γ) q.1 q.2 = STAR := by
      rw [hchar q, if_neg hqγ]
      exact hqstar
    have hrcchild : getCell (placeStars b γ) rc.1 rc.2 = STAR := by
      rw [hchar rc, if_pos hrc]
    have hqsol := h1 q hqchild
    have hrcsol := h1 rc hrcchild
    have hfa : adjTouch (rc.1, rc.2) q = false :=
      valid_noAdj hval (rc.1, rc.2) q (fun he => hqne he.symm) hrcsol hqsol
    rw [hfa] at hadj
    exact absurd hadj (by simp)

/-- Branching on a region splits the consistent placements of a node into
the consistent placements of its children, one child per combination. -/
theorem numCons_branch {P : Puzzle} {b : Board} {u : List Nat} {rid : Nat}
    (hsq : squareShape P.dim b) (hu : rid ∈ u) (hnd_u : u.Nodup)
    (hrid : rid ∈ regionIds P) :
    numCons P b u =
      ((getInternallyValidCombos (availCells b (regionCells P rid))
          (P.starsPerRegion - starCount b (regionCells P rid))).map
        (fun γ => numCons P (placeStars b γ) (u.erase rid))).sum := by
  have hkey_sorted : ∀ s : List (List Nat),
      ((availCells b (regionCells P rid)).filter (fun rc => solStarAt s rc)).Pairwise cellLe :=
    fun s => List.Pairwise.sublist (List.filter_sublist _)
      (List.Pairwise.sublist (List.filter_sublist _) regionCells_sorted)
  have hkey_nodup : ∀ s : List (List Nat),
      ((availCells b (regionCells P rid)).filter (fun rc => solStarAt s rc)).Nodup :=
    fun s => (regionCells_nodup.filter _).filter _
  have hA : ∀ γ ∈ getInternallyValidCombos (availCells b (regionCells P rid))
      (P.starsPerRegion - starCount b (regionCells P rid)),
      numCons P (placeStars b γ) (u.erase rid) =
        (allBinBoards P.dim).countP (fun s => consistentB P b u s &&
          decide ((availCells b (regionCells P rid)).filter (fun rc => solStarAt s rc)
            = γ)) := by
    intro γ hγ
    obtain ⟨hγsubl, hγlen, hγnd, hγmem, hγpair⟩ := gic_mem_facts hγ
    have hγsub : ∀ rc ∈ γ, rc ∈ availCells b (regionCells P rid) := hγmem
    have hγsorted : γ.Pairwise cellLe :=
      List.Pairwise.sublist hγsubl (canonCells_sorted _)
    have hγemp : ∀ rc ∈ γ, getCell b rc.1 rc.2 = EMPTY :=
      fun rc hrc => availCells_empty_mem (hγsub rc hrc)
    have hsq2 : squareShape P.dim (placeStars b γ) :=
      squareShape_of_sameShape hsq (boardStep_placeStars hγemp).1
    apply List.countP_congr
    intro s _
    rw [consistentB_iff hsq2, Bool.and_eq_true, consistentB_iff hsq, decide_eq_true_eq]
    constructor
    · intro ⟨hval, hchild⟩
      obtain ⟨hpar, hpt⟩ := (ConsB_child_iff hu hnd_u hrid hγnd hγsub).mp hchild
      refine ⟨⟨hval, hpar⟩, ?_⟩
      apply List.eq_of_perm_of_sorted ?_ (hkey_sorted s) hγsorted
      apply (List.perm_ext_iff_of_nodup (hkey_nodup s) hγnd).mpr
      intro rc
      constructor
      · intro hm
        have hmf := List.mem_filter.mp hm
        exact (hpt rc hmf.1).mp hmf.2
      · intro hm
        exact List.mem_filter.mpr ⟨hγsub rc hm, (hpt rc (hγsub rc hm)).mpr hm⟩
    · intro ⟨⟨hval, hpar⟩, hkeyeq⟩
      refine ⟨hval, (ConsB_child_iff hu hnd_u hrid hγnd hγsub).mpr ⟨hpar, ?_⟩⟩
      intro rc hrcav
      constructor
      · intro hsol
        rw [← hkeyeq]
        exact List.mem_filter.mpr ⟨hrcav, hsol⟩
      · intro hm
        rw [← hkeyeq] at hm
        exact (List.mem_filter.mp hm).2
  have hB : numCons P b u = (allBinBoards P.dim).countP (fun s => consistentB P b u s &&
      (getInternallyValidCombos (availCells b (regionCells P rid))
          (P.starsPerRegion - starCount b (regionCells P rid))).any (fun γ =>
        decide ((availCells b (regionCells P rid)).filter (fun rc => solStarAt s rc)
          = γ))) := by
    rw [numCons]
    apply List.countP_congr
    intro s _
    constructor
    · intro hc
      obtain ⟨hval, hcons⟩ := (consistentB_iff hsq).mp hc
      obtain ⟨_, hmem⟩ := selRem_gic hval hcons.1 hcons.2.1 hrid
      rw [Bool.and_eq_true]
      exact ⟨hc, List.any_eq_true.mpr ⟨_, hmem, decide_eq_true rfl⟩⟩
    · intro hc
      rw [Bool.and_eq_true] at hc
      exact hc.1
  have hC := @sum_countP_key (List (List Nat)) (List Cell)
    (fun s => consistentB P b u s)
    (fun s γ => decide ((availCells b (regionCells P rid)).filter
      (fun rc => solStarAt s rc) = γ))
    (allBinBoards P.dim)
    (getInternallyValidCombos (availCells b (regionCells P rid))
      (P.starsPerRegion - starCount b (regionCells P rid))) gic_nodup
    (fun s γ1 γ2 h1 h2 => by
      have e1 := of_decide_eq_true h1
      have e2 := of_decide_eq_true h2
      rw [← e1, ← e2])
  have hC2 : ((getInternallyValidCombos (availCells b (regionCells P rid))
        (P.starsPerRegion - starCount b (regionCells P rid))).map
      (fun γ => (allBinBoards P.dim).countP (fun s => consistentB P b u s &&
        decide ((availCells b (regionCells P rid)).filter (fun rc => solStarAt s rc)
          = γ)))).sum =
      (allBinBoards P.dim).countP (fun s => consistentB P b u s &&
        (getInternallyValidCombos (availCells b (regionCells P rid))
            (P.starsPerRegion - starCount b (regionCells P rid))).any (fun γ =>
          decide ((availCells b (regionCells P rid)).filter (fun rc => solStarAt s rc)
            = γ))) := hC
  rw [hB, ← hC2]
  apply congrArg List.sum
  apply List.map_congr_left
  intro γ hγ
  exact (hA γ hγ).symm

/-! ### Completeness machinery: counting through the branch loop and the
search itself -/

/-- The branch loop records exactly as many further solutions as the
children admit consistent placements, capped at two in total. -/
theorem goCombos_count {P : Puzzle} {recurse : Board → SolverState → SolverState}
    {b : Board} {u2 : List Nat} :
    ∀ {combos : List (List Cell)},
      (∀ γ ∈ combos, γ.all (fun rc => isPlacementValid P.dim b rc.1 rc.2) = true →
        ∀ st2 : SolverState, st2.solutions.length < 2 →
          (recurse (placeStars b γ) st2).solutions.length
            = min (st2.solutions.length + numCons P (placeStars b γ) u2) 2) →
      (∀ γ ∈ combos, γ.all (fun rc => isPlacementValid P.dim b rc.1 rc.2) = false →
        numCons P (placeStars b γ) u2 = 0) →
      ∀ {st : SolverState}, st.solutions.length < 2 →
        (goCombos P.dim recurse b combos st).solutions.length
          = min (st.solutions.length +
              (combos.map (fun γ => numCons P (placeStars b γ) u2)).sum) 2 := by
  intro combos
  induction combos with
  | nil =>
    intro _ _ st hst
    rw [goCombos, List.map_nil, List.sum_nil]
    omega
  | cons γ rest ih =>
    intro hrec hzero st hst
    rw [goCombos, List.map_cons, List.sum_cons]
    by_cases hval : γ.all (fun rc => isPlacementValid P.dim b rc.1 rc.2) = true
    · rw [if_pos hval]
      have h1 := hrec γ (List.mem_cons_self ..) hval st hst
      by_cases h2 : 2 ≤ (recurse (placeStars b γ) st).solutions.length
      · rw [if_pos h2]
        omega
      · rw [if_neg h2]
        have h3 := ih (fun γ2 hγ2 => hrec γ2 (List.mem_cons_of_mem _ hγ2))
          (fun γ2 hγ2 => hzero γ2 (List.mem_cons_of_mem _ hγ2))
          (show (recurse (placeStars b γ) st).solutions.length < 2 by omega)
        rw [h3]
        omega
    · have hvalf : γ.all (fun rc => isPlacementValid P.dim b rc.1 rc.2) = false := by
        cases hc : γ.all (fun rc => isPlacementValid P.dim b rc.1 rc.2)
        · rfl
        · exact absurd hc hval
      rw [if_neg hval]
      have h4 := hzero γ (List.mem_cons_self ..) hvalf
      have h5 := ih (fun γ2 hγ2 => hrec γ2 (List.mem_cons_of_mem _ hγ2))
        (fun γ2 hγ2 => hzero γ2 (List.mem_cons_of_mem _ hγ2)) hst
      rw [h5, h4]
      omega

/-- The master count: a search node contributes exactly its number of
consistent placements to the solution list, truncated at the global cap
of two solutions. -/
theorem backtrack_count {P : Puzzle} :
    ∀ {fuel : Nat} {b : Board} {u : List Nat} {depth : Nat} {st : SolverState},
      u.length < fuel → SInv P.dim b → u.Nodup → (∀ id ∈ u, id ∈ regionIds P) →
      (∀ id ∈ regionIds P, id ∉ u →
        starCount b (regionCells P id) = P.starsPerRegion) →
      st.solutions.length < 2 →
      (backtrackFuel P fuel b u depth st).solutions.length
        = min (st.solutions.length + numCons P b u) 2 := by
  intro fuel
  induction fuel with
  | zero =>
    intro b u depth st hfuel
    exact absurd hfuel (Nat.not_lt_zero _)
  | succ fuel ih =>
    intro b u depth st hfuel hS hnd hu hSAT hst
    rw [backtrackFuel, backtrackCore]
    split
    · next hprop =>
      rw [@numCons_prop_none P b u hS.1 hprop]
      show st.solutions.length = min (st.solutions.length + 0) 2
      omega
    · next b2 hprop =>
      have hSb2 : SInv P.dim b2 := SInv_propagateConstraints hprop hS
      have hSAT2 := SAT_propagate hprop hSAT
      have htrans := numCons_propagate hS.1 hSAT hprop
      have hfix := propagateConstraints_fix hprop
      rw [htrans]
      split
      · next hunil =>
        subst hunil
        split
        · next htot =>
          rw [numCons_leaf_one hSb2 hfix htot
            (fun id hid _ => absurd hid (List.not_mem_nil id))]
          show (pushSolution b2 (bumpStats depth st)).solutions.length = _
          simp only [pushSolution, List.length_append, List.length_cons, List.length_nil]
          show st.solutions.length + (0 + 1) = _
          omega
        · next htot =>
          rw [numCons_leaf_zero hSb2 hfix htot
            (fun id hid _ => absurd hid (List.not_mem_nil id))]
          show st.solutions.length = min (st.solutions.length + 0) 2
          omega
      · next hunil =>
        split
        · next hbc =>
          rw [numCons_choices_none hSb2.1 hu hbc]
          show st.solutions.length = min (st.solutions.length + 0) 2
          omega
        · next hbc =>
          have hsat_u : ∀ id ∈ u, id ∈ regionIds P →
              starCount b2 (regionCells P id) = P.starsPerRegion := by
            intro id hidu hid
            have h1 := buildChoices_nil_sat hbc id hidu
            have h2 := (fullPass_fix_groups hfix _ (regionCells_mem_groups hid)).1
            omega
          split
          · next hprop2 =>
            exfalso
            rw [propagateConstraints_idem hprop] at hprop2
            exact absurd hprop2 (by simp)
          · next b3 hprop2 =>
            rw [propagateConstraints_idem hprop] at hprop2
            have hb3 : b2 = b3 := Option.some.inj hprop2
            subst hb3
            split
            · next htot =>
              rw [numCons_leaf_one hSb2 hfix htot hsat_u]
              show (pushSolution b2 (bumpStats depth st)).solutions.length = _
              simp only [pushSolution, List.length_append, List.length_cons, List.length_nil]
              show st.solutions.length + (0 + 1) = _
              omega
            · next htot =>
              rw [numCons_leaf_zero hSb2 hfix htot hsat_u]
              show st.solutions.length = min (st.solutions.length + 0) 2
              omega
        · next c cs2 hbc =>
          obtain ⟨hrid_u, hcombos_eq, hcne⟩ := buildChoices_mem hbc _ (bestChoice_mem cs2 c)
          have hrid_reg : (bestChoice c cs2).id ∈ regionIds P := hu _ hrid_u
          have hrec : ∀ γ ∈ (bestChoice c cs2).combos,
              γ.all (fun rc => isPlacementValid P.dim b2 rc.1 rc.2) = true →
              ∀ st2 : SolverState, st2.solutions.length < 2 →
                (backtrackFuel P fuel (placeStars b2 γ)
                    (u.erase (bestChoice c cs2).id) (depth + 1) st2).solutions.length
                  = min (st2.solutions.length +
                      numCons P (placeStars b2 γ) (u.erase (bestChoice c cs2).id)) 2 := by
            intro γ hγm hγval st2 hst2
            rw [hcombos_eq] at hγm
            obtain ⟨hγsubl, hγlen, hγnd, hγmem, hγpair⟩ := gic_mem_facts hγm
            have hγemp : ∀ rc ∈ γ, getCell b2 rc.1 rc.2 = EMPTY :=
              fun rc hrc => availCells_empty_mem (hγmem rc hrc)
            have hγreg : ∀ rc ∈ γ, rc ∈ regionCells P (bestChoice c cs2).id :=
              fun rc hrc => (List.mem_filter.mp (hγmem rc hrc)).1
            have hvalcells : ∀ rc ∈ γ, isPlacementValid P.dim b2 rc.1 rc.2 = true := by
              intro rc hrc
              have hx := List.all_eq_true.mp hγval rc hrc
              simpa using hx
            apply ih
            · rw [List.length_erase_of_mem hrid_u]
              have hupos : 0 < u.length := List.length_pos.mpr hunil
              omega
            · exact SInv_placeStars hSb2 hγemp hγpair hvalcells
            · exact hnd.erase _
            · intro id hid
              exact hu id (List.mem_of_mem_erase hid)
            · intro id hid hidu
              by_cases hidr : id = (bestChoice c cs2).id
              · subst hidr
                have hin := starCount_placeStars_in hγnd hγemp regionCells_nodup hγreg
                have hle := (fullPass_fix_groups hfix _ (regionCells_mem_groups hid)).1
                rw [hin, hγlen]
                omega
              · have hidu2 : id ∉ u := fun hmm =>
                  hidu ((List.mem_erase_of_ne hidr).mpr hmm)
                have hout := starCount_placeStars_out hγnd hγemp
                  (fun rc hrc hrcg => hidr (regionCells_disjoint hrcg (hγreg rc hrc)))
                rw [hout]
                exact hSAT2 id hid hidu2
            · exact hst2
          have hzero : ∀ γ ∈ (bestChoice c cs2).combos,
              γ.all (fun rc => isPlacementValid P.dim b2 rc.1 rc.2) = false →
              numCons P (placeStars b2 γ) (u.erase (bestChoice c cs2).id) = 0 := by
            intro γ hγm hγinv
            rw [hcombos_eq] at hγm
            obtain ⟨hγ1, hγ2, hγnd, hγmem, hγ5⟩ := gic_mem_facts hγm
            exact numCons_invalid_combo hSb2.1 hγnd
              (fun rc hrc => availCells_empty_mem (hγmem rc hrc)) hγinv
          have hsum := numCons_branch hSb2.1 hrid_u hnd hrid_reg
          rw [← hcombos_eq] at hsum
          have hb : st.solutions.length = (bumpStats depth st).solutions.length := rfl
          rw [hsum, hb]
          exact goCombos_count hrec hzero
            (show (bumpStats depth st).solutions.length < 2 from hst)

/-- C2.  Completeness up to two: for every puzzle model, if the full set
of star placements satisfying all constraints — enumerated as the
duplicate-free list of all `N × N` 0/1 boards that pass the independent
validity test `isValidSolution` (exactly `k` stars in every row, column
and region, no two stars 8-adjacent) — has `m` elements, then
`UltimateStarBattleSolver.solve` returns exactly `min m 2` solutions:
the optimised propagation-plus-branching solver agrees with a naive
brute-force enumeration capped at two solutions. -/
theorem C2_solve_complete (P : Puzzle) :
    (solve P).1.length =
      min (((allBinBoards P.dim).filter (fun s => isValidSolution P s)).length) 2 := by
  have hroot := @backtrack_count P ((regionIds P).length + 1) (initialBoard P.dim)
    (regionIds P) 0 ⟨[], 0, 0⟩ (Nat.lt_succ_self _) (SInv_initialBoard P.dim)
    (regionIds_nodup P) (fun id hid => hid)
    (fun id hid hnid => absurd hid hnid) (by decide)
  show (backtrackFuel P ((regionIds P).length + 1) (initialBoard P.dim) (regionIds P) 0
      ⟨[], 0, 0⟩).solutions.length = _
  rw [hroot, numCons_root, List.countP_eq_length_filter]
  show min (0 + ((allBinBoards P.dim).filter (fun s => isValidSolution P s)).length) 2 = _
  omega

end StarBattle
